import Mathlib

/-!
# SimCommSys core: safe BCJR selection, trellis decoding, channel parameters

A shallow embedding of the parts of the library that the specification talks
about, followed by the properties proved about them.

* `safe_bcjr.h`      : which `bcjr<real, dbl, norm>` engine each `safe_bcjr<real, dbl>` derives from
* `channel.cpp`      : `channel<sigspace>` and its signal-to-noise bookkeeping
* `laplacian.h`      : `laplacian<S, C>` parameter handling, likelihood and noise generation
* `assertalways.h`   : the always-on assertion
* `direct_blockembedder.cpp` : block embedding and extraction (`doembed`, `doextract`)
* `rand_lut.cpp`     : the self-terminating random interleaver (`init`, `advance`)
* `commsys_errorrates.h` : the number of results per decoding iteration
* `logreal.cpp`      : the mantissa and exponent printed for a log-domain value
* the trellis decoding engine, the codec on top of it, the recursive systematic encoder
  and the log-domain arithmetic: their sources (`bcjr.h`, `fsm.h`, `rscc.cpp`, `logreal.h`)
  are not available, they are modelled from the specification

Floating point numbers are modelled by exact numbers (an ordered field or semifield, or the
reals where `pow` and `log10` are needed).  Where the behaviour of a `double` differs in kind
from that of an exact number, it is modelled as well: `ieee_double` has the not-a-number
value, `double_underflow` the range towards zero, and the definitions with `_rounded` in their
name pass every stored number through such a hook.
-/

namespace libcomm

/-! ## safe_bcjr.h -/

/-- The numeric types that can be supplied as the template arguments `real` and `dbl`.
`other n` stands for any further type (for instance a multi-precision real). -/
inductive NumType where
  | float
  | double
  | logreal
  | logrealfast
  | other (n : Nat)
  deriving DecidableEq, Repr

/-- An instantiation `bcjr<real, dbl, norm>` of the engine template. -/
structure bcjr_inst where
  real : NumType
  dbl : NumType
  norm : Bool
  deriving DecidableEq, Repr

/-- Modelled from the spec: the declaration of the `bcjr` template (`bcjr.h`) is not part of the
sources; its third parameter, the normalization flag, defaults to "no normalization", as the
documentation of the primary `safe_bcjr` template says ("Standard template (no normalization)"). -/
def bcjr_norm_default : Bool := false

/-- The base class of `safe_bcjr<real, dbl>`: the three explicit specializations
`<double, double>`, `<float, float>` and `<float, double>` derive from `bcjr<real, dbl, true>`;
every other instantiation uses the primary template, deriving from `bcjr<real, dbl>`. -/
def safe_bcjr (real dbl : NumType) : bcjr_inst :=
  match real, dbl with
  | .double, .double => ⟨.double, .double, true⟩
  | .float, .float => ⟨.float, .float, true⟩
  | .float, .double => ⟨.float, .double, true⟩
  | r, d => ⟨r, d, bcjr_norm_default⟩

/-- The public constructor `safe_bcjr(fsm& encoder, const int tau)`: its member initializer
calls the constructor of the base class with the same two arguments and its body is empty.
The constructor of the base engine is a parameter (`bcjr.h` is not part of the sources). -/
def safe_bcjr_ctor {F obj : Type} (bcjr_ctor : bcjr_inst → F → Int → obj)
    (real dbl : NumType) (encoder : F) (tau : Int) : obj :=
  bcjr_ctor (safe_bcjr real dbl) encoder tau

/-! ## assertalways.h -/

/-- The macro `assertalways(_Expression)`: nothing happens when the expression holds, otherwise
the program fails, reporting the text of the expression. -/
def assertalways (expression : Bool) (text : String) : Except String Unit :=
  if expression then .ok () else .error text

/-! ## channel/laplacian.h -/

/-- The data member of `basic_laplacian` (`double lambda`). -/
structure basic_laplacian (α : Type) where
  lambda : α

/-- The method `laplacian::set_parameter(const double x)`: asserts `x >= 0`, then stores `x`.
The result is the outcome of the call together with the object after it.  The numbers `α` need
no more than the comparison `<=` and a zero, so that they can be the rationals or the reals as
well as `ieee_double` below, whose not-a-number value compares false with everything. -/
def basic_laplacian.set_parameter {α : Type} [LE α] [DecidableRel (fun a b : α => a ≤ b)]
    [Zero α] (c : basic_laplacian α) (x : α) : Except String Unit × basic_laplacian α :=
  match assertalways (decide (x ≥ 0)) "x >= 0" with
  | .error e => (.error e, c)
  | .ok () => (.ok (), { c with lambda := x })

/-- The method `laplacian::get_parameter()`. -/
def basic_laplacian.get_parameter {α : Type} (c : basic_laplacian α) : α :=
  c.lambda

/-- The values a `double` can take, as far as comparison and assignment see them: a real
number or one of the two infinities (`val`), or the not-a-number value (`nan`). -/
inductive ieee_double where
  | val (x : EReal)
  | nan

/-- The comparison `a <= b` of two doubles: false as soon as one of them is not a number. -/
def ieee_double.le : ieee_double → ieee_double → Prop
  | .val x, .val y => x ≤ y
  | _, _ => False

/-- The comparison `a < b` of two doubles: false as soon as one of them is not a number. -/
def ieee_double.lt : ieee_double → ieee_double → Prop
  | .val x, .val y => x < y
  | _, _ => False

instance : Zero ieee_double := ⟨.val 0⟩

instance : LE ieee_double := ⟨ieee_double.le⟩

instance : LT ieee_double := ⟨ieee_double.lt⟩

noncomputable instance ieee_double.decidable_le :
    DecidableRel (fun a b : ieee_double => a ≤ b) :=
  fun _ _ => Classical.propDecidable _

/-! ## channel.cpp -/

/-- The data members of `channel<sigspace>` (`Eb`, `No`, `snr_db`) together with the state
`derived` of the derived class, which the handle `compute_parameters` updates. -/
structure channel (D : Type) where
  Eb : ℝ
  No : ℝ
  snr_db : ℝ
  derived : D

/-- The method `channel<sigspace>::compute_noise()`. -/
noncomputable def channel.compute_noise {D : Type} (compute_parameters : ℝ → ℝ → D → D)
    (c : channel D) : channel D :=
  let No := 0.5 * (10 : ℝ) ^ (-c.snr_db / 10)
  { c with No := No, derived := compute_parameters c.Eb No c.derived }

/-- The method `channel<sigspace>::set_eb(const double Eb)`. -/
noncomputable def channel.set_eb {D : Type} (compute_parameters : ℝ → ℝ → D → D)
    (c : channel D) (Eb : ℝ) : channel D :=
  channel.compute_noise compute_parameters { c with Eb := Eb }

/-- The method `channel<sigspace>::set_no(const double No)`. -/
noncomputable def channel.set_no {D : Type} (compute_parameters : ℝ → ℝ → D → D)
    (c : channel D) (No : ℝ) : channel D :=
  channel.compute_noise compute_parameters { c with snr_db := -10 * Real.logb 10 (2 * No) }

/-- The method `channel<sigspace>::set_parameter(const double snr_db)`. -/
noncomputable def channel.set_parameter {D : Type} (compute_parameters : ℝ → ℝ → D → D)
    (c : channel D) (snr_db : ℝ) : channel D :=
  channel.compute_noise compute_parameters { c with snr_db := snr_db }

/-- The constructor `channel<sigspace>::channel()`: `Eb = 1; set_parameter(0);`.  The members
`No` and `snr_db` hold no defined value before it runs; `raw` is the object as allocated.
While this constructor runs the object is a `channel<sigspace>` and nothing more: the virtual
call `compute_parameters(Eb, No)` that `compute_noise` makes is bound to the body that
`channel<sigspace>` itself gives to the handle, never to the override of a class derived from
it.  That body is the parameter `base_compute_parameters` (`channel.h` is not among the
sources); the override of the derived class takes no part in the construction. -/
noncomputable def channel.construct {D : Type} (base_compute_parameters : ℝ → ℝ → D → D)
    (raw : channel D) : channel D :=
  channel.set_parameter base_compute_parameters { raw with Eb := 1 } 0

/-! ## The trellis decoding engine

The engine itself (`bcjr.h`, `fsm.h` and the codec that drives them) is not among the sources;
what follows is the engine as the specification describes it (sections 3, 4.1, 4.3, 4.4 and 7).
The numbers `R` are the arithmetic policy; states, input symbols and output symbols are
`Fin S`, `Fin q` and `Fin qo`. -/

/-- Modelled from the spec: the FSM of section 4.1 (`fsm.h` is missing): a transition is a pure,
total function of (current state, input symbol) to (next state, output symbol). -/
structure fsm (S q qo : ℕ) where
  next : Fin S → Fin q → Fin S
  output : Fin S → Fin q → Fin qo

/-- Modelled from the spec: the two negative outcomes of a decode call (section 7 and the edge
cases of section 4.3; `bcjr.h` is missing): the decode failure reported for an all-zero
probability row, and a division by a zero sum while rescaling. -/
inductive decode_error where
  | infeasible
  | division_by_zero
  deriving DecidableEq, Repr

/-- Modelled from the spec: the inputs of the engine (section 4.3; `bcjr.h` is missing): block
length `tau`, branch metrics `gamma t s_prev s_next` for `t` in `[1, tau]`, and the start and end
distributions `alpha_0` and `beta_tau` that the start/end-state policy yields. -/
structure bcjr_input (R : Type) (S : ℕ) where
  tau : ℕ
  gamma : ℕ → Fin S → Fin S → R
  alpha0 : Fin S → R
  betatau : Fin S → R

/-- Modelled from the spec: the start or end distribution of a fixed trellis (section 3; `bcjr.h`
is missing): a single state with unit mass. -/
def unit_mass {R : Type} [Zero R] [One R] {S : ℕ} (s : Fin S) : Fin S → R :=
  fun x => if x = s then 1 else 0

/-- Modelled from the spec: the uniform start or end distribution (section 4.3; `bcjr.h` is
missing). -/
def uniform_mass {R : Type} [One R] {S : ℕ} : Fin S → R :=
  fun _ => 1

/-- Modelled from the spec: the test for an all-zero probability row, reported as a decode failure
(sections 4.3 and 7; `bcjr.h` is missing). -/
def check_row {R : Type} [Zero R] [DecidableEq R] {n : ℕ} (v : Fin n → R) :
    Except decode_error (Fin n → R) :=
  if ∀ i, v i = 0 then .error .infeasible else .ok v

/-- Modelled from the spec: rescaling of a vector to unit sum (section 4.3; `bcjr.h` is missing).
Dividing by a zero sum is recorded as such. -/
def rescale {R : Type} [Semifield R] [DecidableEq R] {n : ℕ} (v : Fin n → R) :
    Except decode_error (Fin n → R) :=
  if (∑ i, v i) = 0 then .error .division_by_zero else .ok (fun i => v i / ∑ k, v k)

/-- Modelled from the spec: what happens to a freshly computed alpha or beta vector (section 4.3;
`bcjr.h` is missing): an all-zero row is reported; under the normalized policy the row is
rescaled to unit sum. -/
def settle {R : Type} [Semifield R] [DecidableEq R] {n : ℕ} (norm : Bool) (v : Fin n → R) :
    Except decode_error (Fin n → R) :=
  (check_row v).bind fun w => if norm then rescale w else .ok w

/-- The states from which some transition leads to `s`. -/
def predecessors {S q : ℕ} (next : Fin S → Fin q → Fin S) (s : Fin S) : Finset (Fin S) :=
  Finset.univ.filter fun p => ∃ i, next p i = s

/-- The states to which some transition leads from `s`. -/
def successors {S q : ℕ} (next : Fin S → Fin q → Fin S) (s : Fin S) : Finset (Fin S) :=
  Finset.univ.filter fun n => ∃ i, next s i = n

/-- Modelled from the spec: one step of the forward pass (section 4.3; `bcjr.h` is missing):
`alpha_t(s)` is the sum over the predecessors `p` of `s` of `alpha_{t-1}(p) * gamma_t(p, s)`. -/
def forward_step {R : Type} [Semifield R] {S q : ℕ} (next : Fin S → Fin q → Fin S)
    (g : Fin S → Fin S → R) (a : Fin S → R) : Fin S → R :=
  fun s => ∑ p in predecessors next s, a p * g p s

/-- Modelled from the spec: one step of the backward pass (section 4.3; `bcjr.h` is missing):
`beta_t(s)` is the sum over the successors `n` of `s` of `gamma_{t+1}(s, n) * beta_{t+1}(n)`. -/
def backward_step {R : Type} [Semifield R] {S q : ℕ} (next : Fin S → Fin q → Fin S)
    (g : Fin S → Fin S → R) (b : Fin S → R) : Fin S → R :=
  fun s => ∑ n in successors next s, g s n * b n

/-- Modelled from the spec: the forward pass (section 4.3; `bcjr.h` is missing): `alpha_0` is set
from the start-state policy, then `alpha_t` follows from `alpha_{t-1}` for `t = 1..tau`. -/
def alpha {R : Type} [Semifield R] [DecidableEq R] {S q : ℕ} (norm : Bool)
    (next : Fin S → Fin q → Fin S) (inp : bcjr_input R S) : ℕ → Except decode_error (Fin S → R)
  | 0 => check_row inp.alpha0
  | t + 1 => (alpha norm next inp t).bind fun a =>
      settle norm (forward_step next (inp.gamma (t + 1)) a)

/-- Modelled from the spec: the backward pass (section 4.3; `bcjr.h` is missing), counted from the
end of the block: `beta_back k` is `beta_{tau-k}`; `beta_tau` is set from the end-state policy. -/
def beta_back {R : Type} [Semifield R] [DecidableEq R] {S q : ℕ} (norm : Bool)
    (next : Fin S → Fin q → Fin S) (inp : bcjr_input R S) : ℕ → Except decode_error (Fin S → R)
  | 0 => check_row inp.betatau
  | k + 1 => (beta_back norm next inp k).bind fun b =>
      settle norm (backward_step next (inp.gamma (inp.tau - k)) b)

/-- The backward metric `beta_t` of the backward pass. -/
def beta {R : Type} [Semifield R] [DecidableEq R] {S q : ℕ} (norm : Bool)
    (next : Fin S → Fin q → Fin S) (inp : bcjr_input R S) (t : ℕ) :
    Except decode_error (Fin S → R) :=
  beta_back norm next inp (inp.tau - t)

/-- Modelled from the spec: the combination (section 4.3; `bcjr.h` is missing): for input symbol
`j` the sum, over all transitions whose input label is `j`, of
`alpha_{t-1}(s_prev) * gamma_t(s_prev, s_next) * beta_t(s_next)`. -/
def app_row {R : Type} [Semifield R] {S q : ℕ} (next : Fin S → Fin q → Fin S)
    (g : Fin S → Fin S → R) (a b : Fin S → R) : Fin q → R :=
  fun j => ∑ p, a p * g p (next p j) * b (next p j)

/-- Modelled from the spec: the a-posteriori distribution of timestep `t` in `[1, tau]`
(section 4.3; `bcjr.h` is missing): the combination, normalized to sum to 1 whatever the
arithmetic policy. -/
def app {R : Type} [Semifield R] [DecidableEq R] {S q : ℕ} (norm : Bool)
    (next : Fin S → Fin q → Fin S) (inp : bcjr_input R S) (t : ℕ) :
    Except decode_error (Fin q → R) :=
  (alpha norm next inp (t - 1)).bind fun a =>
    (beta norm next inp t).bind fun b =>
      (check_row (app_row next (inp.gamma t) a b)).bind rescale

/-- Runs `f 0`, ..., `f (n - 1)` in this order and gathers the results; the first failure is the
failure of the whole. -/
def collect {ε α : Type} (f : ℕ → Except ε α) : ℕ → Except ε (List α)
  | 0 => .ok []
  | n + 1 => (collect f n).bind fun xs => (f n).bind fun x => .ok (xs ++ [x])

/-- Modelled from the spec: one decode call (sections 4.3 and 5; `bcjr.h` is missing): the forward
pass and the backward pass both complete, then the a-posteriori table is built, one
distribution per timestep `1..tau`. -/
def decode {R : Type} [Semifield R] [DecidableEq R] {S q : ℕ} (norm : Bool)
    (next : Fin S → Fin q → Fin S) (inp : bcjr_input R S) :
    Except decode_error (List (Fin q → R)) :=
  (collect (alpha norm next inp) (inp.tau + 1)).bind fun _ =>
    (collect (beta_back norm next inp) (inp.tau + 1)).bind fun _ =>
      collect (fun t => app norm next inp (t + 1)) inp.tau

/-- The forward recursion of section 4.3 without rescaling and without failure reports. -/
def alpha_plain {R : Type} [Semifield R] {S q : ℕ} (next : Fin S → Fin q → Fin S)
    (inp : bcjr_input R S) : ℕ → Fin S → R
  | 0 => inp.alpha0
  | t + 1 => forward_step next (inp.gamma (t + 1)) (alpha_plain next inp t)

/-- The backward recursion of section 4.3 without rescaling and without failure reports, counted
from the end of the block. -/
def beta_plain_back {R : Type} [Semifield R] {S q : ℕ} (next : Fin S → Fin q → Fin S)
    (inp : bcjr_input R S) : ℕ → Fin S → R
  | 0 => inp.betatau
  | k + 1 => backward_step next (inp.gamma (inp.tau - k)) (beta_plain_back next inp k)

/-- The backward metric `beta_t` without rescaling. -/
def beta_plain {R : Type} [Semifield R] {S q : ℕ} (next : Fin S → Fin q → Fin S)
    (inp : bcjr_input R S) (t : ℕ) : Fin S → R :=
  beta_plain_back next inp (inp.tau - t)

/-- The state reached after `t` steps from `s0` under the inputs `i 0`, `i 1`, ... . -/
def path_state {S q : ℕ} (next : Fin S → Fin q → Fin S) (s0 : Fin S) (i : ℕ → Fin q) :
    ℕ → Fin S
  | 0 => s0
  | t + 1 => next (path_state next s0 i t) (i t)

/-- A feasible path through the trellis: a start state of positive start mass, a transition of
positive branch metric at every timestep, and an end state of positive end mass. -/
def feasible_path {R : Type} [Zero R] [LT R] {S q : ℕ} (next : Fin S → Fin q → Fin S)
    (inp : bcjr_input R S) (s0 : Fin S) (i : ℕ → Fin q) : Prop :=
  0 < inp.alpha0 s0 ∧
  (∀ t, t < inp.tau →
    0 < inp.gamma (t + 1) (path_state next s0 i t) (path_state next s0 i (t + 1))) ∧
  0 < inp.betatau (path_state next s0 i inp.tau)

/-- The inputs are well formed: branch metrics and start and end masses are non-negative. -/
def nonneg_input {R : Type} [Zero R] [LE R] {S : ℕ} (inp : bcjr_input R S) : Prop :=
  (∀ t p s, 0 ≤ inp.gamma t p s) ∧ (∀ s, 0 ≤ inp.alpha0 s) ∧ (∀ s, 0 ≤ inp.betatau s)

/-- The a-posteriori distribution of timestep `t` in `[1, tau]` obtained from the plain forward
and backward metrics: the combination of section 4.3 divided by its sum. -/
def app_plain {R : Type} [Semifield R] {S q : ℕ} (next : Fin S → Fin q → Fin S)
    (inp : bcjr_input R S) (t : ℕ) : Fin q → R :=
  fun j =>
    app_row next (inp.gamma t) (alpha_plain next inp (t - 1)) (beta_plain next inp t) j /
      ∑ k, app_row next (inp.gamma t) (alpha_plain next inp (t - 1)) (beta_plain next inp t) k

/-- The same inputs in another arithmetic policy: every number is converted by `φ`. -/
def bcjr_input.map {R R' : Type} {S : ℕ} (φ : R → R') (inp : bcjr_input R S) :
    bcjr_input R' S :=
  ⟨inp.tau, fun t p s => φ (inp.gamma t p s), fun s => φ (inp.alpha0 s),
    fun s => φ (inp.betatau s)⟩

/-- A two-state trellis with two input symbols: the next state is the sum of state and input. -/
def example_next : Fin 2 → Fin 2 → Fin 2 :=
  fun s i => s + i

/-- A block of two timesteps on the two-state trellis: every branch metric is one half, the start
state is 0 and the end state is open. -/
def example_input : bcjr_input ℚ 2 :=
  ⟨2, fun _ _ _ => 1 / 2, unit_mass 0, uniform_mass⟩

/-- A block of two timesteps on the two-state trellis in which no transition is possible. -/
def example_blocked : bcjr_input ℚ 2 :=
  ⟨2, fun _ _ _ => 0, unit_mass 0, uniform_mass⟩

/-! ## The engine on numbers of bounded range

The arithmetic policies differ in what the representation does to a number when it is stored
(section 4.2): the exact engine above stores every number as it is; a machine representation
of bounded range does not.  The engine is repeated here with a hook `rnd` through which every
stored number passes. -/

/-- Modelled from the spec: what happens to a freshly computed alpha or beta vector when every
number that is stored passes through `rnd` first (the effect of the representation, section
4.2; `bcjr.h` is missing): the stored row is tested for being all zero, and under the
normalized policy it is rescaled and stored again. -/
def settle_rounded {R : Type} [Semifield R] [DecidableEq R] {n : ℕ} (rnd : R → R) (norm : Bool)
    (v : Fin n → R) : Except decode_error (Fin n → R) :=
  (check_row fun i => rnd (v i)).bind fun w =>
    if norm then (rescale w).bind fun x => .ok fun i => rnd (x i) else .ok w

/-- Modelled from the spec: the forward pass of `alpha` with every stored metric passing
through `rnd` (`bcjr.h` is missing). -/
def alpha_rounded {R : Type} [Semifield R] [DecidableEq R] {S q : ℕ} (rnd : R → R) (norm : Bool)
    (next : Fin S → Fin q → Fin S) (inp : bcjr_input R S) : ℕ → Except decode_error (Fin S → R)
  | 0 => check_row inp.alpha0
  | t + 1 => (alpha_rounded rnd norm next inp t).bind fun a =>
      settle_rounded rnd norm (forward_step next (inp.gamma (t + 1)) a)

/-- Modelled from the spec: the backward pass of `beta_back` with every stored metric passing
through `rnd` (`bcjr.h` is missing). -/
def beta_back_rounded {R : Type} [Semifield R] [DecidableEq R] {S q : ℕ} (rnd : R → R)
    (norm : Bool) (next : Fin S → Fin q → Fin S) (inp : bcjr_input R S) :
    ℕ → Except decode_error (Fin S → R)
  | 0 => check_row inp.betatau
  | k + 1 => (beta_back_rounded rnd norm next inp k).bind fun b =>
      settle_rounded rnd norm (backward_step next (inp.gamma (inp.tau - k)) b)

/-- Modelled from the spec: the a-posteriori distribution of `app` with every stored number
passing through `rnd` (`bcjr.h` is missing). -/
def app_rounded {R : Type} [Semifield R] [DecidableEq R] {S q : ℕ} (rnd : R → R) (norm : Bool)
    (next : Fin S → Fin q → Fin S) (inp : bcjr_input R S) (t : ℕ) :
    Except decode_error (Fin q → R) :=
  (alpha_rounded rnd norm next inp (t - 1)).bind fun a =>
    (beta_back_rounded rnd norm next inp (inp.tau - t)).bind fun b =>
      (check_row fun j => rnd (app_row next (inp.gamma t) a b j)).bind fun w =>
        (rescale w).bind fun x => .ok fun j => rnd (x j)

/-- Modelled from the spec: one decode call of `decode` with every stored number passing
through `rnd` (`bcjr.h` is missing).  With `rnd` the identity this is `decode`. -/
def decode_rounded {R : Type} [Semifield R] [DecidableEq R] {S q : ℕ} (rnd : R → R)
    (norm : Bool) (next : Fin S → Fin q → Fin S) (inp : bcjr_input R S) :
    Except decode_error (List (Fin q → R)) :=
  (collect (alpha_rounded rnd norm next inp) (inp.tau + 1)).bind fun _ =>
    (collect (beta_back_rounded rnd norm next inp) (inp.tau + 1)).bind fun _ =>
      collect (fun t => app_rounded rnd norm next inp (t + 1)) inp.tau

/-- A block of a thousand timesteps on the two-state trellis: every branch metric is one
tenth, the start state is 0 and the end state is open. -/
def long_input : bcjr_input ℚ 2 :=
  ⟨1000, fun _ _ _ => 1 / 10, unit_mass 0, uniform_mass⟩

/-! ## The codec on top of the engine -/

/-- The state in which the FSM is after the inputs `u`, starting from `s`. -/
def fsm.run {S q qo : ℕ} (m : fsm S q qo) (s : Fin S) : List (Fin q) → Fin S
  | [] => s
  | a :: u => m.run (m.next s a) u

/-- Modelled from the spec: `encode(source symbols)` of section 4.4 (the codec is missing): the
output symbols of the transitions taken, starting from state `s`. -/
def fsm.encode {S q qo : ℕ} (m : fsm S q qo) (s : Fin S) : List (Fin q) → List (Fin qo)
  | [] => []
  | a :: u => m.output s a :: m.encode (m.next s a) u

/-- Modelled from the spec: the likelihood table of a channel with zero noise (section 8; the
channel is an external collaborator): at timestep `t` in `[1, tau]` the likelihood is 1 for the
symbol actually transmitted and 0 for every other symbol. -/
def noiseless {R : Type} [Zero R] [One R] {qo : ℕ} (tx : List (Fin qo)) : ℕ → Fin qo → R :=
  fun t o => if tx[t - 1]? = some o then 1 else 0

/-- Modelled from the spec: the branch metrics that the codec derives from the channel
likelihoods (sections 3 and 4.4; the codec is missing): the metric of the pair
`(s_prev, s_next)` is the likelihood of the output symbol of the transition between them
(summed, should several inputs lead from `s_prev` to `s_next`); no a-priori information. -/
def branch_metric {R : Type} [Semifield R] {S q qo : ℕ} (m : fsm S q qo)
    (likelihood : ℕ → Fin qo → R) : ℕ → Fin S → Fin S → R :=
  fun t p s => ∑ i in Finset.univ.filter (fun i => m.next p i = s), likelihood t (m.output p i)

/-- Modelled from the spec: the hard decision of section 2 (the codec is missing): the most
probable input symbol, the first one among equally probable symbols. -/
def hard_decision {R : Type} [LinearOrder R] {q : ℕ} (v : Fin q → R) : Option (Fin q) :=
  Fin.find fun j => ∀ k, v k ≤ v j

/-- Modelled from the spec: `init_decoder` followed by `decode()` of section 4.4 (the codec is
missing): one pass of the engine on the branch metrics derived from the cached likelihood
table, then the hard decision at every timestep. -/
def codec_decode {R : Type} [LinearOrderedSemifield R] {S q qo : ℕ} (norm : Bool)
    (m : fsm S q qo) (likelihood : ℕ → Fin qo → R) (tau : ℕ) (alpha0 betatau : Fin S → R) :
    Except decode_error (List (Option (Fin q))) :=
  (decode norm m.next ⟨tau, branch_metric m likelihood, alpha0, betatau⟩).map
    (List.map hard_decision)

/-- An FSM with two states whose state is the last input symbol and whose only output symbol
tells nothing about the input. -/
def silent_fsm : fsm 2 2 1 :=
  ⟨fun _ i => i, fun _ _ => 0⟩

/-- The encoder's path is the only path: every block of inputs which, from a start state of
positive start mass, emits the symbols that `u` emits from `s0` and ends in a state of positive
end mass, is `u` itself. -/
def single_path {R : Type} [Zero R] [LT R] {S q qo : ℕ} (m : fsm S q qo) (u : List (Fin q))
    (s0 : Fin S) (alpha0 betatau : Fin S → R) : Prop :=
  ∀ (s : Fin S) (w : List (Fin q)), 0 < alpha0 s → 0 < betatau (m.run s w) →
    m.encode s w = m.encode s0 u → w = u

/-- An FSM with a single state that sends its input symbol as it is: its two transitions are
parallel, both lead from the state to itself. -/
def uncoded_fsm : fsm 1 2 2 :=
  ⟨fun _ _ => 0, fun _ i => i⟩

/-- A differential encoder as an FSM: the state is the last input symbol, the output symbol is
the sum of state and input. -/
def differential_fsm : fsm 2 2 2 :=
  ⟨fun _ i => i, fun s i => s + i⟩

/-- The non-systematic convolutional encoder with generator polynomials `1 + D + D^2` and
`1 + D^2` as an FSM: the state `2 * s1 + s2` holds the last two input bits, the output symbol
`2 * y1 + y2` the two parity bits `y1 = u + s1 + s2` and `y2 = u + s2`. -/
def nsc_75 : fsm 4 2 4 :=
  ⟨fun s u => ⟨2 * u.val + s.val / 2, by omega⟩,
    fun s u => ⟨2 * ((u.val + s.val / 2 + s.val % 2) % 2) + (u.val + s.val % 2) % 2, by omega⟩⟩

/-! ## fsm/rscc.h -/

/-- Modelled from the spec: the recursive systematic convolutional encoder of section 4.1
(`ccbfsm.h` and `rscc.cpp` are missing; `rscc.h` shows the constructor from a matrix of bit
fields, the inputs as a vector and the feed-in as a bit field): binary, with `k` inputs and `n`
outputs; input `i` has a shift register of `m i` cells of its own, and entry `(i, j)` of the
generator matrix is a polynomial of `m i + 1` coefficients, coefficient 0 on the bit that
enters the register and coefficient `l + 1` on cell `l`. -/
structure rscc (k n : ℕ) (m : Fin k → ℕ) where
  generator : (i : Fin k) → Fin n → Fin (m i + 1) → ZMod 2

/-- The register cells of the encoder: cell `l` of the register of input `i`. -/
abbrev rscc.cell {k : ℕ} (m : Fin k → ℕ) : Type :=
  (i : Fin k) × Fin (m i)

/-- Modelled from the spec: the feedback term of section 4.1 (`rscc.cpp` is missing): the
feedback polynomial of input `i` is entry `(i, i)` of the generator matrix, the entry of the
systematic output of that input. -/
def rscc.feedback {k n : ℕ} {m : Fin k → ℕ} (enc : rscc k n m) (i : Fin k) :
    Fin (m i + 1) → ZMod 2 :=
  if h : i.val < n then enc.generator i ⟨i.val, h⟩ else fun _ => 0

/-- Modelled from the spec: `determinefeedin` (section 4.1; `rscc.cpp` is missing): for every
input the bit that enters its register, the input bit and the register cells combined by the
feedback polynomial. -/
def rscc.determinefeedin {k n : ℕ} {m : Fin k → ℕ} (enc : rscc k n m)
    (s : rscc.cell m → ZMod 2) (u : Fin k → ZMod 2) : Fin k → ZMod 2 :=
  fun i => enc.feedback i 0 * u i + ∑ l : Fin (m i), enc.feedback i l.succ * s ⟨i, l⟩

/-- Modelled from the spec: one transition of the encoder (section 4.1; `ccbfsm.h` is missing):
in every register the feed-in bit enters cell 0 and every other cell takes the content of the
cell before it. -/
def rscc.advance {k n : ℕ} {m : Fin k → ℕ} (enc : rscc k n m) (s : rscc.cell m → ZMod 2)
    (u : Fin k → ZMod 2) : rscc.cell m → ZMod 2 :=
  fun c => if c.2.val = 0 then enc.determinefeedin s u c.1
    else if h : c.2.val - 1 < m c.1 then s ⟨c.1, ⟨c.2.val - 1, h⟩⟩ else 0

/-- The state in which the encoder is after encoding the block `u`, starting from `s`. -/
def rscc.run {k n : ℕ} {m : Fin k → ℕ} (enc : rscc k n m) (s : rscc.cell m → ZMod 2) :
    List (Fin k → ZMod 2) → rscc.cell m → ZMod 2
  | [] => s
  | a :: u => enc.run (enc.advance s a) u

/-- The matrix of one transition under input zero (the state evolution is linear over the field
with two elements). -/
def rscc.stategen {k n : ℕ} {m : Fin k → ℕ} (enc : rscc k n m) :
    Matrix (rscc.cell m) (rscc.cell m) (ZMod 2) :=
  fun r c => if r.1 = c.1 then
      (if r.2.val = 0 then enc.feedback c.1 c.2.succ else if c.2.val + 1 = r.2.val then 1 else 0)
    else 0

/-- Modelled from the spec: `resetcircular(zerostate, n)` (section 4.1; `rscc.cpp` is missing):
from the state `zerostate` reached by encoding the block from the zero state, the start state
`c` with `c = G^n c + zerostate` is computed directly, by solving `(1 + G^n) c = zerostate`;
there is no result when `1 + G^n` is singular. -/
def rscc.resetcircular {k n : ℕ} {m : Fin k → ℕ} (enc : rscc k n m)
    (zerostate : rscc.cell m → ZMod 2) (len : ℕ) : Option (rscc.cell m → ZMod 2) :=
  if (1 + enc.stategen ^ len).det = 0 then none
  else some ((1 + enc.stategen ^ len).adjugate.mulVec zerostate)

/-- The accumulator: one input, one register cell that takes part in the recursion (feedback
polynomial `1 + D`); the outputs are the input and the content of the cell. -/
def accumulator : rscc 1 2 (fun _ => 1) :=
  ⟨fun _ j l => if j.val = 0 then 1 else if l.val = 0 then 0 else 1⟩

/-- The encoder with one input and two register cells, both taking part in the recursion
(feedback polynomial `1 + D + D^2`, feed-forward polynomial `1 + D^2`). -/
def rscc_7 : rscc 1 2 (fun _ => 2) :=
  ⟨fun _ j l => if j.val = 0 then 1 else if l.val = 1 then 0 else 1⟩

/-! ## The log-domain arithmetic policy -/

/-- Modelled from the spec: the log-domain surrogate of section 4.2 (`logreal.h` is missing;
`logreal.cpp` shows the member `logval`): a probability `v` is represented by
`logval = -ln v`, the probability zero by `logval = ⊤`. -/
structure logreal where
  logval : WithTop ℝ

/-- Modelled from the spec: conversion to ordinary probability (section 4.2; `logreal.h` is
missing): the probability `exp(-logval)` that a log-domain value stands for. -/
noncomputable def logreal.value (x : logreal) : NNReal :=
  match x.logval with
  | none => 0
  | some a => ⟨Real.exp (-a), (Real.exp_pos _).le⟩

/-- Modelled from the spec: conversion from ordinary probability (section 4.2; `logreal.h` is
missing). -/
noncomputable def logreal.of_value (v : NNReal) : logreal :=
  if v = 0 then ⟨⊤⟩ else ⟨((-Real.log v : ℝ) : WithTop ℝ)⟩

/-- The probability zero. -/
noncomputable instance : Zero logreal := ⟨⟨⊤⟩⟩
/-- The probability one. -/
instance : One logreal := ⟨⟨((0 : ℝ) : WithTop ℝ)⟩⟩
/-- Modelled from the spec: multiplication is log addition (section 4.2; `logreal.h` is
missing). -/
noncomputable instance : Mul logreal := ⟨fun x y => ⟨x.logval + y.logval⟩⟩
/-- Modelled from the spec: addition is a log-sum-exp combination (section 4.2; `logreal.h` is
missing). -/
noncomputable instance : Add logreal :=
  ⟨fun x y =>
    match x.logval with
    | none => y
    | some a =>
      match y.logval with
      | none => x
      | some b => ⟨((-Real.log (Real.exp (-a) + Real.exp (-b)) : ℝ) : WithTop ℝ)⟩⟩
/-- The inverse negates the logarithm; the inverse of zero is zero. -/
noncomputable instance : Inv logreal :=
  ⟨fun x =>
    match x.logval with
    | none => ⟨⊤⟩
    | some a => ⟨((-a : ℝ) : WithTop ℝ)⟩⟩
/-- Division is log subtraction. -/
noncomputable instance : Div logreal := ⟨fun x y => x * y⁻¹⟩
/-! The remaining operations are those of the probabilities represented. -/

noncomputable instance : Pow logreal ℕ := ⟨fun x n => logreal.of_value (x.value ^ n)⟩
noncomputable instance : Pow logreal ℤ := ⟨fun x n => logreal.of_value (x.value ^ n)⟩
noncomputable instance : SMul ℕ logreal := ⟨fun n x => logreal.of_value (n • x.value)⟩
noncomputable instance : SMul ℚ≥0 logreal := ⟨fun r x => logreal.of_value (r • x.value)⟩
noncomputable instance : NatCast logreal := ⟨fun n => logreal.of_value n⟩
noncomputable instance : NNRatCast logreal := ⟨fun r => logreal.of_value r⟩
noncomputable instance : Max logreal := ⟨fun x y => logreal.of_value (max x.value y.value)⟩
noncomputable instance : Min logreal := ⟨fun x y => logreal.of_value (min x.value y.value)⟩

theorem logreal.value_top : (⟨⊤⟩ : logreal).value = 0 := rfl

theorem logreal.value_coe (a : ℝ) :
    (⟨(a : WithTop ℝ)⟩ : logreal).value = ⟨Real.exp (-a), (Real.exp_pos _).le⟩ := rfl

theorem logreal.value_coe_ne_zero (a : ℝ) : (⟨(a : WithTop ℝ)⟩ : logreal).value ≠ 0 := by
  rw [logreal.value_coe]
  intro h
  have := congrArg NNReal.toReal h
  exact absurd this (ne_of_gt (Real.exp_pos _))

theorem logreal.value_of_value (v : NNReal) : (logreal.of_value v).value = v := by
  unfold logreal.of_value
  split_ifs with h
  · rw [logreal.value_top, h]
  · have hpos : (0 : ℝ) < v := by
      exact_mod_cast pos_iff_ne_zero.mpr h
    rw [logreal.value_coe]
    apply NNReal.eq
    show Real.exp (-(-Real.log v)) = v
    rw [neg_neg, Real.exp_log hpos]

theorem logreal.value_injective : Function.Injective logreal.value := by
  rintro ⟨a⟩ ⟨b⟩ h
  congr 1
  induction a using WithTop.recTopCoe with
  | top =>
    induction b using WithTop.recTopCoe with
    | top => rfl
    | coe b =>
      rw [logreal.value_top] at h
      exact absurd h.symm (logreal.value_coe_ne_zero b)
  | coe a =>
    induction b using WithTop.recTopCoe with
    | top =>
      rw [logreal.value_top] at h
      exact absurd h (logreal.value_coe_ne_zero a)
    | coe b =>
      rw [logreal.value_coe, logreal.value_coe] at h
      have h' : Real.exp (-a) = Real.exp (-b) := congrArg NNReal.toReal h
      have := Real.exp_injective h'
      rw [neg_inj] at this
      rw [this]

theorem logreal.value_zero : (0 : logreal).value = 0 := rfl

theorem logreal.value_one : (1 : logreal).value = 1 := by
  show (⟨((0 : ℝ) : WithTop ℝ)⟩ : logreal).value = 1
  rw [logreal.value_coe]
  apply NNReal.eq
  show Real.exp (-0) = 1
  rw [neg_zero, Real.exp_zero]

theorem logreal.value_mul (x y : logreal) : (x * y).value = x.value * y.value := by
  rcases x with ⟨a⟩
  rcases y with ⟨b⟩
  show (⟨a + b⟩ : logreal).value = _
  induction a using WithTop.recTopCoe with
  | top => rw [WithTop.top_add, logreal.value_top, zero_mul]
  | coe a =>
    induction b using WithTop.recTopCoe with
    | top => rw [WithTop.add_top, logreal.value_top, mul_zero]
    | coe b =>
      rw [← WithTop.coe_add, logreal.value_coe, logreal.value_coe, logreal.value_coe]
      apply NNReal.eq
      show Real.exp (-(a + b)) = Real.exp (-a) * Real.exp (-b)
      rw [neg_add, Real.exp_add]

theorem logreal.value_add (x y : logreal) : (x + y).value = x.value + y.value := by
  rcases x with ⟨a⟩
  rcases y with ⟨b⟩
  induction a using WithTop.recTopCoe with
  | top =>
    have h : ((⟨⊤⟩ : logreal) + ⟨b⟩) = ⟨b⟩ := rfl
    rw [h, logreal.value_top, zero_add]
  | coe a =>
    induction b using WithTop.recTopCoe with
    | top =>
      have h : ((⟨(a : WithTop ℝ)⟩ : logreal) + ⟨⊤⟩) = ⟨(a : WithTop ℝ)⟩ := rfl
      rw [h, logreal.value_top, add_zero]
    | coe b =>
      have h : ((⟨(a : WithTop ℝ)⟩ : logreal) + ⟨(b : WithTop ℝ)⟩)
          = ⟨((-Real.log (Real.exp (-a) + Real.exp (-b)) : ℝ) : WithTop ℝ)⟩ := rfl
      rw [h, logreal.value_coe, logreal.value_coe, logreal.value_coe]
      apply NNReal.eq
      show Real.exp (-(-Real.log (Real.exp (-a) + Real.exp (-b))))
        = Real.exp (-a) + Real.exp (-b)
      rw [neg_neg, Real.exp_log (add_pos (Real.exp_pos _) (Real.exp_pos _))]

theorem logreal.value_inv (x : logreal) : (x⁻¹).value = (x.value)⁻¹ := by
  rcases x with ⟨a⟩
  induction a using WithTop.recTopCoe with
  | top =>
    have h : (⟨⊤⟩ : logreal)⁻¹ = ⟨⊤⟩ := rfl
    rw [h, logreal.value_top, inv_zero]
  | coe a =>
    have h : (⟨(a : WithTop ℝ)⟩ : logreal)⁻¹ = ⟨((-a : ℝ) : WithTop ℝ)⟩ := rfl
    rw [h, logreal.value_coe, logreal.value_coe]
    apply NNReal.eq
    show Real.exp (-(-a)) = (Real.exp (-a))⁻¹
    rw [neg_neg, Real.exp_neg, inv_inv]

theorem logreal.value_div (x y : logreal) : (x / y).value = x.value / y.value := by
  show (x * y⁻¹).value = _
  rw [logreal.value_mul, logreal.value_inv, div_eq_mul_inv]

/-- The log-domain values with log-sum-exp as addition and log addition as multiplication
form a linearly ordered semifield, the order being the order of the probabilities. -/
noncomputable instance : LinearOrderedSemifield logreal :=
  logreal.value_injective.linearOrderedSemifield logreal.value logreal.value_zero
    logreal.value_one logreal.value_add logreal.value_mul logreal.value_inv logreal.value_div
    (fun _ _ => logreal.value_of_value _) (fun _ _ => logreal.value_of_value _)
    (fun _ _ => logreal.value_of_value _) (fun _ _ => logreal.value_of_value _)
    (fun _ => logreal.value_of_value _) (fun _ => logreal.value_of_value _)
    (fun _ _ => logreal.value_of_value _) (fun _ _ => logreal.value_of_value _)

/-- Conversion of log-domain values to ordinary probabilities, as a homomorphism. -/
noncomputable def logreal.to_probability : logreal →+* NNReal where
  toFun := logreal.value
  map_one' := logreal.value_one
  map_mul' := logreal.value_mul
  map_zero' := logreal.value_zero
  map_add' := logreal.value_add

/-! ## Numbers of the machine -/

/-- The value that 32-bit `int` arithmetic yields for the exact result `x` (two's complement
wrap-around). -/
def wrap32 (x : Int) : Int :=
  (x + 2 ^ 31) % 2 ^ 32 - 2 ^ 31

/-- The range of a `double` towards zero: the smallest positive double is `2^-1074`, and a
result whose exact value is below half of it in magnitude is stored as zero.  Nothing else
of the rounding is modelled: every other result is kept as it is. -/
def double_underflow {K : Type} [LinearOrderedField K] (x : K) : K :=
  if |x| < 1 / 2 ^ 1075 then 0 else x

/-! ## channel/laplacian.h, continued -/

/-- The helper `basic_laplacian::f(const double x)`. -/
noncomputable def basic_laplacian.f (c : basic_laplacian ℝ) (x : ℝ) : ℝ :=
  1 / (2 * c.lambda) * Real.exp (-|x| / c.lambda)

/-- The method `laplacian::pdf(const S& tx, const S& rx)`: `n = rx - tx; return f(n);`
(signal values are real numbers). -/
noncomputable def basic_laplacian.pdf (c : basic_laplacian ℝ) (tx rx : ℝ) : ℝ :=
  c.f (rx - tx)

/-- The helper `basic_laplacian::f(const double x)` with the result of every operation passing
through `rnd`, the effect of storing it in a `double`. -/
noncomputable def basic_laplacian.f_rounded (rnd : ℝ → ℝ) (c : basic_laplacian ℝ) (x : ℝ) : ℝ :=
  rnd (rnd (1 / rnd (2 * c.lambda)) * rnd (Real.exp (rnd (-|x| / c.lambda))))

/-- The method `laplacian::pdf(const S& tx, const S& rx)` with the result of every operation
passing through `rnd`. -/
noncomputable def basic_laplacian.pdf_rounded (rnd : ℝ → ℝ) (c : basic_laplacian ℝ)
    (tx rx : ℝ) : ℝ :=
  c.f_rounded rnd (rnd (rx - tx))

/-! ## Containers and loops -/

/-- Modelled from the spec: the container `libbase::vector<T>` (`vector.h` is missing; the spec
only speaks of sequences and tables): a size and the elements, addressed by index.  Elements
at or beyond the size carry no meaning. -/
structure vector (T : Type) where
  size : ℕ
  elem : ℕ → T

/-- Modelled from the spec: `v.init(n)` (`vector.h` is missing): the vector gets size `n`; its
elements hold nothing definite (here: whatever they held). -/
def vector.init {T : Type} (v : vector T) (n : ℕ) : vector T :=
  ⟨n, v.elem⟩

/-- Modelled from the spec: the assignment `v(i) = x` (`vector.h` is missing). -/
def vector.assign {T : Type} (v : vector T) (i : ℕ) (x : T) : vector T :=
  ⟨v.size, Function.update v.elem i x⟩

/-- Modelled from the spec: elementwise conversion on assignment between vectors of different
element types (`vector.h` is missing). -/
def vector.map {T U : Type} (g : T → U) (v : vector T) : vector U :=
  ⟨v.size, fun i => g (v.elem i)⟩

/-- Modelled from the spec: the container `libbase::matrix<T>` (`matrix.h` is missing): numbers
of rows and columns and the elements, addressed by row and column. -/
structure matrix (T : Type) where
  rows : ℕ
  cols : ℕ
  elem : ℕ → ℕ → T

/-- Modelled from the spec: `m.size()` (`matrix.h` is missing): the pair of rows and columns. -/
def matrix.size {T : Type} (m : matrix T) : ℕ × ℕ :=
  (m.rows, m.cols)

/-- Modelled from the spec: `m.init(size)` (`matrix.h` is missing). -/
def matrix.init {T : Type} (m : matrix T) (size : ℕ × ℕ) : matrix T :=
  ⟨size.1, size.2, m.elem⟩

/-- Modelled from the spec: the assignment `m(i, j) = x` (`matrix.h` is missing). -/
def matrix.assign {T : Type} (m : matrix T) (i j : ℕ) (x : T) : matrix T :=
  ⟨m.rows, m.cols, Function.update m.elem i (Function.update (m.elem i) j x)⟩

/-- Modelled from the spec: `libbase::allocate(tx, tau, M)` (`vectorutils.h` is missing): the
outer vector gets `tau` rows and every row gets `M` entries. -/
def allocate {T : Type} (tx : vector (vector T)) (tau M : ℕ) : vector (vector T) :=
  ⟨tau, fun t => (tx.elem t).init M⟩

/-- The loop `for (int i = 0; i < n; i++) body`: the body runs for `i = 0, ..., n - 1`, in this
order, each time on the state the previous run left. -/
def loop {σ : Type} (body : σ → ℕ → σ) : ℕ → σ → σ
  | 0, s => s
  | n + 1, s => body (loop body n s) n

/-- The same loop for a body that can fail: the first failure ends the loop. -/
def loop_except {ε σ : Type} (body : σ → ℕ → Except ε σ) : ℕ → σ → Except ε σ
  | 0, s => .ok s
  | n + 1, s => (loop_except body n s).bind fun s' => body s' n

/-! ## embedder/direct_blockembedder.cpp -/

/-- The object `direct_blockembedder<S, C, dbl>` as far as the block operations use it: the
input block size (a number for vectors, rows and columns for matrices), the alphabet size
`num_symbols()` and the atomic operation `implementation->embed(data, host)` of `embedder.h`. -/
structure direct_blockembedder (S size : Type) where
  input_block_size : size
  num_symbols : Int
  embed : Int → S → S

/-- The three validity checks at the start of `doembed`, in their order. -/
def doembed_checks {size : Type} [DecidableEq size] (data_size host_size block_size : size)
    (N num_symbols : Int) : Except String Unit :=
  (assertalways (decide (data_size = block_size)) "data.size() == this->input_block_size()").bind
    fun _ =>
      (assertalways (decide (host_size = block_size))
        "host.size() == this->input_block_size()").bind
        fun _ => assertalways (decide (N = num_symbols)) "N == this->num_symbols()"

/-- The method `direct_blockembedder<S, vector, dbl>::doembed(N, data, host, tx)`.  The result
is the outcome of the call together with the output argument `tx` after it. -/
def direct_blockembedder.doembed {S : Type} (b : direct_blockembedder S ℕ) (N : Int)
    (data : vector Int) (host : vector S) (tx : vector S) : Except String Unit × vector S :=
  match doembed_checks data.size host.size b.input_block_size N b.num_symbols with
  | .error e => (.error e, tx)
  | .ok () =>
    let tau := b.input_block_size
    (.ok (), loop (fun tx i => tx.assign i (b.embed (data.elem i) (host.elem i))) tau
      (tx.init tau))

/-- The method `direct_blockembedder<S, matrix, dbl>::doembed(N, data, host, tx)`. -/
def direct_blockembedder.doembed_matrix {S : Type} (b : direct_blockembedder S (ℕ × ℕ))
    (N : Int) (data : matrix Int) (host : matrix S) (tx : matrix S) :
    Except String Unit × matrix S :=
  match doembed_checks data.size host.size b.input_block_size N b.num_symbols with
  | .error e => (.error e, tx)
  | .ok () =>
    let rows := b.input_block_size.1
    let cols := b.input_block_size.2
    (.ok (), loop (fun tx i =>
        loop (fun tx j => tx.assign i j (b.embed (data.elem i j) (host.elem i j))) cols tx)
      rows (tx.init b.input_block_size))

/-- The set of all possible transmitted symbols at each timestep, as `doextract` builds it:
`allocate(tx, tau, M)`, then `tx(t)(x) = implementation->embed(x, rx(t))` for all `t` and `x`.
The table starts as an empty vector. -/
def direct_blockembedder.candidates {S : Type} [Inhabited S] (b : direct_blockembedder S ℕ)
    (rx : vector S) : vector (vector S) :=
  let tau := b.input_block_size
  let M := b.num_symbols.toNat
  loop (fun tx t =>
      loop (fun tx x => tx.assign t ((tx.elem t).assign x (b.embed x (rx.elem t)))) M tx)
    tau (allocate ⟨0, fun _ => ⟨0, fun _ => default⟩⟩ tau M)

/-- The method `direct_blockembedder<S, vector, dbl>::doextract(chan, rx, ptable)`.
`receive` is `chan.receive(tx, rx, ptable_double)` (the channel is an external collaborator)
and `convert` the conversion of a `double` to `dbl` in the final assignment.  The result is
the outcome of the call together with the output argument `ptable` after it. -/
def direct_blockembedder.doextract {S D dbl : Type} [Inhabited S]
    (b : direct_blockembedder S ℕ)
    (receive : vector (vector S) → vector S → vector (vector D)) (convert : D → dbl)
    (rx : vector S) (ptable : vector (vector dbl)) :
    Except String Unit × vector (vector dbl) :=
  match assertalways (decide (rx.size = b.input_block_size))
      "rx.size() == this->input_block_size()" with
  | .error e => (.error e, ptable)
  | .ok () => (.ok (), (receive (b.candidates rx) rx).map (vector.map convert))

/-! ## interleaver/lut/rand_lut.cpp -/

/-- The data members of `rand_lut<real>`: `p` and the lookup table `lut`.  All numbers of this
class are non-negative `int`s; they are modelled by natural numbers, which is exact as long as
they stay below `2^31` (block lengths below `2^31`, `m` at most 30). -/
structure rand_lut where
  p : ℕ
  lut : vector ℕ

/-- The method `rand_lut<real>::init(const int tau, const int m)`: `p = (1 << m) - 1`; the
program is terminated with the fatal error when `tau % p != 0`; otherwise the table gets `tau`
entries. -/
def rand_lut.init (obj : rand_lut) (tau m : ℕ) : Except String rand_lut :=
  let p := 2 ^ m - 1
  if tau % p ≠ 0 then
    .error ("FATAL ERROR (rand_lut): interleaver length must be a multiple of the encoder "
      ++ "impulse respone length.")
  else .ok ⟨p, obj.lut.init tau⟩

/-- The ways in which a call of `advance` does not return. -/
inductive advance_error where
  | out_of_range
  | no_return
  deriving DecidableEq, Repr

/-- The `do ... while (used(tdash))` loop of `advance` for position `t`:
`tdash = int(r.ival(tau) / p) * p + t % p` is drawn until an unused value comes up.  `ival k`
is the value of the `k`-th call of `r.ival(tau)` (the generator is an external collaborator),
`pos` counts the calls so far, `fuel` bounds the number of rounds; reading `used` outside its
size is an error.  The result is the value found and the new count of calls. -/
def rand_lut.draw (p t : ℕ) (used : vector Bool) (ival : ℕ → ℕ) :
    ℕ → ℕ → Except advance_error (ℕ × ℕ)
  | 0, _ => .error .no_return
  | fuel + 1, pos =>
    let tdash := ival pos / p * p + t % p
    if tdash < used.size then
      if used.elem tdash then rand_lut.draw p t used ival fuel (pos + 1)
      else .ok (tdash, pos + 1)
    else .error .out_of_range

/-- The state of the `for` loop of `advance`: the table, the `used` flags and the number of
calls of the generator so far. -/
structure advance_state where
  lut : vector ℕ
  used : vector Bool
  pos : ℕ

/-- The body of the `for` loop of `advance` for position `t`: draw `tdash`, then
`used(tdash) = true; lut(t) = tdash;`. -/
def rand_lut.advance_body (p : ℕ) (ival : ℕ → ℕ) (fuel : ℕ) (st : advance_state) (t : ℕ) :
    Except advance_error advance_state :=
  (rand_lut.draw p t st.used ival fuel st.pos).bind fun r =>
    if t < st.lut.size then
      .ok ⟨st.lut.assign t r.1, st.used.assign r.1 true, r.2⟩
    else .error .out_of_range

/-- The method `rand_lut<real>::advance()`: `tau = lut.size()`, all `used` flags are cleared,
then the table is filled position by position.  The result is the object after the call
and the number of calls of the generator. -/
def rand_lut.advance (obj : rand_lut) (ival : ℕ → ℕ) (fuel pos : ℕ) :
    Except advance_error (rand_lut × ℕ) :=
  let tau := obj.lut.size
  (loop_except (rand_lut.advance_body obj.p ival fuel) tau
      ⟨obj.lut, ⟨tau, fun _ => false⟩, pos⟩).map
    fun st => (⟨obj.p, st.lut⟩, st.pos)

/-- The state of the `for` loop of `advance` after `n` positions: the table and the flags have
`tau` entries, the entries set so far lie inside the table, are flagged as used, are the only
ones flagged, are pairwise different and lie in the residue class of their position. -/
def advance_invariant (p tau n : ℕ) (st : advance_state) : Prop :=
  st.lut.size = tau ∧ st.used.size = tau ∧
  (∀ s, s < n → st.lut.elem s < tau) ∧
  (∀ s, s < n → st.used.elem (st.lut.elem s) = true) ∧
  (∀ x, st.used.elem x = true → ∃ s, s < n ∧ st.lut.elem s = x) ∧
  (∀ s s', s < n → s' < n → st.lut.elem s = st.lut.elem s' → s = s') ∧
  (∀ s, s < n → st.lut.elem s % p = s % p)

/-- A generator whose `k`-th value is `5 k + 3` modulo 6: 3, 2, 1, 0, 5, 4, 3, ... . -/
def example_ival : ℕ → ℕ :=
  fun k => (5 * k + 3) % 6

/-! ## experiment/binomial/result_collector/commsys_errorrates.h -/

/-- The class `commsys_errorrates` as far as `count()` uses it: the value of the virtual
method `get_iter()`. -/
structure commsys_errorrates where
  get_iter : Int

/-- The method `commsys_errorrates::count()`: `return 2 * get_iter();` in `int` arithmetic. -/
def commsys_errorrates.count (c : commsys_errorrates) : Int :=
  wrap32 (2 * c.get_iter)

/-! ## channel/laplacian.h: noise generation and finite results -/

/-- The helper `basic_laplacian::Finv(const double y)`. -/
noncomputable def basic_laplacian.Finv (c : basic_laplacian ℝ) (y : ℝ) : ℝ :=
  if y < 0.5 then c.lambda * Real.log (2 * y) else -c.lambda * Real.log (2 * (1 - y))

/-- The method `laplacian::corrupt(const S& s)`: `n = Finv(r.fval_closed()); return s + n;`,
where `u` is the value that `r.fval_closed()` returns (the generator is an external
collaborator). -/
noncomputable def basic_laplacian.corrupt (c : basic_laplacian ℝ) (u s : ℝ) : ℝ :=
  s + c.Finv u

/-- A division of doubles whose result is a finite number: there is none when the divisor is
zero (the machine yields an infinity or not-a-number). -/
noncomputable def finite_div (a b : ℝ) : Option ℝ :=
  if b = 0 then none else some (a / b)

/-- The logarithm `log` of doubles where its result is a finite number: there is none at zero
(the machine yields minus infinity) and below zero (not-a-number). -/
noncomputable def finite_log (x : ℝ) : Option ℝ :=
  if 0 < x then some (Real.log x) else none

/-- The helper `basic_laplacian::f(const double x)`, `1 / (2 * lambda) * exp(-fabs(x) / lambda)`,
where all its operations yield finite numbers; `none` otherwise. -/
noncomputable def basic_laplacian.f_finite (c : basic_laplacian ℝ) (x : ℝ) : Option ℝ :=
  (finite_div 1 (2 * c.lambda)).bind fun a =>
    (finite_div (-|x|) c.lambda).bind fun e => some (a * Real.exp e)

/-- The method `laplacian::pdf(tx, rx)` where all its operations yield finite numbers. -/
noncomputable def basic_laplacian.pdf_finite (c : basic_laplacian ℝ) (tx rx : ℝ) : Option ℝ :=
  c.f_finite (rx - tx)

/-- The helper `basic_laplacian::Finv(const double y)` where all its operations yield finite
numbers; `none` otherwise. -/
noncomputable def basic_laplacian.Finv_finite (c : basic_laplacian ℝ) (y : ℝ) : Option ℝ :=
  if y < 0.5 then (finite_log (2 * y)).map fun l => c.lambda * l
  else (finite_log (2 * (1 - y))).map fun l => -c.lambda * l

/-! ## logreal.cpp -/

/-- The output operator `operator<<(std::ostream&, const logreal&)` of `logreal.cpp`: the
mantissa `pow(10.0, lg - floor(lg))` and the exponent `int(floor(lg))` that are printed, for
`lg = -x.logval / log(10.0)`; the conversion to `int` is that of 32-bit arithmetic.  Nothing
definite is printed for the value zero (`logval = ⊤`). -/
noncomputable def logreal.operator_out (x : logreal) : Option (ℝ × Int) :=
  match x.logval with
  | none => none
  | some a =>
    some ((10 : ℝ) ^ (-a / Real.log 10 - (⌊-a / Real.log 10⌋ : ℝ)),
      wrap32 ⌊-a / Real.log 10⌋)

/-! # Properties -/

/-! ## Selection of the engine by safe_bcjr -/

/-- C1 (as stated, refuted): `safe_bcjr<double, float>` has a probability type of bounded
dynamic range, yet it is not one of the explicit specializations, so it derives from the
standard engine, without normalization. -/
theorem safe_bcjr_double_float_not_normalized :
    ¬ (∀ real dbl : NumType, (real = NumType.float ∨ real = NumType.double) →
        safe_bcjr real dbl = ⟨real, dbl, true⟩) := by
  intro h
  have h1 := h NumType.double NumType.float (Or.inr rfl)
  exact absurd h1 (by decide)

/-- C1 (amended): for the three instantiations `safe_bcjr<double, double>`,
`safe_bcjr<float, float>` and `safe_bcjr<float, double>` the engine that `safe_bcjr` derives
from is `bcjr<real, dbl, true>`, the engine with per-step normalization. -/
theorem safe_bcjr_specializations_normalized (real dbl : NumType)
    (h : (real = NumType.double ∧ dbl = NumType.double) ∨
      (real = NumType.float ∧ dbl = NumType.float) ∨
      (real = NumType.float ∧ dbl = NumType.double)) :
    safe_bcjr real dbl = ⟨real, dbl, true⟩ := by
  rcases h with ⟨rfl, rfl⟩ | ⟨rfl, rfl⟩ | ⟨rfl, rfl⟩ <;> rfl

theorem safe_bcjr_specializations_normalized_witness :
    safe_bcjr NumType.float NumType.double = ⟨NumType.float, NumType.double, true⟩ :=
  safe_bcjr_specializations_normalized NumType.float NumType.double
    (Or.inr (Or.inr ⟨rfl, rfl⟩))

/-- The primary template of `safe_bcjr` selects the engine without normalization. -/
theorem safe_bcjr_primary (real dbl : NumType) (hf : real ≠ NumType.float)
    (hd : real ≠ NumType.double) : safe_bcjr real dbl = ⟨real, dbl, false⟩ := by
  cases real <;> cases dbl <;> first | rfl | exact absurd rfl hf | exact absurd rfl hd

/-- C2: for every probability type `real` other than `float` and `double`, `safe_bcjr<real, dbl>`
derives from the standard engine `bcjr<real, dbl>` (no normalization), and constructing it from
`(encoder, tau)` is exactly the construction of that base engine from the same two arguments. -/
theorem safe_bcjr_generic_is_standard (real dbl : NumType)
    (hf : real ≠ NumType.float) (hd : real ≠ NumType.double) :
    safe_bcjr real dbl = ⟨real, dbl, false⟩ ∧
    ∀ (F obj : Type) (bcjr_ctor : bcjr_inst → F → Int → obj) (encoder : F) (tau : Int),
      safe_bcjr_ctor bcjr_ctor real dbl encoder tau = bcjr_ctor ⟨real, dbl, false⟩ encoder tau := by
  have hbase : safe_bcjr real dbl = ⟨real, dbl, false⟩ := safe_bcjr_primary real dbl hf hd
  refine ⟨hbase, ?_⟩
  intro F obj bcjr_ctor encoder tau
  unfold safe_bcjr_ctor
  rw [hbase]

theorem safe_bcjr_generic_is_standard_witness :
    safe_bcjr NumType.logrealfast NumType.double
        = ⟨NumType.logrealfast, NumType.double, false⟩ ∧
    ∀ (F obj : Type) (bcjr_ctor : bcjr_inst → F → Int → obj) (encoder : F) (tau : Int),
      safe_bcjr_ctor bcjr_ctor NumType.logrealfast NumType.double encoder tau
        = bcjr_ctor ⟨NumType.logrealfast, NumType.double, false⟩ encoder tau :=
  safe_bcjr_generic_is_standard NumType.logrealfast NumType.double (by decide) (by decide)

/-! ## channel<sigspace> -/

/-- After `compute_noise` the stored noise density is the one computed from the stored
signal-to-noise ratio, and the derived class has been told about the stored `(Eb, No)`. -/
theorem channel.compute_noise_spec {D : Type} (cp : ℝ → ℝ → D → D) (c : channel D) :
    (channel.compute_noise cp c).No = 0.5 * (10 : ℝ) ^ (-(channel.compute_noise cp c).snr_db / 10) ∧
    (channel.compute_noise cp c).derived
      = cp (channel.compute_noise cp c).Eb (channel.compute_noise cp c).No c.derived ∧
    (channel.compute_noise cp c).Eb = c.Eb ∧ (channel.compute_noise cp c).snr_db = c.snr_db :=
  ⟨rfl, rfl, rfl, rfl⟩

/-- C8: after construction of `channel<sigspace>` and after every call of `set_parameter(snr_db)`,
`set_eb(Eb)` or `set_no(No)` with `No > 0`, the stored noise density is
`No = 0.5 * 10^(-snr_db/10)` for the stored `snr_db`, and `compute_parameters` has been invoked
with the stored `(Eb, No)`: the state `derived` is the result of that call.  The call made
during construction runs the body `base` that `channel<sigspace>` gives to the handle; the
calls made by the three setters on the finished object run the override `cp` of its class. -/
theorem channel_noise_consistent {D : Type} (base cp : ℝ → ℝ → D → D) (c : channel D) :
    ((channel.construct base c).No
        = 0.5 * (10 : ℝ) ^ (-(channel.construct base c).snr_db / 10) ∧
      (channel.construct base c).Eb = 1 ∧ (channel.construct base c).snr_db = 0 ∧
      (channel.construct base c).derived
        = base (channel.construct base c).Eb (channel.construct base c).No c.derived) ∧
    (∀ snr_db : ℝ,
      (channel.set_parameter cp c snr_db).No
          = 0.5 * (10 : ℝ) ^ (-(channel.set_parameter cp c snr_db).snr_db / 10) ∧
      (channel.set_parameter cp c snr_db).derived
        = cp (channel.set_parameter cp c snr_db).Eb (channel.set_parameter cp c snr_db).No
            c.derived) ∧
    (∀ Eb : ℝ,
      (channel.set_eb cp c Eb).No = 0.5 * (10 : ℝ) ^ (-(channel.set_eb cp c Eb).snr_db / 10) ∧
      (channel.set_eb cp c Eb).derived
        = cp (channel.set_eb cp c Eb).Eb (channel.set_eb cp c Eb).No c.derived) ∧
    (∀ No : ℝ, 0 < No →
      (channel.set_no cp c No).No = 0.5 * (10 : ℝ) ^ (-(channel.set_no cp c No).snr_db / 10) ∧
      (channel.set_no cp c No).derived
        = cp (channel.set_no cp c No).Eb (channel.set_no cp c No).No c.derived) :=
  ⟨⟨rfl, rfl, rfl, rfl⟩, fun _ => ⟨rfl, rfl⟩, fun _ => ⟨rfl, rfl⟩, fun _ _ => ⟨rfl, rfl⟩⟩

theorem channel_noise_consistent_witness :
    (channel.set_no (fun _ _ (d : Unit) => d) ⟨1, 0, 0, ()⟩ (1 / 2)).No
        = 0.5 * (10 : ℝ) ^
          (-(channel.set_no (fun _ _ (d : Unit) => d) ⟨1, 0, 0, ()⟩ (1 / 2)).snr_db / 10) ∧
      (channel.set_no (fun _ _ (d : Unit) => d) ⟨1, 0, 0, ()⟩ (1 / 2)).derived
        = (fun _ _ (d : Unit) => d)
            (channel.set_no (fun _ _ (d : Unit) => d) ⟨1, 0, 0, ()⟩ (1 / 2)).Eb
            (channel.set_no (fun _ _ (d : Unit) => d) ⟨1, 0, 0, ()⟩ (1 / 2)).No () :=
  (channel_noise_consistent (fun _ _ (d : Unit) => d) (fun _ _ (d : Unit) => d)
    ⟨1, 0, 0, ()⟩).2.2.2 (1 / 2)
    (by norm_num)

/-! ## laplacian -/

/-- C9: for every `x >= 0`, `get_parameter()` called after `set_parameter(x)` returns exactly `x`
(and the call of `set_parameter` succeeds). -/
theorem laplacian_get_set_parameter {α : Type} [LinearOrder α] [Zero α]
    (c : basic_laplacian α) (x : α) (hx : 0 ≤ x) :
    (c.set_parameter x).1 = .ok () ∧ (c.set_parameter x).2.get_parameter = x := by
  simp [basic_laplacian.set_parameter, assertalways, basic_laplacian.get_parameter, hx]

theorem laplacian_get_set_parameter_witness :
    ((⟨1⟩ : basic_laplacian ℚ).set_parameter 3).1 = .ok () ∧
    ((⟨1⟩ : basic_laplacian ℚ).set_parameter 3).2.get_parameter = 3 :=
  laplacian_get_set_parameter ⟨1⟩ 3 (by norm_num)

/-- On numbers that are linearly ordered (doubles without the not-a-number value)
`set_parameter(x)` fails if and only if `x < 0`, leaving the stored `lambda` unchanged. -/
theorem basic_laplacian.set_parameter_fails_iff_linear {α : Type} [LinearOrder α] [Zero α]
    (c : basic_laplacian α) (x : α) :
    ((c.set_parameter x).1 = .error "x >= 0" ↔ x < 0) ∧
    ((c.set_parameter x).1 ≠ .ok () ↔ x < 0) ∧
    ((c.set_parameter x).1 ≠ .ok () → (c.set_parameter x).2 = c) := by
  by_cases hx : 0 ≤ x
  · simp [basic_laplacian.set_parameter, assertalways, hx]
  · simp [basic_laplacian.set_parameter, assertalways, hx, not_le.mp hx]

/-- A double fails the test `x >= 0` exactly when it is negative or not a number. -/
theorem ieee_double.not_ge_zero_iff (x : ieee_double) :
    ¬ x ≥ 0 ↔ x < 0 ∨ x = .nan := by
  cases x with
  | val r =>
    constructor
    · intro h
      left
      have : ¬ (0 : EReal) ≤ r := h
      exact not_le.mp this
    · rintro (h | h)
      · intro h'
        have h1 : r < (0 : EReal) := h
        have h2 : (0 : EReal) ≤ r := h'
        exact absurd h1 (not_lt.mpr h2)
      · cases h
  | nan =>
    constructor
    · intro _; right; rfl
    · intro _ h; exact h.elim

/-- C10 (counterexample): `set_parameter(NaN)` fails with the fatal assertion although
`NaN < 0` does not hold. -/
theorem laplacian_set_parameter_rejects_nan :
    ((⟨.val 1⟩ : basic_laplacian ieee_double).set_parameter .nan).1 = .error "x >= 0" ∧
    ((⟨.val 1⟩ : basic_laplacian ieee_double).set_parameter .nan).1 ≠ .ok () ∧
    ¬ (ieee_double.nan < 0) := by
  have h : ¬ (ieee_double.nan ≥ 0) := fun h => h.elim
  refine ⟨?_, ?_, fun h => h.elim⟩ <;>
    simp [basic_laplacian.set_parameter, assertalways, h]

/-- C10: `set_parameter(x)` fails with the fatal assertion if and only if `x < 0` or `x` is not
a number, that is if and only if `x >= 0` does not hold, and when it fails the stored `lambda`
is left unchanged. -/
theorem laplacian_set_parameter_fails_iff (c : basic_laplacian ieee_double) (x : ieee_double) :
    ((c.set_parameter x).1 = .error "x >= 0" ↔ (x < 0 ∨ x = .nan)) ∧
    ((c.set_parameter x).1 ≠ .ok () ↔ (x < 0 ∨ x = .nan)) ∧
    ((c.set_parameter x).1 ≠ .ok () ↔ ¬ x ≥ 0) ∧
    ((c.set_parameter x).1 ≠ .ok () → (c.set_parameter x).2 = c) := by
  rw [← ieee_double.not_ge_zero_iff]
  by_cases hx : x ≥ 0
  · simp [basic_laplacian.set_parameter, assertalways, hx]
  · simp [basic_laplacian.set_parameter, assertalways, hx]

theorem laplacian_set_parameter_fails_iff_witness :
    ((⟨.val 1⟩ : basic_laplacian ieee_double).set_parameter (.val (-2))).2 = ⟨.val 1⟩ :=
  (laplacian_set_parameter_fails_iff ⟨.val 1⟩ (.val (-2))).2.2.2
    ((laplacian_set_parameter_fails_iff ⟨.val 1⟩ (.val (-2))).2.1.mpr
      (Or.inl (show ((-2 : ℝ) : EReal) < ((0 : ℝ) : EReal) from
        EReal.coe_lt_coe_iff.mpr (by norm_num))))

/-! ## Numbers of bounded range -/

/-- Storing a number in the range of a `double` keeps it or makes it zero. -/
theorem double_underflow_eq {K : Type} [LinearOrderedField K] (x : K) :
    double_underflow x = 0 ∨ double_underflow x = x := by
  unfold double_underflow
  split
  · exact Or.inl rfl
  · exact Or.inr rfl

/-- Storing a non-negative number keeps it non-negative and does not increase it. -/
theorem double_underflow_bounds {K : Type} [LinearOrderedField K] {x : K} (hx : 0 ≤ x) :
    0 ≤ double_underflow x ∧ double_underflow x ≤ x := by
  rcases double_underflow_eq x with h | h <;> rw [h]
  · exact ⟨le_refl 0, hx⟩
  · exact ⟨hx, le_refl x⟩

theorem double_underflow_zero {K : Type} [LinearOrderedField K] :
    double_underflow (0 : K) = 0 := by
  simp [double_underflow]

/-- A number of magnitude at least one is stored as it is. -/
theorem double_underflow_of_le {K : Type} [LinearOrderedField K] {x : K} (h : 1 ≤ |x|) :
    double_underflow x = x := by
  unfold double_underflow
  rw [if_neg]
  rw [not_lt]
  refine le_trans ?_ h
  rw [div_le_iff₀ (by positivity)]
  simpa using (one_le_pow₀ (by norm_num : (1 : K) ≤ 2) : (1 : K) ≤ 2 ^ 1075)

/-- The exact value of `exp(-1000)` is below half the smallest positive `double`. -/
theorem exp_neg_thousand_lt : Real.exp (-1000) < 1 / 2 ^ 1075 := by
  have h1 : (5 / 2 : ℝ) < Real.exp 1 := by
    have := Real.exp_one_gt_d9
    linarith
  have h2 : (5 / 2 : ℝ) ^ 1000 < Real.exp 1 ^ 1000 :=
    pow_lt_pow_left₀ h1 (by norm_num) (by norm_num)
  have h3 : Real.exp 1 ^ 1000 = Real.exp 1000 := by
    rw [← Real.exp_nat_mul]; norm_num
  have h4 : (2 : ℝ) ^ 1075 < (5 / 2 : ℝ) ^ 1000 := by
    rw [div_pow, lt_div_iff₀ (by positivity)]
    norm_num
  rw [Real.exp_neg, one_div]
  apply inv_strictAnti₀ (by positivity)
  linarith

/-! ## The trellis decoding engine -/

section engine

variable {R : Type} [LinearOrderedSemifield R] {S q : ℕ}

theorem forward_step_scale (next : Fin S → Fin q → Fin S) (g : Fin S → Fin S → R)
    (a : Fin S → R) (c : R) :
    forward_step next g (fun p => c * a p) = fun s => c * forward_step next g a s := by
  funext s
  simp only [forward_step, Finset.mul_sum, mul_assoc]

theorem backward_step_scale (next : Fin S → Fin q → Fin S) (g : Fin S → Fin S → R)
    (b : Fin S → R) (c : R) :
    backward_step next g (fun n => c * b n) = fun s => c * backward_step next g b s := by
  funext s
  simp only [backward_step, Finset.mul_sum]
  refine Finset.sum_congr rfl fun n _ => ?_
  ring

theorem forward_step_nonneg (next : Fin S → Fin q → Fin S) {g : Fin S → Fin S → R}
    {a : Fin S → R} (hg : ∀ p s, 0 ≤ g p s) (ha : ∀ p, 0 ≤ a p) (s : Fin S) :
    0 ≤ forward_step next g a s :=
  Finset.sum_nonneg fun p _ => mul_nonneg (ha p) (hg p s)

theorem backward_step_nonneg (next : Fin S → Fin q → Fin S) {g : Fin S → Fin S → R}
    {b : Fin S → R} (hg : ∀ p s, 0 ≤ g p s) (hb : ∀ n, 0 ≤ b n) (s : Fin S) :
    0 ≤ backward_step next g b s :=
  Finset.sum_nonneg fun n _ => mul_nonneg (hg s n) (hb n)

theorem alpha_plain_nonneg (next : Fin S → Fin q → Fin S) {inp : bcjr_input R S}
    (h : nonneg_input inp) : ∀ t s, 0 ≤ alpha_plain next inp t s
  | 0, s => h.2.1 s
  | t + 1, s => forward_step_nonneg next (h.1 (t + 1)) (alpha_plain_nonneg next h t) s

theorem beta_plain_back_nonneg (next : Fin S → Fin q → Fin S) {inp : bcjr_input R S}
    (h : nonneg_input inp) : ∀ k s, 0 ≤ beta_plain_back next inp k s
  | 0, s => h.2.2 s
  | k + 1, s =>
    backward_step_nonneg next (h.1 (inp.tau - k)) (beta_plain_back_nonneg next h k) s

/-- A non-negative vector that is not all zero has a positive sum. -/
theorem sum_pos_of_not_all_zero {n : ℕ} {v : Fin n → R} (hv : ∀ i, 0 ≤ v i)
    (hnz : ¬ ∀ i, v i = 0) : 0 < ∑ i, v i := by
  rcases not_forall.mp hnz with ⟨i, hi⟩
  have hpos : 0 < v i := lt_of_le_of_ne (hv i) (Ne.symm hi)
  exact lt_of_lt_of_le hpos
    (Finset.single_le_sum (f := v) (fun k _ => hv k) (Finset.mem_univ i))

theorem check_row_scale_ok {n : ℕ} {v : Fin n → R} {c : R} (hc : 0 < c)
    (hnz : ¬ ∀ i, v i = 0) : check_row (fun i => c * v i) = .ok (fun i => c * v i) := by
  have : ¬ ∀ i, c * v i = 0 := by
    intro h
    exact hnz fun i => (mul_eq_zero.mp (h i)).resolve_left (ne_of_gt hc)
  unfold check_row
  rw [if_neg this]

theorem check_row_scale_zero {n : ℕ} {v : Fin n → R} (c : R) (hz : ∀ i, v i = 0) :
    check_row (fun i => c * v i) = .error .infeasible := by
  have : ∀ i, c * v i = 0 := fun i => by rw [hz i, mul_zero]
  unfold check_row
  rw [if_pos this]

theorem rescale_scale {n : ℕ} {v : Fin n → R} {c : R} (hc : 0 < c) (hv : ∀ i, 0 ≤ v i)
    (hnz : ¬ ∀ i, v i = 0) :
    rescale (fun i => c * v i) = .ok (fun i => v i / ∑ k, v k) := by
  have hs : 0 < ∑ i, v i := sum_pos_of_not_all_zero hv hnz
  have hcs : (∑ i, c * v i) = c * ∑ i, v i := by rw [Finset.mul_sum]
  have hne : (∑ i, c * v i) ≠ 0 := by
    rw [hcs]; exact ne_of_gt (mul_pos hc hs)
  simp only [rescale, hne, if_false]
  congr 1
  funext i
  rw [hcs, mul_div_mul_left _ _ (ne_of_gt hc)]

theorem settle_scale_ok {n : ℕ} (norm : Bool) {v : Fin n → R} {c : R} (hc : 0 < c)
    (hv : ∀ i, 0 ≤ v i) (hnz : ¬ ∀ i, v i = 0) :
    ∃ d, 0 < d ∧ settle norm (fun i => c * v i) = .ok (fun i => d * v i) := by
  have hs : 0 < ∑ i, v i := sum_pos_of_not_all_zero hv hnz
  cases norm with
  | false => exact ⟨c, hc, by simp [settle, check_row_scale_ok hc hnz, Except.bind]⟩
  | true =>
    refine ⟨(∑ k, v k)⁻¹, inv_pos.mpr hs, ?_⟩
    simp only [settle, check_row_scale_ok hc hnz, Except.bind, if_true]
    rw [rescale_scale hc hv hnz]
    congr 1
    funext i
    rw [div_eq_inv_mul]

theorem settle_scale_zero {n : ℕ} (norm : Bool) {v : Fin n → R} (c : R)
    (hz : ∀ i, v i = 0) : settle norm (fun i => c * v i) = .error .infeasible := by
  simp [settle, check_row_scale_zero c hz, Except.bind]

/-- The forward pass either yields a positive multiple of the plain forward metric (and no plain
forward vector so far is all zero), or reports the decode failure (and some plain forward
vector so far is all zero). -/
theorem alpha_cases (norm : Bool) (next : Fin S → Fin q → Fin S) {inp : bcjr_input R S}
    (h : nonneg_input inp) (t : ℕ) :
    ((∃ c, 0 < c ∧ alpha norm next inp t = .ok (fun s => c * alpha_plain next inp t s)) ∧
        ∀ u, u ≤ t → ¬ ∀ s, alpha_plain next inp u s = 0) ∨
      (alpha norm next inp t = .error .infeasible ∧
        ∃ u, u ≤ t ∧ ∀ s, alpha_plain next inp u s = 0) := by
  induction t with
  | zero =>
    by_cases hz : ∀ s, inp.alpha0 s = 0
    · right
      refine ⟨?_, 0, le_refl 0, hz⟩
      simp only [alpha, check_row]
      rw [if_pos hz]
    · left
      refine ⟨⟨1, one_pos, ?_⟩, ?_⟩
      · simp only [alpha, check_row, alpha_plain, one_mul]
        rw [if_neg hz]
      · intro u hu
        have : u = 0 := Nat.le_zero.mp hu
        subst this
        exact hz
  | succ t ih =>
    rcases ih with ⟨⟨c, hc, hok⟩, hnz⟩ | ⟨herr, u, hu, hz⟩
    · by_cases hz : ∀ s, alpha_plain next inp (t + 1) s = 0
      · right
        refine ⟨?_, t + 1, le_refl _, hz⟩
        simp only [alpha, hok, Except.bind]
        rw [forward_step_scale]
        exact settle_scale_zero norm c hz
      · left
        refine ⟨?_, ?_⟩
        · simp only [alpha, hok, Except.bind]
          rw [forward_step_scale]
          exact settle_scale_ok norm hc (alpha_plain_nonneg next h (t + 1)) hz
        · intro u hu
          rcases Nat.lt_or_ge u (t + 1) with hlt | hge
          · exact hnz u (Nat.lt_succ_iff.mp hlt)
          · have : u = t + 1 := le_antisymm hu hge
            subst this
            exact hz
    · right
      refine ⟨?_, u, Nat.le_succ_of_le hu, hz⟩
      simp only [alpha, herr, Except.bind]

/-- The backward pass either yields a positive multiple of the plain backward metric, or reports
the decode failure; see `alpha_cases`. -/
theorem beta_back_cases (norm : Bool) (next : Fin S → Fin q → Fin S) {inp : bcjr_input R S}
    (h : nonneg_input inp) (k : ℕ) :
    ((∃ c, 0 < c ∧
          beta_back norm next inp k = .ok (fun s => c * beta_plain_back next inp k s)) ∧
        ∀ u, u ≤ k → ¬ ∀ s, beta_plain_back next inp u s = 0) ∨
      (beta_back norm next inp k = .error .infeasible ∧
        ∃ u, u ≤ k ∧ ∀ s, beta_plain_back next inp u s = 0) := by
  induction k with
  | zero =>
    by_cases hz : ∀ s, inp.betatau s = 0
    · right
      refine ⟨?_, 0, le_refl 0, hz⟩
      simp only [beta_back, check_row]
      rw [if_pos hz]
    · left
      refine ⟨⟨1, one_pos, ?_⟩, ?_⟩
      · simp only [beta_back, check_row, beta_plain_back, one_mul]
        rw [if_neg hz]
      · intro u hu
        have : u = 0 := Nat.le_zero.mp hu
        subst this
        exact hz
  | succ k ih =>
    rcases ih with ⟨⟨c, hc, hok⟩, hnz⟩ | ⟨herr, u, hu, hz⟩
    · by_cases hz : ∀ s, beta_plain_back next inp (k + 1) s = 0
      · right
        refine ⟨?_, k + 1, le_refl _, hz⟩
        simp only [beta_back, hok, Except.bind]
        rw [backward_step_scale]
        exact settle_scale_zero norm c hz
      · left
        refine ⟨?_, ?_⟩
        · simp only [beta_back, hok, Except.bind]
          rw [backward_step_scale]
          exact settle_scale_ok norm hc (beta_plain_back_nonneg next h (k + 1)) hz
        · intro u hu
          rcases Nat.lt_or_ge u (k + 1) with hlt | hge
          · exact hnz u (Nat.lt_succ_iff.mp hlt)
          · have : u = k + 1 := le_antisymm hu hge
            subst this
            exact hz
    · right
      refine ⟨?_, u, Nat.le_succ_of_le hu, hz⟩
      simp only [beta_back, herr, Except.bind]

/-- Along a feasible path the plain forward metric is positive. -/
theorem alpha_plain_pos_on_path (next : Fin S → Fin q → Fin S) {inp : bcjr_input R S}
    (h : nonneg_input inp) {s0 : Fin S} {i : ℕ → Fin q} (hp : feasible_path next inp s0 i) :
    ∀ t, t ≤ inp.tau → 0 < alpha_plain next inp t (path_state next s0 i t) := by
  intro t
  induction t with
  | zero => intro _; exact hp.1
  | succ t ih =>
    intro ht
    have hprev := ih (Nat.le_of_succ_le ht)
    have hg := hp.2.1 t (Nat.lt_of_succ_le ht)
    have hmem : path_state next s0 i t ∈ predecessors next (path_state next s0 i (t + 1)) := by
      simp only [predecessors, Finset.mem_filter, Finset.mem_univ, true_and]
      exact ⟨i t, rfl⟩
    have hterm : 0 < alpha_plain next inp t (path_state next s0 i t)
        * inp.gamma (t + 1) (path_state next s0 i t) (path_state next s0 i (t + 1)) :=
      mul_pos hprev hg
    refine lt_of_lt_of_le hterm ?_
    exact Finset.single_le_sum
      (f := fun p => alpha_plain next inp t p * inp.gamma (t + 1) p (path_state next s0 i (t + 1)))
      (fun p _ => mul_nonneg (alpha_plain_nonneg next h t p) (h.1 _ _ _)) hmem

/-- Along a feasible path the plain backward metric is positive. -/
theorem beta_plain_back_pos_on_path (next : Fin S → Fin q → Fin S) {inp : bcjr_input R S}
    (h : nonneg_input inp) {s0 : Fin S} {i : ℕ → Fin q} (hp : feasible_path next inp s0 i) :
    ∀ k, k ≤ inp.tau →
      0 < beta_plain_back next inp k (path_state next s0 i (inp.tau - k)) := by
  intro k
  induction k with
  | zero => intro _; exact hp.2.2
  | succ k ih =>
    intro hk
    have hnext := ih (Nat.le_of_succ_le hk)
    have hidx : inp.tau - (k + 1) + 1 = inp.tau - k := by omega
    have hg := hp.2.1 (inp.tau - (k + 1)) (by omega)
    rw [hidx] at hg
    have hmem : path_state next s0 i (inp.tau - k)
        ∈ successors next (path_state next s0 i (inp.tau - (k + 1))) := by
      simp only [successors, Finset.mem_filter, Finset.mem_univ, true_and]
      refine ⟨i (inp.tau - (k + 1)), ?_⟩
      rw [← hidx]
      rfl
    have hterm : 0 < inp.gamma (inp.tau - k) (path_state next s0 i (inp.tau - (k + 1)))
          (path_state next s0 i (inp.tau - k))
        * beta_plain_back next inp k (path_state next s0 i (inp.tau - k)) :=
      mul_pos hg hnext
    refine lt_of_lt_of_le hterm ?_
    exact Finset.single_le_sum
      (f := fun n => inp.gamma (inp.tau - k) (path_state next s0 i (inp.tau - (k + 1))) n
        * beta_plain_back next inp k n)
      (fun n _ => mul_nonneg (h.1 _ _ _) (beta_plain_back_nonneg next h k n)) hmem

theorem app_row_scale (next : Fin S → Fin q → Fin S) (g : Fin S → Fin S → R)
    (a b : Fin S → R) (c d : R) :
    app_row next g (fun p => c * a p) (fun n => d * b n)
      = fun j => (c * d) * app_row next g a b j := by
  funext j
  simp only [app_row, Finset.mul_sum]
  refine Finset.sum_congr rfl fun p _ => ?_
  ring

theorem app_row_nonneg (next : Fin S → Fin q → Fin S) {g : Fin S → Fin S → R}
    {a b : Fin S → R} (hg : ∀ p s, 0 ≤ g p s) (ha : ∀ p, 0 ≤ a p) (hb : ∀ n, 0 ≤ b n)
    (j : Fin q) : 0 ≤ app_row next g a b j :=
  Finset.sum_nonneg fun p _ => mul_nonneg (mul_nonneg (ha p) (hg _ _)) (hb _)

/-- The combination of the plain metrics is non-negative. -/
theorem app_row_plain_nonneg (next : Fin S → Fin q → Fin S) {inp : bcjr_input R S}
    (h : nonneg_input inp) (t : ℕ) (j : Fin q) :
    0 ≤ app_row next (inp.gamma t) (alpha_plain next inp (t - 1)) (beta_plain next inp t) j :=
  app_row_nonneg next (h.1 t) (alpha_plain_nonneg next h _)
    (fun n => beta_plain_back_nonneg next h _ n) j

/-- At every timestep the combination of the plain metrics is positive at the input symbol of a
feasible path. -/
theorem app_row_plain_pos_on_path (next : Fin S → Fin q → Fin S) {inp : bcjr_input R S}
    (h : nonneg_input inp) {s0 : Fin S} {i : ℕ → Fin q} (hp : feasible_path next inp s0 i)
    (t : ℕ) (ht : t < inp.tau) :
    0 < app_row next (inp.gamma (t + 1)) (alpha_plain next inp t)
      (beta_plain next inp (t + 1)) (i t) := by
  have ha := alpha_plain_pos_on_path next h hp t (le_of_lt ht)
  have hg := hp.2.1 t ht
  have hb := beta_plain_back_pos_on_path next h hp (inp.tau - (t + 1)) (Nat.sub_le _ _)
  have hidx : inp.tau - (inp.tau - (t + 1)) = t + 1 := by omega
  rw [hidx] at hb
  have hterm : 0 < alpha_plain next inp t (path_state next s0 i t)
      * inp.gamma (t + 1) (path_state next s0 i t) (next (path_state next s0 i t) (i t))
      * beta_plain next inp (t + 1) (next (path_state next s0 i t) (i t)) :=
    mul_pos (mul_pos ha hg) hb
  refine lt_of_lt_of_le hterm ?_
  exact Finset.single_le_sum
    (f := fun p => alpha_plain next inp t p * inp.gamma (t + 1) p (next p (i t))
      * beta_plain next inp (t + 1) (next p (i t)))
    (fun p _ => mul_nonneg (mul_nonneg (alpha_plain_nonneg next h t p) (h.1 _ _ _))
      (beta_plain_back_nonneg next h _ _))
    (Finset.mem_univ _)

/-- When both passes have produced positive multiples of the plain metrics and the combination
is not all zero, the a-posteriori distribution is the normalized plain combination. -/
theorem app_of_scaled (norm : Bool) (next : Fin S → Fin q → Fin S) {inp : bcjr_input R S}
    (h : nonneg_input inp) (t : ℕ) {c d : R} (hc : 0 < c) (hd : 0 < d)
    (ha : alpha norm next inp (t - 1) = .ok (fun s => c * alpha_plain next inp (t - 1) s))
    (hb : beta norm next inp t = .ok (fun s => d * beta_plain next inp t s))
    (hnz : ¬ ∀ j, app_row next (inp.gamma t) (alpha_plain next inp (t - 1))
      (beta_plain next inp t) j = 0) :
    app norm next inp t = .ok (app_plain next inp t) := by
  simp only [app, ha, hb, Except.bind]
  rw [app_row_scale, check_row_scale_ok (mul_pos hc hd) hnz]
  simp only [Except.bind]
  rw [rescale_scale (mul_pos hc hd) (app_row_plain_nonneg next h t) hnz]
  rfl

theorem collect_ok_of_forall {ε α : Type} (f : ℕ → Except ε α) (n : ℕ)
    (h : ∀ t, t < n → ∃ x, f t = .ok x) : ∃ xs, collect f n = .ok xs := by
  induction n with
  | zero => exact ⟨[], rfl⟩
  | succ n ih =>
    rcases ih (fun t ht => h t (Nat.lt_succ_of_lt ht)) with ⟨xs, hxs⟩
    rcases h n (Nat.lt_succ_self n) with ⟨x, hx⟩
    exact ⟨xs ++ [x], by simp only [collect, hxs, hx, Except.bind]⟩

theorem collect_eq_map {ε α : Type} (f : ℕ → Except ε α) (g : ℕ → α) (n : ℕ)
    (h : ∀ t, t < n → f t = .ok (g t)) : collect f n = .ok ((List.range n).map g) := by
  induction n with
  | zero => rfl
  | succ n ih =>
    simp only [collect, ih (fun t ht => h t (Nat.lt_succ_of_lt ht)), h n (Nat.lt_succ_self n),
      Except.bind, List.range_succ, List.map_append, List.map_cons, List.map_nil]

/-- When every step either succeeds or fails with `e`, and some step fails, the whole fails
with `e`. -/
theorem collect_error {ε α : Type} (f : ℕ → Except ε α) (e : ε) (n : ℕ)
    (h : ∀ t, t < n → (∃ x, f t = .ok x) ∨ f t = .error e)
    (hex : ∃ t, t < n ∧ f t = .error e) : collect f n = .error e := by
  induction n with
  | zero =>
    rcases hex with ⟨t, ht, _⟩
    exact absurd ht (Nat.not_lt_zero t)
  | succ n ih =>
    have h' : ∀ t, t < n → (∃ x, f t = .ok x) ∨ f t = .error e :=
      fun t ht => h t (Nat.lt_succ_of_lt ht)
    by_cases hprev : ∃ t, t < n ∧ f t = .error e
    · simp only [collect, ih h' hprev, Except.bind]
    · have hall : ∀ t, t < n → ∃ x, f t = .ok x := by
        intro t ht
        rcases h' t ht with hx | he
        · exact hx
        · exact absurd ⟨t, ht, he⟩ hprev
      rcases collect_ok_of_forall f n hall with ⟨xs, hxs⟩
      rcases hex with ⟨t, ht, he⟩
      have htn : t = n := by
        rcases Nat.lt_or_ge t n with hlt | hge
        · exact absurd ⟨t, hlt, he⟩ hprev
        · exact le_antisymm (Nat.lt_succ_iff.mp ht) hge
      subst htn
      simp only [collect, hxs, he, Except.bind]

/-- With well-formed inputs and a feasible path, a decode call succeeds under either
normalization setting, and its table is the normalized plain combination at every timestep. -/
theorem decode_of_feasible (norm : Bool) (next : Fin S → Fin q → Fin S) {inp : bcjr_input R S}
    (h : nonneg_input inp) {s0 : Fin S} {i : ℕ → Fin q} (hp : feasible_path next inp s0 i) :
    decode norm next inp
      = .ok ((List.range inp.tau).map fun t => app_plain next inp (t + 1)) := by
  have hA : ∀ t, t ≤ inp.tau →
      ∃ c, 0 < c ∧ alpha norm next inp t = .ok (fun s => c * alpha_plain next inp t s) := by
    intro t ht
    rcases alpha_cases norm next h t with ⟨hok, _⟩ | ⟨_, u, hu, hz⟩
    · exact hok
    · have := alpha_plain_pos_on_path next h hp u (le_trans hu ht)
      rw [hz] at this
      exact absurd this (lt_irrefl 0)
  have hB : ∀ k, k ≤ inp.tau →
      ∃ c, 0 < c ∧
        beta_back norm next inp k = .ok (fun s => c * beta_plain_back next inp k s) := by
    intro k hk
    rcases beta_back_cases norm next h k with ⟨hok, _⟩ | ⟨_, u, hu, hz⟩
    · exact hok
    · have := beta_plain_back_pos_on_path next h hp u (le_trans hu hk)
      rw [hz] at this
      exact absurd this (lt_irrefl 0)
  rcases collect_ok_of_forall (alpha norm next inp) (inp.tau + 1) (fun t ht => by
    rcases hA t (Nat.lt_succ_iff.mp ht) with ⟨c, _, hc⟩
    exact ⟨_, hc⟩) with ⟨as, has⟩
  rcases collect_ok_of_forall (beta_back norm next inp) (inp.tau + 1) (fun k hk => by
    rcases hB k (Nat.lt_succ_iff.mp hk) with ⟨c, _, hc⟩
    exact ⟨_, hc⟩) with ⟨bs, hbs⟩
  simp only [decode, has, hbs, Except.bind]
  refine collect_eq_map _ _ _ fun t ht => ?_
  rcases hA t (le_of_lt ht) with ⟨c, hc, hca⟩
  rcases hB (inp.tau - (t + 1)) (Nat.sub_le _ _) with ⟨d, hd, hdb⟩
  refine app_of_scaled norm next h (t + 1) hc hd hca hdb ?_
  intro hz
  have hpos := app_row_plain_pos_on_path next h hp t ht
  have hzero := hz (i t)
  simp only [Nat.add_sub_cancel] at hzero
  rw [hzero] at hpos
  exact absurd hpos (lt_irrefl 0)

/-- With well-formed inputs every a-posteriori row either is produced or is reported as
infeasible: the rescaling never divides by a zero sum. -/
theorem app_ok_or_infeasible (norm : Bool) (next : Fin S → Fin q → Fin S)
    {inp : bcjr_input R S} (h : nonneg_input inp) (t : ℕ) :
    (∃ x, app norm next inp t = .ok x) ∨ app norm next inp t = .error .infeasible := by
  rcases alpha_cases norm next h (t - 1) with ⟨⟨c, hc, ha⟩, _⟩ | ⟨ha, _⟩
  · rcases beta_back_cases norm next h (inp.tau - t) with ⟨⟨d, hd, hb⟩, _⟩ | ⟨hb, _⟩
    · by_cases hz : ∀ j, app_row next (inp.gamma t) (alpha_plain next inp (t - 1))
          (beta_plain next inp t) j = 0
      · right
        simp only [app, beta, ha, hb, Except.bind]
        have hcheck := check_row_scale_zero (c * d) hz
        simp only [beta_plain] at hcheck
        rw [app_row_scale, hcheck]
      · left
        exact ⟨_, app_of_scaled norm next h t hc hd ha hb hz⟩
    · right
      simp only [app, beta, ha, hb, Except.bind]
  · right
    simp only [app, ha, Except.bind]

theorem collect_ok_or_error {ε α : Type} (f : ℕ → Except ε α) (e : ε) (n : ℕ)
    (h : ∀ t, t < n → (∃ x, f t = .ok x) ∨ f t = .error e) :
    (∃ xs, collect f n = .ok xs) ∨ collect f n = .error e := by
  by_cases hex : ∃ t, t < n ∧ f t = .error e
  · exact Or.inr (collect_error f e n h hex)
  · left
    refine collect_ok_of_forall f n fun t ht => ?_
    rcases h t ht with hx | he
    · exact hx
    · exact absurd ⟨t, ht, he⟩ hex

theorem alpha_ok_or_infeasible (norm : Bool) (next : Fin S → Fin q → Fin S)
    {inp : bcjr_input R S} (h : nonneg_input inp) (t : ℕ) :
    (∃ x, alpha norm next inp t = .ok x) ∨ alpha norm next inp t = .error .infeasible := by
  rcases alpha_cases norm next h t with ⟨⟨c, _, ha⟩, _⟩ | ⟨ha, _⟩
  · exact Or.inl ⟨_, ha⟩
  · exact Or.inr ha

theorem beta_back_ok_or_infeasible (norm : Bool) (next : Fin S → Fin q → Fin S)
    {inp : bcjr_input R S} (h : nonneg_input inp) (k : ℕ) :
    (∃ x, beta_back norm next inp k = .ok x) ∨
      beta_back norm next inp k = .error .infeasible := by
  rcases beta_back_cases norm next h k with ⟨⟨c, _, hb⟩, _⟩ | ⟨hb, _⟩
  · exact Or.inl ⟨_, hb⟩
  · exact Or.inr hb

/-- With well-formed inputs a decode call either succeeds or reports the decode failure; it
never divides by a zero sum. -/
theorem decode_ok_or_infeasible (norm : Bool) (next : Fin S → Fin q → Fin S)
    {inp : bcjr_input R S} (h : nonneg_input inp) :
    (∃ table, decode norm next inp = .ok table) ∨
      decode norm next inp = .error .infeasible := by
  rcases collect_ok_or_error (alpha norm next inp) .infeasible (inp.tau + 1)
    (fun t _ => alpha_ok_or_infeasible norm next h t) with ⟨as, has⟩ | has
  · rcases collect_ok_or_error (beta_back norm next inp) .infeasible (inp.tau + 1)
      (fun k _ => beta_back_ok_or_infeasible norm next h k) with ⟨bs, hbs⟩ | hbs
    · rcases collect_ok_or_error (fun t => app norm next inp (t + 1)) .infeasible inp.tau
        (fun t _ => app_ok_or_infeasible norm next h (t + 1)) with ⟨xs, hxs⟩ | hxs
      · exact Or.inl ⟨xs, by simp only [decode, has, hbs, hxs, Except.bind]⟩
      · exact Or.inr (by simp only [decode, has, hbs, hxs, Except.bind])
    · exact Or.inr (by simp only [decode, has, hbs, Except.bind])
  · exact Or.inr (by simp only [decode, has, Except.bind])

/-- An all-zero plain forward or backward vector at some timestep makes the decode call report
the decode failure. -/
theorem decode_of_zero_row (norm : Bool) (next : Fin S → Fin q → Fin S)
    {inp : bcjr_input R S} (h : nonneg_input inp)
    (hz : ∃ t, t ≤ inp.tau ∧
      ((∀ s, alpha_plain next inp t s = 0) ∨ (∀ s, beta_plain next inp t s = 0))) :
    decode norm next inp = .error .infeasible := by
  rcases hz with ⟨t, ht, hzero | hzero⟩
  · have herr : alpha norm next inp t = .error .infeasible := by
      rcases alpha_cases norm next h t with ⟨_, hnz⟩ | ⟨herr, _⟩
      · exact absurd hzero (hnz t (le_refl t))
      · exact herr
    have := collect_error (alpha norm next inp) .infeasible (inp.tau + 1)
      (fun u _ => alpha_ok_or_infeasible norm next h u) ⟨t, Nat.lt_succ_of_le ht, herr⟩
    simp only [decode, this, Except.bind]
  · have herr : beta_back norm next inp (inp.tau - t) = .error .infeasible := by
      rcases beta_back_cases norm next h (inp.tau - t) with ⟨_, hnz⟩ | ⟨herr, _⟩
      · exact absurd hzero (hnz _ (le_refl _))
      · exact herr
    have hb := collect_error (beta_back norm next inp) .infeasible (inp.tau + 1)
      (fun u _ => beta_back_ok_or_infeasible norm next h u)
      ⟨inp.tau - t, Nat.lt_succ_of_le (Nat.sub_le _ _), herr⟩
    rcases collect_ok_or_error (alpha norm next inp) .infeasible (inp.tau + 1)
      (fun t _ => alpha_ok_or_infeasible norm next h t) with ⟨as, has⟩ | has
    · simp only [decode, has, hb, Except.bind]
    · simp only [decode, has, Except.bind]

/-- Every row of the normalized plain combination sums to 1 when the combination is not all
zero. -/
theorem app_plain_sum (next : Fin S → Fin q → Fin S) {inp : bcjr_input R S}
    (h : nonneg_input inp) (t : ℕ)
    (hnz : ¬ ∀ j, app_row next (inp.gamma t) (alpha_plain next inp (t - 1))
      (beta_plain next inp t) j = 0) :
    ∑ j, app_plain next inp t j = 1 := by
  have hs := sum_pos_of_not_all_zero (app_row_plain_nonneg next h t) hnz
  simp only [app_plain]
  rw [← Finset.sum_div]
  exact div_self (ne_of_gt hs)

/-! ### Changing the arithmetic policy -/

section transfer

variable {R' : Type} [LinearOrderedSemifield R'] (φ : R →+* R')

theorem check_row_map {n : ℕ} (v : Fin n → R) :
    check_row (fun i => φ (v i)) = (check_row v).map fun w i => φ (w i) := by
  by_cases hz : ∀ i, v i = 0
  · have hz' : ∀ i, φ (v i) = 0 := fun i => by rw [hz i, map_zero]
    simp only [check_row, if_pos hz, if_pos hz', Except.map]
  · have hz' : ¬ ∀ i, φ (v i) = 0 := fun h => hz fun i => (map_eq_zero φ).mp (h i)
    simp only [check_row, if_neg hz, if_neg hz', Except.map]

theorem rescale_map {n : ℕ} (v : Fin n → R) :
    rescale (fun i => φ (v i)) = (rescale v).map fun w i => φ (w i) := by
  have hsum : (∑ i, φ (v i)) = φ (∑ i, v i) := (map_sum φ v Finset.univ).symm
  by_cases hz : (∑ i, v i) = 0
  · have hz' : (∑ i, φ (v i)) = 0 := by rw [hsum, hz, map_zero]
    simp only [rescale, if_pos hz, if_pos hz', Except.map]
  · have hz' : ¬ (∑ i, φ (v i)) = 0 := by
      rw [hsum]; exact fun h => hz ((map_eq_zero φ).mp h)
    simp only [rescale, if_neg hz, if_neg hz', Except.map]
    congr 1
    funext i
    rw [hsum, map_div₀]

theorem settle_map {n : ℕ} (norm : Bool) (v : Fin n → R) :
    settle norm (fun i => φ (v i)) = (settle norm v).map fun w i => φ (w i) := by
  simp only [settle, check_row_map]
  cases check_row v with
  | error e => rfl
  | ok w =>
    cases norm with
    | false => rfl
    | true =>
      simp only [Except.map, Except.bind, if_true]
      rw [rescale_map]
      rfl

theorem forward_step_map (next : Fin S → Fin q → Fin S) (g : Fin S → Fin S → R)
    (a : Fin S → R) :
    forward_step next (fun p s => φ (g p s)) (fun p => φ (a p))
      = fun s => φ (forward_step next g a s) := by
  funext s
  simp only [forward_step, map_sum, map_mul]

theorem backward_step_map (next : Fin S → Fin q → Fin S) (g : Fin S → Fin S → R)
    (b : Fin S → R) :
    backward_step next (fun p s => φ (g p s)) (fun n => φ (b n))
      = fun s => φ (backward_step next g b s) := by
  funext s
  simp only [backward_step, map_sum, map_mul]

theorem app_row_map (next : Fin S → Fin q → Fin S) (g : Fin S → Fin S → R)
    (a b : Fin S → R) :
    app_row next (fun p s => φ (g p s)) (fun p => φ (a p)) (fun n => φ (b n))
      = fun j => φ (app_row next g a b j) := by
  funext j
  simp only [app_row, map_sum, map_mul]

theorem alpha_map (norm : Bool) (next : Fin S → Fin q → Fin S) (inp : bcjr_input R S)
    (t : ℕ) :
    alpha norm next (inp.map φ) t = (alpha norm next inp t).map fun w s => φ (w s) := by
  induction t with
  | zero => exact check_row_map φ inp.alpha0
  | succ t ih =>
    simp only [alpha, ih]
    cases alpha norm next inp t with
    | error e => rfl
    | ok a =>
      simp only [Except.map, Except.bind, bcjr_input.map]
      rw [forward_step_map, settle_map]
      rfl

theorem beta_back_map (norm : Bool) (next : Fin S → Fin q → Fin S) (inp : bcjr_input R S)
    (k : ℕ) :
    beta_back norm next (inp.map φ) k
      = (beta_back norm next inp k).map fun w s => φ (w s) := by
  induction k with
  | zero => exact check_row_map φ inp.betatau
  | succ k ih =>
    simp only [beta_back, ih]
    cases beta_back norm next inp k with
    | error e => rfl
    | ok b =>
      simp only [Except.map, Except.bind, bcjr_input.map]
      rw [backward_step_map, settle_map]
      rfl

theorem app_map (norm : Bool) (next : Fin S → Fin q → Fin S) (inp : bcjr_input R S)
    (t : ℕ) :
    app norm next (inp.map φ) t = (app norm next inp t).map fun w j => φ (w j) := by
  simp only [app, beta, alpha_map, beta_back_map]
  have htau : (inp.map φ).tau = inp.tau := rfl
  rw [htau]
  cases alpha norm next inp (t - 1) with
  | error e => rfl
  | ok a =>
    cases beta_back norm next inp (inp.tau - t) with
    | error e => rfl
    | ok b =>
      simp only [Except.map, Except.bind, bcjr_input.map]
      rw [app_row_map, check_row_map]
      cases check_row (app_row next (inp.gamma t) a b) with
      | error e => rfl
      | ok w =>
        simp only [Except.map]
        rw [rescale_map]
        rfl

theorem collect_map {ε α β : Type} (f : ℕ → Except ε α) (g : α → β) (n : ℕ) :
    collect (fun t => (f t).map g) n = (collect f n).map (List.map g) := by
  induction n with
  | zero => rfl
  | succ n ih =>
    simp only [collect, ih]
    cases collect f n with
    | error e => rfl
    | ok xs =>
      cases f n with
      | error e => rfl
      | ok x => simp [Except.map, Except.bind]

/-- A decode call commutes with a change of the arithmetic policy: decoding the converted
inputs yields the converted table, and the same failures. -/
theorem decode_map (norm : Bool) (next : Fin S → Fin q → Fin S) (inp : bcjr_input R S) :
    decode norm next (inp.map φ)
      = (decode norm next inp).map (List.map fun w j => φ (w j)) := by
  have hA : alpha norm next (inp.map φ)
      = fun t => (alpha norm next inp t).map fun w s => φ (w s) :=
    funext fun t => alpha_map φ norm next inp t
  have hB : beta_back norm next (inp.map φ)
      = fun k => (beta_back norm next inp k).map fun w s => φ (w s) :=
    funext fun k => beta_back_map φ norm next inp k
  have hP : (fun t => app norm next (inp.map φ) (t + 1))
      = fun t => (app norm next inp (t + 1)).map fun w j => φ (w j) :=
    funext fun t => app_map φ norm next inp (t + 1)
  have htau : (inp.map φ).tau = inp.tau := rfl
  simp only [decode, hA, hB, hP, htau, collect_map]
  cases collect (alpha norm next inp) (inp.tau + 1) with
  | error e => rfl
  | ok as =>
    cases collect (beta_back norm next inp) (inp.tau + 1) with
    | error e => rfl
    | ok bs => rfl

end transfer

theorem unit_mass_nonneg (s x : Fin S) : (0 : R) ≤ unit_mass s x := by
  unfold unit_mass
  split_ifs
  · exact zero_le_one
  · exact le_refl 0

theorem uniform_mass_nonneg (x : Fin S) : (0 : R) ≤ uniform_mass x :=
  zero_le_one

/-- Along a feasible path every row of the normalized plain combination, converted to
ordinary probabilities, sums to 1. -/
theorem app_plain_sum_on_path {P : Type} [Semiring P] (toprob : R →+* P)
    (next : Fin S → Fin q → Fin S) {inp : bcjr_input R S} (h : nonneg_input inp) {s0 : Fin S}
    {i : ℕ → Fin q} (hp : feasible_path next inp s0 i) (t : ℕ) (ht : t < inp.tau) :
    ∑ j, toprob (app_plain next inp (t + 1) j) = 1 := by
  rw [← map_sum, app_plain_sum next h (t + 1), map_one]
  intro hz
  have hpos := app_row_plain_pos_on_path next h hp t ht
  have hzero := hz (i t)
  simp only [Nat.add_sub_cancel] at hzero
  rw [hzero] at hpos
  exact absurd hpos (lt_irrefl 0)

theorem bind_ok_eta {ε α : Type} (x : Except ε α) : (x.bind fun y => .ok y) = x := by
  cases x <;> rfl

theorem settle_rounded_id {n : ℕ} (norm : Bool) (v : Fin n → R) :
    settle_rounded id norm v = settle norm v := by
  unfold settle_rounded settle
  simp only [id]
  congr 1
  funext w
  cases norm
  · rfl
  · simp only [if_true]
    exact bind_ok_eta _

theorem alpha_rounded_id (norm : Bool) (next : Fin S → Fin q → Fin S) (inp : bcjr_input R S) :
    ∀ t, alpha_rounded id norm next inp t = alpha norm next inp t
  | 0 => rfl
  | t + 1 => by
    simp only [alpha_rounded, alpha, alpha_rounded_id norm next inp t, settle_rounded_id]

theorem beta_back_rounded_id (norm : Bool) (next : Fin S → Fin q → Fin S)
    (inp : bcjr_input R S) :
    ∀ k, beta_back_rounded id norm next inp k = beta_back norm next inp k
  | 0 => rfl
  | k + 1 => by
    simp only [beta_back_rounded, beta_back, beta_back_rounded_id norm next inp k,
      settle_rounded_id]

/-- Without rounding the engine on stored numbers is the engine of the specification. -/
theorem decode_rounded_id (norm : Bool) (next : Fin S → Fin q → Fin S) (inp : bcjr_input R S) :
    decode_rounded id norm next inp = decode norm next inp := by
  have ha : alpha_rounded id norm next inp = alpha norm next inp :=
    funext (alpha_rounded_id norm next inp)
  have hb : beta_back_rounded id norm next inp = beta_back norm next inp :=
    funext (beta_back_rounded_id norm next inp)
  have hc : (fun t => app_rounded id norm next inp (t + 1))
      = fun t => app norm next inp (t + 1) := by
    funext t
    simp only [app_rounded, app, beta, ha, hb, id]
    congr 1
    funext a
    congr 1
    funext b
    congr 1
    funext w
    exact bind_ok_eta _
  unfold decode_rounded decode
  rw [ha, hb, hc]

/-- C3: for every trellis, block length `tau` and table of (non-negative) branch metrics with at
least one feasible path, a decode call succeeds and at every timestep the a-posteriori
distribution over the input symbols sums to 1.  This holds for every arithmetic policy: `R` is
the number type of the recursion and `toprob` its conversion to ordinary probability (exact
linear probabilities with the identity, or `logreal` with `logreal.to_probability`), with
(`norm = true`) and without (`norm = false`) per-step normalization. -/
theorem decode_rows_sum_to_one {P : Type} [Semiring P] (toprob : R →+* P) (norm : Bool)
    (next : Fin S → Fin q → Fin S) (inp : bcjr_input R S) (h : nonneg_input inp) (s0 : Fin S)
    (i : ℕ → Fin q) (hp : feasible_path next inp s0 i) :
    ∃ table, decode norm next inp = .ok table ∧ table.length = inp.tau ∧
      ∀ row, row ∈ table → ∑ j, toprob (row j) = 1 := by
  refine ⟨(List.range inp.tau).map fun t => app_plain next inp (t + 1), ?_, ?_, ?_⟩
  · exact decode_of_feasible norm next h hp
  · rw [List.length_map, List.length_range]
  · intro row hrow
    rcases List.mem_map.mp hrow with ⟨t, ht, hrow_eq⟩
    rw [← hrow_eq]
    exact app_plain_sum_on_path toprob next h hp t (List.mem_range.mp ht)

theorem example_input_nonneg : nonneg_input example_input :=
  ⟨fun _ _ _ => by simp only [example_input]; norm_num,
    fun s => unit_mass_nonneg 0 s, fun s => uniform_mass_nonneg s⟩

theorem example_input_feasible :
    feasible_path example_next example_input 0 (fun _ => 0) :=
  ⟨by simp [example_input, unit_mass],
    fun _ _ => by simp only [example_input]; norm_num,
    by simp [example_input, uniform_mass]⟩

theorem decode_rows_sum_to_one_witness :
    ∃ table, decode true example_next example_input = .ok table ∧
      table.length = example_input.tau ∧
      ∀ row, row ∈ table → ∑ j, RingHom.id ℚ (row j) = 1 :=
  decode_rows_sum_to_one (RingHom.id ℚ) true example_next example_input example_input_nonneg
    0 (fun _ => 0) example_input_feasible

theorem long_input_forward_le {a : Fin 2 → ℚ} {c : ℚ} (ha : ∀ s, 0 ≤ a s ∧ a s ≤ c) (t : ℕ)
    (s : Fin 2) :
    0 ≤ forward_step example_next (long_input.gamma t) a s ∧
      forward_step example_next (long_input.gamma t) a s ≤ c * (1 / 5) := by
  have hterm : ∀ p, 0 ≤ a p * long_input.gamma t p s := fun p =>
    mul_nonneg (ha p).1 (by simp only [long_input]; norm_num)
  constructor
  · exact Finset.sum_nonneg fun p _ => hterm p
  · unfold forward_step
    refine le_trans (Finset.sum_le_sum_of_subset_of_nonneg (Finset.subset_univ _)
      fun p _ _ => hterm p) ?_
    rw [Fin.sum_univ_two]
    simp only [long_input]
    have h0 := (ha 0).2
    have h1 := (ha 1).2
    linarith

theorem long_input_alpha_bound : ∀ t,
    alpha_rounded double_underflow false example_next long_input t = .error .infeasible ∨
    ∃ a, alpha_rounded double_underflow false example_next long_input t = .ok a ∧
      ∀ s, 0 ≤ a s ∧ a s ≤ (1 / 5 : ℚ) ^ t
  | 0 => by
    right
    refine ⟨unit_mass 0, ?_, ?_⟩
    · have : ¬ ∀ i : Fin 2, (unit_mass 0 : Fin 2 → ℚ) i = 0 := by
        intro h
        have := h 0
        simp [unit_mass] at this
      simp only [alpha_rounded, long_input, check_row, if_neg this]
    · intro s
      simp only [unit_mass, pow_zero]
      split <;> norm_num
  | t + 1 => by
    rcases long_input_alpha_bound t with he | ⟨a, hok, ha⟩
    · left
      simp only [alpha_rounded, he, Except.bind]
    · by_cases hz : ∀ i, double_underflow
          (forward_step example_next (long_input.gamma (t + 1)) a i) = 0
      · left
        simp only [alpha_rounded, hok, Except.bind, settle_rounded, check_row, if_pos hz]
      · right
        refine ⟨fun i => double_underflow
          (forward_step example_next (long_input.gamma (t + 1)) a i), ?_, fun s => ?_⟩
        · simp only [alpha_rounded, hok, Except.bind, settle_rounded, check_row, if_neg hz]
          rfl
        · have hf := long_input_forward_le ha (t + 1) s
          have hr := double_underflow_bounds hf.1
          refine ⟨hr.1, le_trans hr.2 (le_trans hf.2 ?_)⟩
          rw [pow_succ]

theorem long_input_alpha_fails (t : ℕ) (ht : (1 / 5 : ℚ) ^ (t + 1) < 1 / 2 ^ 1075) :
    alpha_rounded double_underflow false example_next long_input (t + 1)
      = .error .infeasible := by
  rcases long_input_alpha_bound t with he | ⟨a, hok, ha⟩
  · simp only [alpha_rounded, he, Except.bind]
  · have hz : ∀ s, double_underflow
        (forward_step example_next (long_input.gamma (t + 1)) a s) = 0 := by
      intro s
      have hf := long_input_forward_le ha (t + 1) s
      unfold double_underflow
      rw [if_pos]
      rw [abs_of_nonneg hf.1]
      refine lt_of_le_of_lt hf.2 ?_
      rw [← pow_succ]
      exact ht
    simp only [alpha_rounded, hok, Except.bind, settle_rounded, check_row, if_pos hz]

theorem fifth_pow_thousand_lt : (1 / 5 : ℚ) ^ (999 + 1) < 1 / 2 ^ 1075 := by
  rw [one_div_pow, one_div_lt_one_div (by positivity) (by positivity)]
  norm_num

/-- C3 (counterexample): on the two-state trellis with every branch metric one tenth and a block
of a thousand timesteps (non-negative metrics, a feasible path), the plain policy on numbers
with the range of a `double` underflows: the forward metrics become all zero, the decode call
reports a failure and no distribution summing to 1 is produced. -/
theorem plain_decode_underflows :
    nonneg_input long_input ∧ feasible_path example_next long_input 0 (fun _ => 0) ∧
    decode_rounded double_underflow false example_next long_input = .error .infeasible := by
  refine ⟨⟨fun _ _ _ => by simp only [long_input]; norm_num, fun s => ?_, fun s => ?_⟩,
    ⟨by simp [long_input, unit_mass], fun _ _ => by simp only [long_input]; norm_num,
      by simp [long_input, uniform_mass]⟩, ?_⟩
  · simp only [long_input, unit_mass]; split <;> norm_num
  · simp only [long_input, uniform_mass]; norm_num
  · have hc : collect (alpha_rounded double_underflow false example_next long_input)
        (long_input.tau + 1) = .error .infeasible := by
      refine collect_error _ _ _ (fun t _ => ?_)
        ⟨999 + 1, Nat.lt_succ_self _, long_input_alpha_fails 999 fifth_pow_thousand_lt⟩
      rcases long_input_alpha_bound t with he | ⟨a, hok, _⟩
      · exact Or.inr he
      · exact Or.inl ⟨a, hok⟩
    simp only [decode_rounded, hc, Except.bind]

/-- Every log-domain value is non-negative. -/
theorem logreal.nonneg (x : logreal) : 0 ≤ x :=
  show logreal.value 0 ≤ logreal.value x from by
    rw [logreal.value_zero]
    exact zero_le _

/-- In the log domain every input is well formed. -/
theorem logreal.input_nonneg (inp : bcjr_input logreal S) : nonneg_input inp :=
  ⟨fun _ _ _ => logreal.nonneg _, fun _ => logreal.nonneg _, fun _ => logreal.nonneg _⟩

/-- The log-domain policy: with a feasible path, the engine without normalization succeeds
and the probabilities of every row of its table sum to 1. -/
theorem logreal.rows_sum_to_one (next : Fin S → Fin q → Fin S)
    (inp : bcjr_input logreal S) (s0 : Fin S) (i : ℕ → Fin q)
    (hp : feasible_path next inp s0 i) :
    ∃ table, decode false next inp = .ok table ∧ table.length = inp.tau ∧
      ∀ row, row ∈ table → ∑ j, (row j).value = 1 := by
  refine ⟨(List.range inp.tau).map fun t => app_plain next inp (t + 1),
    decode_of_feasible false next (logreal.input_nonneg inp) hp, by simp, ?_⟩
  intro row hrow
  rcases List.mem_map.mp hrow with ⟨t, ht, hrow_eq⟩
  rw [← hrow_eq]
  exact app_plain_sum_on_path logreal.to_probability next (logreal.input_nonneg inp) hp t
    (List.mem_range.mp ht)

/-- The log-domain policy without normalization and the linear policy with normalization
agree: decoding the probabilities that the log-domain inputs stand for yields the
probabilities that the log-domain table stands for. -/
theorem logreal.decode_agrees_with_normalized (next : Fin S → Fin q → Fin S)
    (inp : bcjr_input logreal S) (s0 : Fin S) (i : ℕ → Fin q)
    (hp : feasible_path next inp s0 i) :
    ∃ table, decode false next inp = .ok table ∧
      decode true next (inp.map logreal.value)
        = .ok (table.map fun w j => (w j).value) := by
  refine ⟨(List.range inp.tau).map fun t => app_plain next inp (t + 1),
    decode_of_feasible false next (logreal.input_nonneg inp) hp, ?_⟩
  have := decode_map logreal.to_probability true next inp
  rw [decode_of_feasible true next (logreal.input_nonneg inp) hp] at this
  exact this

/-- C4: for every FSM, block length and table of (non-negative) branch metrics with at least one
feasible path, the unnormalized engine selected by the primary `safe_bcjr` template (any `real`
other than `float` and `double`) succeeds with a table, and the normalized engine selected by
`safe_bcjr<double, double>`, run on the same inputs converted to its own arithmetic by `φ`,
succeeds with the same table, converted by `φ`.  (`φ` is the identity when both engines use the
same exact numbers.) -/
theorem safe_bcjr_policy_independent {R' : Type} [LinearOrderedSemifield R'] (φ : R →+* R')
    (next : Fin S → Fin q → Fin S) (inp : bcjr_input R S) (h : nonneg_input inp)
    (s0 : Fin S) (i : ℕ → Fin q) (hp : feasible_path next inp s0 i)
    (real dbl : NumType) (hf : real ≠ NumType.float) (hd : real ≠ NumType.double) :
    ∃ table, decode (safe_bcjr real dbl).norm next inp = .ok table ∧
      decode (safe_bcjr NumType.double NumType.double).norm next (inp.map φ)
        = .ok (table.map fun w j => φ (w j)) := by
  refine ⟨(List.range inp.tau).map fun t => app_plain next inp (t + 1), ?_, ?_⟩
  · rw [safe_bcjr_primary real dbl hf hd]
    exact decode_of_feasible false next h hp
  · have hn : (safe_bcjr NumType.double NumType.double).norm = true := rfl
    rw [hn, decode_map, decode_of_feasible true next h hp]
    rfl

theorem safe_bcjr_policy_independent_witness :
    ∃ table, decode (safe_bcjr NumType.logrealfast NumType.double).norm example_next
        example_input = .ok table ∧
      decode (safe_bcjr NumType.double NumType.double).norm example_next
        (example_input.map (RingHom.id ℚ)) = .ok (table.map fun w j => RingHom.id ℚ (w j)) :=
  safe_bcjr_policy_independent (RingHom.id ℚ) example_next example_input example_input_nonneg
    0 (fun _ => 0) example_input_feasible NumType.logrealfast NumType.double
    (by decide) (by decide)

/-- C7: for every (non-negative) input in which the forward (alpha) or the backward (beta) vector
is all zero at some timestep, the engine, with or without normalization, reports the decode
failure for the block; in particular it does not succeed and it does not divide by the zero sum
while rescaling. -/
theorem decode_zero_row_reports_failure (norm : Bool) (next : Fin S → Fin q → Fin S)
    (inp : bcjr_input R S) (h : nonneg_input inp)
    (hz : ∃ t, t ≤ inp.tau ∧
      ((∀ s, alpha_plain next inp t s = 0) ∨ (∀ s, beta_plain next inp t s = 0))) :
    decode norm next inp = .error .infeasible ∧
      decode norm next inp ≠ .error .division_by_zero ∧
      ∀ table, decode norm next inp ≠ .ok table := by
  have herr := decode_of_zero_row norm next h hz
  rw [herr]
  refine ⟨rfl, ?_, ?_⟩
  · intro hc
    cases hc
  · intro table hc
    cases hc

theorem example_blocked_nonneg : nonneg_input example_blocked :=
  ⟨fun _ _ _ => le_refl 0, fun s => unit_mass_nonneg 0 s, fun s => uniform_mass_nonneg s⟩

theorem decode_zero_row_reports_failure_witness :
    decode (safe_bcjr NumType.double NumType.double).norm example_next example_blocked
        = .error .infeasible ∧
      decode (safe_bcjr NumType.double NumType.double).norm example_next example_blocked
        ≠ .error .division_by_zero ∧
      ∀ table, decode (safe_bcjr NumType.double NumType.double).norm example_next
        example_blocked ≠ .ok table :=
  decode_zero_row_reports_failure _ example_next example_blocked example_blocked_nonneg
    ⟨1, by decide, Or.inl fun s => by
      simp [alpha_plain, forward_step, example_blocked]⟩

/-! ### The codec on a channel with zero noise -/

theorem path_state_shift (next : Fin S → Fin q → Fin S) (s0 : Fin S) (i : ℕ → Fin q) (t : ℕ) :
    path_state next s0 i (t + 1) = path_state next (next s0 (i 0)) (fun k => i (k + 1)) t := by
  induction t with
  | zero => rfl
  | succ t ih =>
    show next (path_state next s0 i (t + 1)) (i (t + 1)) = _
    rw [ih]
    rfl

/-- The state after a block is the state of the path at the end of the block. -/
theorem fsm.run_eq_path_state {qo : ℕ} (m : fsm S q qo) (u : List (Fin q)) (s0 : Fin S)
    (i : ℕ → Fin q) (hi : ∀ t (h : t < u.length), i t = u[t]) :
    m.run s0 u = path_state m.next s0 i u.length := by
  induction u generalizing s0 i with
  | nil => rfl
  | cons a u ih =>
    have h0 : i 0 = a := hi 0 (Nat.succ_pos _)
    simp only [fsm.run, List.length_cons]
    rw [path_state_shift, h0]
    exact ih (m.next s0 a) (fun k => i (k + 1)) fun t h => by
      have := hi (t + 1) (Nat.succ_lt_succ h)
      simpa using this

/-- The symbol transmitted at a timestep is the output of the transition of the path. -/
theorem fsm.encode_get_opt {qo : ℕ} (m : fsm S q qo) (u : List (Fin q)) (s0 : Fin S)
    (i : ℕ → Fin q) (hi : ∀ t (h : t < u.length), i t = u[t]) (t : ℕ) (ht : t < u.length) :
    (m.encode s0 u)[t]? = some (m.output (path_state m.next s0 i t) (i t)) := by
  induction u generalizing s0 i t with
  | nil => exact absurd ht (Nat.not_lt_zero t)
  | cons a u ih =>
    have h0 : i 0 = a := hi 0 (Nat.succ_pos _)
    cases t with
    | zero => simp [fsm.encode, path_state, h0]
    | succ t =>
      simp only [fsm.encode, List.getElem?_cons_succ]
      rw [path_state_shift, h0]
      exact ih (m.next s0 a) (fun k => i (k + 1)) (fun t h => by
        have := hi (t + 1) (Nat.succ_lt_succ h)
        simpa using this) t (Nat.lt_of_succ_lt_succ ht)

theorem noiseless_nonneg {qo : ℕ} (tx : List (Fin qo)) (t : ℕ) (o : Fin qo) :
    (0 : R) ≤ noiseless tx t o := by
  unfold noiseless
  split_ifs
  · exact zero_le_one
  · exact le_refl 0

theorem branch_metric_nonneg {qo : ℕ} (m : fsm S q qo) (tx : List (Fin qo)) (t : ℕ)
    (p s : Fin S) : (0 : R) ≤ branch_metric m (noiseless tx) t p s :=
  Finset.sum_nonneg fun _ _ => noiseless_nonneg tx t _

/-- On a channel with zero noise the branch metric of every transition of the encoder's own
path is positive. -/
theorem branch_metric_pos_on_path {qo : ℕ} (m : fsm S q qo) (u : List (Fin q)) (s0 : Fin S)
    (i : ℕ → Fin q) (hi : ∀ t (h : t < u.length), i t = u[t]) (t : ℕ) (ht : t < u.length) :
    (0 : R) < branch_metric m (noiseless (m.encode s0 u)) (t + 1)
      (path_state m.next s0 i t) (path_state m.next s0 i (t + 1)) := by
  have hmem : i t ∈ Finset.univ.filter
      (fun j => m.next (path_state m.next s0 i t) j = path_state m.next s0 i (t + 1)) := by
    simp only [Finset.mem_filter, Finset.mem_univ, true_and]
    rfl
  have hterm : (0 : R) < noiseless (m.encode s0 u) (t + 1)
      (m.output (path_state m.next s0 i t) (i t)) := by
    simp only [noiseless, Nat.add_sub_cancel, m.encode_get_opt u s0 i hi t ht, if_true]
    exact one_pos
  refine lt_of_lt_of_le hterm ?_
  exact Finset.single_le_sum
    (f := fun j => noiseless (m.encode s0 u) (t + 1) (m.output (path_state m.next s0 i t) j))
    (fun j _ => noiseless_nonneg _ _ _) hmem

/-- The hard decision on a row that is positive at one symbol and zero elsewhere. -/
theorem hard_decision_of_single {v : Fin q → R} {a : Fin q} (ha : 0 < v a)
    (hz : ∀ j, j ≠ a → v j = 0) : hard_decision v = some a := by
  unfold hard_decision
  rw [Fin.find_eq_some_iff]
  refine ⟨fun k => ?_, fun j hjmax => ?_⟩
  · by_cases hk : k = a
    · rw [hk]
    · rw [hz k hk]; exact le_of_lt ha
  · by_cases hja : j = a
    · rw [hja]
    · have := hjmax a
      rw [hz j hja] at this
      exact absurd ha (not_lt.mpr this)

/-- A block of length zero decodes to the empty table as soon as the start and the end
distribution are not all zero. -/
theorem decode_nil (norm : Bool) (next : Fin S → Fin q → Fin S) (inp : bcjr_input R S)
    (htau : inp.tau = 0) {s e : Fin S} (hs : 0 < inp.alpha0 s) (he : 0 < inp.betatau e) :
    decode norm next inp = .ok [] := by
  have ha : ¬ ∀ x, inp.alpha0 x = 0 := fun h => absurd (h s) (ne_of_gt hs)
  have hb : ¬ ∀ x, inp.betatau x = 0 := fun h => absurd (h e) (ne_of_gt he)
  simp only [decode, htau, collect, alpha, beta_back, check_row, if_neg ha, if_neg hb,
    Except.bind]

theorem fsm.run_append {qo : ℕ} (m : fsm S q qo) (s : Fin S) (w v : List (Fin q)) :
    m.run s (w ++ v) = m.run (m.run s w) v := by
  induction w generalizing s with
  | nil => rfl
  | cons a w ih => exact ih (m.next s a)

theorem fsm.encode_append {qo : ℕ} (m : fsm S q qo) (s : Fin S) (w v : List (Fin q)) :
    m.encode s (w ++ v) = m.encode s w ++ m.encode (m.run s w) v := by
  induction w generalizing s with
  | nil => rfl
  | cons a w ih =>
    show m.output s a :: m.encode (m.next s a) (w ++ v)
      = m.output s a :: m.encode (m.next s a) w ++ m.encode (m.run (m.next s a) w) v
    rw [ih]
    rfl

theorem fsm.encode_length {qo : ℕ} (m : fsm S q qo) (s : Fin S) (w : List (Fin q)) :
    (m.encode s w).length = w.length := by
  induction w generalizing s with
  | nil => rfl
  | cons a w ih => simp only [fsm.encode, List.length_cons, ih]

/-- From one state, an FSM whose output symbol determines the input symbol in every state emits
different symbols for different blocks of inputs. -/
theorem fsm.encode_injective {qo : ℕ} (m : fsm S q qo)
    (hinj : ∀ s a b, m.output s a = m.output s b → a = b) (s : Fin S) :
    ∀ w u : List (Fin q), m.encode s w = m.encode s u → w = u := by
  intro w
  induction w generalizing s with
  | nil =>
    intro u h
    cases u with
    | nil => rfl
    | cons b u => simp [fsm.encode] at h
  | cons a w ih =>
    intro u h
    cases u with
    | nil => simp [fsm.encode] at h
    | cons b u =>
      simp only [fsm.encode, List.cons.injEq] at h
      have hab : a = b := hinj s a b h.1
      subst hab
      rw [ih (m.next s a) u h.2]

/-- A sum is positive only if one of its terms is. -/
theorem exists_pos_of_sum_pos {ι : Type} (s : Finset ι) (f : ι → R) (h : 0 < ∑ i in s, f i) :
    ∃ i, i ∈ s ∧ 0 < f i := by
  by_contra hcon
  push_neg at hcon
  exact absurd h (not_lt.mpr (Finset.sum_nonpos hcon))

/-- A product of non-negative numbers is positive only if both factors are. -/
theorem pos_of_mul_pos_of_nonneg {a b : R} (ha : 0 ≤ a) (hb : 0 ≤ b) (h : 0 < a * b) :
    0 < a ∧ 0 < b := by
  constructor
  · rcases eq_or_lt_of_le ha with h0 | h0
    · rw [← h0, zero_mul] at h
      exact absurd h (lt_irrefl 0)
    · exact h0
  · rcases eq_or_lt_of_le hb with h0 | h0
    · rw [← h0, mul_zero] at h
      exact absurd h (lt_irrefl 0)
    · exact h0

/-- On a channel with zero noise a positive branch metric between two states comes from a
transition between them that emits the symbol transmitted at that timestep. -/
theorem branch_metric_pos_transition {qo : ℕ} (m : fsm S q qo) (tx : List (Fin qo)) (t : ℕ)
    (p s : Fin S) (h : (0 : R) < branch_metric m (noiseless tx) (t + 1) p s) :
    ∃ a, m.next p a = s ∧ tx[t]? = some (m.output p a) := by
  rcases exists_pos_of_sum_pos _ _ h with ⟨a, ha, hpos⟩
  refine ⟨a, (Finset.mem_filter.mp ha).2, ?_⟩
  simp only [noiseless, Nat.add_sub_cancel] at hpos
  by_contra hne
  rw [if_neg hne] at hpos
  exact absurd hpos (lt_irrefl 0)

/-- On a channel with zero noise a state of positive forward metric at timestep `t` is reached,
from a start state of positive start mass, by a block of `t` inputs that emits the first `t`
symbols transmitted. -/
theorem alpha_plain_pos_path {qo : ℕ} (m : fsm S q qo) (tx : List (Fin qo)) (tau : ℕ)
    (alpha0 betatau : Fin S → R) (hα : ∀ s, 0 ≤ alpha0 s) (hβ : ∀ s, 0 ≤ betatau s) :
    ∀ (t : ℕ) (p : Fin S),
      0 < alpha_plain m.next ⟨tau, branch_metric m (noiseless tx), alpha0, betatau⟩ t p →
      ∃ (s : Fin S) (w : List (Fin q)), w.length = t ∧ 0 < alpha0 s ∧ m.run s w = p ∧
        m.encode s w = tx.take t := by
  have hnn : nonneg_input (⟨tau, branch_metric m (noiseless tx), alpha0, betatau⟩ :
      bcjr_input R S) :=
    ⟨fun t p s => branch_metric_nonneg m _ t p s, hα, hβ⟩
  intro t
  induction t with
  | zero =>
    intro p hp
    exact ⟨p, [], rfl, hp, rfl, by simp [fsm.encode]⟩
  | succ t ih =>
    intro p hp
    simp only [alpha_plain, forward_step] at hp
    rcases exists_pos_of_sum_pos _ _ hp with ⟨p', _, hterm⟩
    have hfac := pos_of_mul_pos_of_nonneg (alpha_plain_nonneg m.next hnn t p')
      (branch_metric_nonneg m tx (t + 1) p' p) hterm
    rcases ih p' hfac.1 with ⟨s, w, hlen, hs, hrun, henc⟩
    rcases branch_metric_pos_transition m tx t p' p hfac.2 with ⟨a, hnext, hout⟩
    refine ⟨s, w ++ [a], by simp [hlen], hs, ?_, ?_⟩
    · rw [m.run_append, hrun]
      exact hnext
    · rw [m.encode_append, hrun, henc, List.take_succ, hout]
      rfl

/-- On a channel with zero noise, from a state of positive backward metric `k` timesteps before
the end of the block a block of `k` inputs emits the last `k` symbols transmitted and ends in a
state of positive end mass. -/
theorem beta_plain_back_pos_path {qo : ℕ} (m : fsm S q qo) (tx : List (Fin qo))
    (alpha0 betatau : Fin S → R) (hα : ∀ s, 0 ≤ alpha0 s) (hβ : ∀ s, 0 ≤ betatau s) :
    ∀ (k : ℕ) (p : Fin S), k ≤ tx.length →
      0 < beta_plain_back m.next
        ⟨tx.length, branch_metric m (noiseless tx), alpha0, betatau⟩ k p →
      ∃ w : List (Fin q), w.length = k ∧ m.encode p w = tx.drop (tx.length - k) ∧
        0 < betatau (m.run p w) := by
  have hnn : nonneg_input (⟨tx.length, branch_metric m (noiseless tx), alpha0, betatau⟩ :
      bcjr_input R S) :=
    ⟨fun t p s => branch_metric_nonneg m _ t p s, hα, hβ⟩
  intro k
  induction k with
  | zero =>
    intro p _ hp
    exact ⟨[], rfl, by simp [fsm.encode], hp⟩
  | succ k ih =>
    intro p hk hp
    simp only [beta_plain_back, backward_step] at hp
    rcases exists_pos_of_sum_pos _ _ hp with ⟨n, _, hterm⟩
    have hfac := pos_of_mul_pos_of_nonneg
      (branch_metric_nonneg m tx (tx.length - k) p n)
      (beta_plain_back_nonneg m.next hnn k n) hterm
    rcases ih n (Nat.le_of_succ_le hk) hfac.2 with ⟨w, hlen, henc, hend⟩
    have hidx : tx.length - k = (tx.length - (k + 1)) + 1 := by omega
    have hg := hfac.1
    simp only [] at hg
    rw [hidx] at hg
    rcases branch_metric_pos_transition m tx _ p n hg with ⟨a, hnext, hout⟩
    have hlt : tx.length - (k + 1) < tx.length := by omega
    refine ⟨a :: w, by simp [hlen], ?_, ?_⟩
    · simp only [fsm.encode, hnext, henc]
      rw [List.getElem?_eq_getElem hlt] at hout
      rw [List.drop_eq_getElem_cons hlt, ← Option.some.inj hout, hidx]
    · simp only [fsm.run, hnext]
      exact hend

/-- On a channel with zero noise, for an FSM without parallel transitions, when the encoder's
path is the only path that the start and end distribution admit for the symbols transmitted,
the combination gives no mass to an input other than the one encoded. -/
theorem app_row_zero_off_path {qo : ℕ} (m : fsm S q qo)
    (hpar : ∀ s a b, m.next s a = m.next s b → a = b)
    (u : List (Fin q)) (s0 : Fin S) (alpha0 betatau : Fin S → R)
    (hα : ∀ s, 0 ≤ alpha0 s) (hβ : ∀ s, 0 ≤ betatau s)
    (hsingle : single_path m u s0 alpha0 betatau)
    (t : ℕ) (ht : t < u.length) (j : Fin q) (hj : j ≠ u[t]) :
    app_row m.next (branch_metric m (noiseless (m.encode s0 u)) (t + 1))
      (alpha_plain m.next ⟨u.length, branch_metric m (noiseless (m.encode s0 u)),
        alpha0, betatau⟩ t)
      (beta_plain m.next ⟨u.length, branch_metric m (noiseless (m.encode s0 u)),
        alpha0, betatau⟩ (t + 1)) j = 0 := by
  have hnn : nonneg_input (⟨u.length, branch_metric m (noiseless (m.encode s0 u)), alpha0,
      betatau⟩ : bcjr_input R S) :=
    ⟨fun t p s => branch_metric_nonneg m _ t p s, hα, hβ⟩
  have hlen : (m.encode s0 u).length = u.length := m.encode_length s0 u
  refine Finset.sum_eq_zero fun p _ => ?_
  by_contra hne
  have hge : 0 ≤ alpha_plain m.next ⟨u.length, branch_metric m (noiseless (m.encode s0 u)),
        alpha0, betatau⟩ t p
      * branch_metric m (noiseless (m.encode s0 u)) (t + 1) p (m.next p j)
      * beta_plain m.next ⟨u.length, branch_metric m (noiseless (m.encode s0 u)),
        alpha0, betatau⟩ (t + 1) (m.next p j) :=
    mul_nonneg (mul_nonneg (alpha_plain_nonneg m.next hnn t p)
      (branch_metric_nonneg m _ _ _ _)) (beta_plain_back_nonneg m.next hnn _ _)
  have hpos := lt_of_le_of_ne hge (Ne.symm hne)
  have h1 := pos_of_mul_pos_of_nonneg (mul_nonneg (alpha_plain_nonneg m.next hnn t p)
      (branch_metric_nonneg m _ _ _ _)) (beta_plain_back_nonneg m.next hnn _ _) hpos
  have h2 := pos_of_mul_pos_of_nonneg (alpha_plain_nonneg m.next hnn t p)
      (branch_metric_nonneg m _ _ _ _) h1.1
  rcases alpha_plain_pos_path m (m.encode s0 u) u.length alpha0 betatau hα hβ t p h2.1
    with ⟨s, w1, hw1, hs, hrun1, henc1⟩
  rcases branch_metric_pos_transition m (m.encode s0 u) t p (m.next p j) h2.2
    with ⟨a, hnext, hout⟩
  have haj : a = j := hpar p a j hnext
  subst haj
  have hb := h1.2
  simp only [beta_plain] at hb
  rw [← hlen] at hb
  rcases beta_plain_back_pos_path m (m.encode s0 u) alpha0 betatau hα hβ _ (m.next p a)
    (Nat.sub_le _ _) hb with ⟨w2, _, henc2, hend⟩
  have hlt : t < (m.encode s0 u).length := by rw [hlen]; exact ht
  have hidx : (m.encode s0 u).length - ((m.encode s0 u).length - (t + 1)) = t + 1 := by omega
  rw [hidx] at henc2
  have hw : w1 ++ a :: w2 = u := by
    refine hsingle s (w1 ++ a :: w2) hs ?_ ?_
    · rw [m.run_append, hrun1]
      exact hend
    · rw [m.encode_append, hrun1, henc1]
      simp only [fsm.encode]
      rw [henc2]
      rw [List.getElem?_eq_getElem hlt] at hout
      rw [← Option.some.inj hout, ← List.drop_eq_getElem_cons hlt, List.take_append_drop]
  apply hj
  have hget : (w1 ++ a :: w2)[t]? = some a := by
    rw [List.getElem?_append_right (by omega), hw1, Nat.sub_self]
    simp
  rw [hw, List.getElem?_eq_getElem ht] at hget
  exact (Option.some.inj hget).symm

/-- On a channel with zero noise, for an FSM without parallel transitions, the codec recovers
the input sequence from every start and end distribution that gives positive mass to the state
in which the encoder started and to the state in which it ended, and that admits no other path
for the symbols transmitted. -/
theorem codec_decode_noiseless {qo : ℕ} (norm : Bool) (m : fsm S q qo)
    (hpar : ∀ s a b, m.next s a = m.next s b → a = b)
    (u : List (Fin q)) (s0 : Fin S) (alpha0 betatau : Fin S → R)
    (hα : ∀ s, 0 ≤ alpha0 s) (hβ : ∀ s, 0 ≤ betatau s)
    (hs : 0 < alpha0 s0) (he : 0 < betatau (m.run s0 u))
    (hsingle : single_path m u s0 alpha0 betatau) :
    codec_decode norm m (noiseless (m.encode s0 u)) u.length alpha0 betatau
      = .ok (u.map some) := by
  have hnn : nonneg_input (⟨u.length, branch_metric m (noiseless (m.encode s0 u)), alpha0,
      betatau⟩ : bcjr_input R S) :=
    ⟨fun t p s => branch_metric_nonneg m _ t p s, hα, hβ⟩
  cases u with
  | nil =>
    simp only [codec_decode, List.length_nil]
    rw [decode_nil norm m.next _ rfl hs he]
    rfl
  | cons a w =>
    set u := a :: w with hu
    set i : ℕ → Fin q := fun t => u.getD t a with hi_def
    have hi : ∀ t (h : t < u.length), i t = u[t] := by
      intro t h
      simp only [hi_def, List.getD_eq_getElem?_getD, List.getElem?_eq_getElem h,
        Option.getD_some]
    have hp : feasible_path m.next (⟨u.length, branch_metric m (noiseless (m.encode s0 u)),
        alpha0, betatau⟩ : bcjr_input R S) s0 i := by
      refine ⟨hs, fun t ht => branch_metric_pos_on_path m u s0 i hi t ht, ?_⟩
      show 0 < betatau (path_state m.next s0 i u.length)
      rw [← m.run_eq_path_state u s0 i hi]
      exact he
    simp only [codec_decode]
    rw [decode_of_feasible norm m.next hnn hp]
    simp only [Except.map, List.map_map]
    congr 1
    apply List.ext_getElem
    · simp
    · intro t h1 h2
      have ht : t < u.length := by simpa using h1
      simp only [List.getElem_map, List.getElem_range, Function.comp]
      rw [← hi t ht]
      have hpos := app_row_plain_pos_on_path m.next hnn hp t ht
      have hzero : ∀ j, j ≠ i t →
          app_row m.next (branch_metric m (noiseless (m.encode s0 u)) (t + 1))
            (alpha_plain m.next ⟨u.length, branch_metric m (noiseless (m.encode s0 u)),
              alpha0, betatau⟩ t)
            (beta_plain m.next ⟨u.length, branch_metric m (noiseless (m.encode s0 u)),
              alpha0, betatau⟩ (t + 1)) j = 0 := by
        intro j hj
        rw [hi t ht] at hj
        exact app_row_zero_off_path m hpar u s0 alpha0 betatau hα hβ hsingle t ht j hj
      have hsum : 0 < ∑ k, app_row m.next (branch_metric m (noiseless (m.encode s0 u)) (t + 1))
            (alpha_plain m.next ⟨u.length, branch_metric m (noiseless (m.encode s0 u)),
              alpha0, betatau⟩ t)
            (beta_plain m.next ⟨u.length, branch_metric m (noiseless (m.encode s0 u)),
              alpha0, betatau⟩ (t + 1)) k :=
        lt_of_lt_of_le hpos (Finset.single_le_sum
          (f := fun k => app_row m.next (branch_metric m (noiseless (m.encode s0 u)) (t + 1))
            (alpha_plain m.next ⟨u.length, branch_metric m (noiseless (m.encode s0 u)),
              alpha0, betatau⟩ t)
            (beta_plain m.next ⟨u.length, branch_metric m (noiseless (m.encode s0 u)),
              alpha0, betatau⟩ (t + 1)) k)
          (fun k _ => app_row_plain_nonneg m.next hnn (t + 1) k) (Finset.mem_univ (i t)))
      refine hard_decision_of_single (a := i t) ?_ ?_
      · simp only [app_plain, Nat.add_sub_cancel]
        exact div_pos hpos hsum
      · intro j hj
        simp only [app_plain, Nat.add_sub_cancel]
        rw [hzero j hj, zero_div]

/-- On the fixed-start trellis of an FSM whose output symbol determines the input symbol in
every state, the encoder's path is the only path. -/
theorem single_path_of_fixed_start {qo : ℕ} (m : fsm S q qo)
    (hinj : ∀ s a b, m.output s a = m.output s b → a = b) (u : List (Fin q)) (s0 : Fin S)
    (betatau : Fin S → R) : single_path m u s0 (unit_mass s0) betatau := by
  intro s w hs _ henc
  have hs0 : s = s0 := by
    by_contra hne
    simp only [unit_mass, if_neg hne] at hs
    exact absurd hs (lt_irrefl 0)
  subst hs0
  exact m.encode_injective hinj s w u henc

/-- A block of one symbol for which the combination gives every input the same mass is decoded
as the input 0, the first of the equally probable inputs. -/
theorem codec_decode_tied {qo : ℕ} (m : fsm S 2 qo) (tx : List (Fin qo))
    (alpha0 betatau : Fin S → R) (hα : ∀ s, 0 ≤ alpha0 s) (hβ : ∀ s, 0 ≤ betatau s)
    (s0 : Fin S) (a : Fin 2) (hs : 0 < alpha0 s0)
    (hg : (0 : R) < branch_metric m (noiseless tx) 1 s0 (m.next s0 a))
    (he : 0 < betatau (m.next s0 a))
    (htie : ∀ j, app_row m.next (branch_metric m (noiseless tx) 1) alpha0 betatau j
      = app_row m.next (branch_metric m (noiseless tx) 1) alpha0 betatau 0) :
    codec_decode false m (noiseless tx) 1 alpha0 betatau = .ok [some 0] := by
  have hnn : nonneg_input (⟨1, branch_metric m (noiseless tx), alpha0, betatau⟩ :
      bcjr_input R S) :=
    ⟨fun t p s => branch_metric_nonneg m _ t p s, hα, hβ⟩
  have hp : feasible_path m.next (⟨1, branch_metric m (noiseless tx), alpha0, betatau⟩ :
      bcjr_input R S) s0 (fun _ => a) := by
    refine ⟨hs, fun t ht => ?_, he⟩
    have ht0 : t = 0 := Nat.lt_one_iff.mp ht
    subst ht0
    exact hg
  simp only [codec_decode]
  rw [decode_of_feasible false m.next hnn hp]
  simp only [Except.map, List.range_succ, List.range_zero, List.nil_append, List.map_cons,
    List.map_nil]
  congr 2
  unfold hard_decision
  rw [Fin.find_eq_some_iff]
  refine ⟨fun k => ?_, fun j _ => Fin.zero_le j⟩
  simp only [app_plain, alpha_plain, beta_plain, beta_plain_back, Nat.sub_self]
  rw [htie k]

/-- C5 (as stated, refuted): three blocks consisting of the single input 1, sent over the
channel with zero noise, are decoded as the input 0:
on the FSM whose output symbol tells nothing about the input (fixed-start trellis);
on the FSM with parallel transitions that sends its input as it is (fixed-start trellis);
on the differential encoder, which has no parallel transitions and whose output symbol
determines the input symbol in every state, on the circular trellis (the block starts and ends
in state 1, start and end distribution are uniform). -/
theorem noiseless_decode_wrong_input :
    codec_decode false silent_fsm (noiseless (silent_fsm.encode 0 [1]) : ℕ → Fin 1 → ℚ)
        [(1 : Fin 2)].length (unit_mass 0) uniform_mass = .ok [some 0] ∧
    ((∀ s a b, uncoded_fsm.output s a = uncoded_fsm.output s b → a = b) ∧
      codec_decode false uncoded_fsm (noiseless (uncoded_fsm.encode 0 [1]) : ℕ → Fin 2 → ℚ)
        [(1 : Fin 2)].length (unit_mass 0) uniform_mass = .ok [some 0]) ∧
    ((∀ s a b, differential_fsm.next s a = differential_fsm.next s b → a = b) ∧
      (∀ s a b, differential_fsm.output s a = differential_fsm.output s b → a = b) ∧
      differential_fsm.run 1 [1] = 1 ∧
      codec_decode false differential_fsm
        (noiseless (differential_fsm.encode 1 [1]) : ℕ → Fin 2 → ℚ)
        [(1 : Fin 2)].length uniform_mass uniform_mass = .ok [some 0]) ∧
    ([some 0] : List (Option (Fin 2))) ≠ [(1 : Fin 2)].map some := by
  refine ⟨?_, ⟨by decide, ?_⟩, ⟨by decide, by decide, by decide, ?_⟩, by decide⟩
  · refine codec_decode_tied silent_fsm _ _ _ (unit_mass_nonneg 0) uniform_mass_nonneg 0 1
      (by simp [unit_mass]) ?_ (by simp [uniform_mass]) fun j => ?_
    · simp [branch_metric, noiseless, silent_fsm, fsm.encode, Finset.filter_eq']
    · simp [app_row, branch_metric, noiseless, silent_fsm, fsm.encode, unit_mass,
        uniform_mass, Fin.sum_univ_two, Finset.filter_eq']
  · refine codec_decode_tied uncoded_fsm _ _ _ (unit_mass_nonneg 0) uniform_mass_nonneg 0 1
      (by simp [unit_mass]) ?_ (by simp [uniform_mass]) fun j => ?_
    · simp [branch_metric, noiseless, uncoded_fsm, fsm.encode, Fin.sum_univ_two]
    · simp [app_row, branch_metric, noiseless, uncoded_fsm, fsm.encode, unit_mass,
        uniform_mass, Fin.sum_univ_two]
  · refine codec_decode_tied differential_fsm _ _ _ uniform_mass_nonneg uniform_mass_nonneg
      1 1 (by simp [uniform_mass]) ?_ (by simp [uniform_mass]) fun j => ?_
    · simp +decide [branch_metric, noiseless, differential_fsm, fsm.encode, Finset.filter_eq',
        Finset.filter_singleton]
    · fin_cases j <;>
        simp +decide [app_row, branch_metric, noiseless, differential_fsm, fsm.encode,
          uniform_mass, Fin.sum_univ_two, Finset.filter_eq', Finset.filter_singleton]

/-- C5 (amended): for every FSM without parallel transitions, every input sequence `u` and every
start state `s0` of the encoder, when the channel likelihood is 1 for the symbol transmitted
and 0 for every other symbol at every timestep, decode (with or without per-step
normalization) returns exactly `u`:
on the fixed-start trellis (unit mass on `s0`; the end state fixed to the state the encoder
ended in, or left open) provided the output symbol determines the input symbol in every state;
for every start and end distribution with positive mass on the state in which the encoder
started and on the state in which it ended, provided the encoder's path is the only path that
these distributions admit for the symbols transmitted;
in particular on the circular trellis (the block returns to `s0`, start and end distribution
are the same) under the same proviso. -/
theorem noiseless_decode_recovers_input {qo : ℕ} (norm : Bool) (m : fsm S q qo)
    (hpar : ∀ s a b, m.next s a = m.next s b → a = b)
    (u : List (Fin q)) (s0 : Fin S) :
    ((∀ s a b, m.output s a = m.output s b → a = b) →
      codec_decode norm m (noiseless (m.encode s0 u) : ℕ → Fin qo → R) u.length
        (unit_mass s0) (unit_mass (m.run s0 u)) = .ok (u.map some) ∧
      codec_decode norm m (noiseless (m.encode s0 u) : ℕ → Fin qo → R) u.length
        (unit_mass s0) uniform_mass = .ok (u.map some)) ∧
    (∀ start stop : Fin S → R, (∀ s, 0 ≤ start s) → (∀ s, 0 ≤ stop s) →
      0 < start s0 → 0 < stop (m.run s0 u) → single_path m u s0 start stop →
      codec_decode norm m (noiseless (m.encode s0 u)) u.length start stop
        = .ok (u.map some)) ∧
    (m.run s0 u = s0 → ∀ dist : Fin S → R, (∀ s, 0 ≤ dist s) → 0 < dist s0 →
      single_path m u s0 dist dist →
      codec_decode norm m (noiseless (m.encode s0 u)) u.length dist dist
        = .ok (u.map some)) := by
  have hunit : ∀ s : Fin S, (0 : R) < unit_mass s s := fun s => by
    simp [unit_mass]
  refine ⟨fun hinj => ⟨?_, ?_⟩, ?_, ?_⟩
  · exact codec_decode_noiseless norm m hpar u s0 _ _ (unit_mass_nonneg s0)
      (unit_mass_nonneg _) (hunit s0) (hunit _) (single_path_of_fixed_start m hinj u s0 _)
  · exact codec_decode_noiseless norm m hpar u s0 _ _ (unit_mass_nonneg s0)
      uniform_mass_nonneg (hunit s0) (by simp [uniform_mass])
      (single_path_of_fixed_start m hinj u s0 _)
  · intro start stop hstart hstop hs he hsingle
    exact codec_decode_noiseless norm m hpar u s0 start stop hstart hstop hs he hsingle
  · intro hcirc dist hdist hs hsingle
    refine codec_decode_noiseless norm m hpar u s0 dist dist hdist hdist hs ?_ hsingle
    rw [hcirc]
    exact hs

theorem noiseless_decode_recovers_input_witness :
    codec_decode true nsc_75
        (noiseless (nsc_75.encode 0 [1, 0, 1]) : ℕ → Fin 4 → ℚ) [(1 : Fin 2), 0, 1].length
        (unit_mass 0) (unit_mass (nsc_75.run 0 [1, 0, 1])) = .ok ([1, 0, 1].map some) ∧
      codec_decode true nsc_75
        (noiseless (nsc_75.encode 0 [1, 0, 1]) : ℕ → Fin 4 → ℚ) [(1 : Fin 2), 0, 1].length
        (unit_mass 0) uniform_mass = .ok ([1, 0, 1].map some) :=
  (noiseless_decode_recovers_input true nsc_75 (by decide) [1, 0, 1] 0).1 (by decide)

end engine

/-! ## The circular start state of the recursive systematic encoder -/

section circular

variable {k n : ℕ} {m : Fin k → ℕ}

theorem rscc.determinefeedin_add (enc : rscc k n m) (s s' : rscc.cell m → ZMod 2)
    (u u' : Fin k → ZMod 2) :
    enc.determinefeedin (s + s') (u + u')
      = enc.determinefeedin s u + enc.determinefeedin s' u' := by
  funext i
  simp only [rscc.determinefeedin, Pi.add_apply, mul_add, Finset.sum_add_distrib]
  ring

/-- The transition is additive in (state, input). -/
theorem rscc.advance_add (enc : rscc k n m) (s s' : rscc.cell m → ZMod 2)
    (u u' : Fin k → ZMod 2) :
    enc.advance (s + s') (u + u') = enc.advance s u + enc.advance s' u' := by
  funext c
  simp only [rscc.advance, Pi.add_apply]
  by_cases h0 : c.2.val = 0
  · simp only [h0, if_true]
    exact congrFun (enc.determinefeedin_add s s' u u') c.1
  · have hk : c.2.val - 1 < m c.1 := lt_of_le_of_lt (Nat.sub_le _ _) c.2.isLt
    simp only [h0, if_false, hk, dite_true, Pi.add_apply]

/-- A transition under input zero is the multiplication by the state generator matrix. -/
theorem rscc.advance_zero (enc : rscc k n m) (s : rscc.cell m → ZMod 2) :
    enc.advance s 0 = enc.stategen.mulVec s := by
  funext c
  obtain ⟨i, l⟩ := c
  simp only [rscc.advance, Matrix.mulVec, Matrix.dotProduct, rscc.stategen]
  rw [← Finset.univ_sigma_univ, Finset.sum_sigma, Finset.sum_eq_single i]
  · simp only [if_true]
    by_cases h0 : l.val = 0
    · simp only [h0, if_true, rscc.determinefeedin, Pi.zero_apply, mul_zero, zero_add]
    · have hk : l.val - 1 < m i := lt_of_le_of_lt (Nat.sub_le _ _) l.isLt
      simp only [h0, if_false, hk, dite_true]
      rw [Finset.sum_eq_single (⟨l.val - 1, hk⟩ : Fin (m i))]
      · have : l.val - 1 + 1 = l.val := Nat.succ_pred_eq_of_pos (Nat.pos_of_ne_zero h0)
        simp [this]
      · intro c _ hc
        have : ¬ c.val + 1 = l.val := by
          intro hck
          apply hc
          apply Fin.ext
          simp only
          omega
        simp [this]
      · intro hmem
        exact absurd (Finset.mem_univ _) hmem
  · intro i' _ hi'
    have : ¬ i = i' := fun h => hi' h.symm
    simp [this]
  · intro hmem
    exact absurd (Finset.mem_univ _) hmem

/-- Encoding a block of zeros multiplies the state by a power of the state generator matrix. -/
theorem rscc.run_zeros (enc : rscc k n m) (len : ℕ) (s : rscc.cell m → ZMod 2) :
    enc.run s (List.replicate len 0) = (enc.stategen ^ len).mulVec s := by
  induction len generalizing s with
  | zero => simp [rscc.run]
  | succ len ih =>
    simp only [List.replicate_succ, rscc.run]
    rw [ih, enc.advance_zero, Matrix.mulVec_mulVec, ← pow_succ]

/-- The state after a block is the zero-input response to the start state plus the state reached
from the zero state. -/
theorem rscc.run_add (enc : rscc k n m) (u : List (Fin k → ZMod 2))
    (s s' : rscc.cell m → ZMod 2) :
    enc.run (s + s') u = enc.run s (List.replicate u.length 0) + enc.run s' u := by
  induction u generalizing s s' with
  | nil => simp [rscc.run]
  | cons a u ih =>
    simp only [List.length_cons, List.replicate_succ, rscc.run]
    have h : enc.advance (s + s') a = enc.advance s 0 + enc.advance s' a := by
      have := enc.advance_add s s' 0 a
      rwa [zero_add] at this
    rw [h, ih]

theorem rscc.run_eq (enc : rscc k n m) (u : List (Fin k → ZMod 2))
    (c : rscc.cell m → ZMod 2) :
    enc.run c u = (enc.stategen ^ u.length).mulVec c + enc.run 0 u := by
  have := enc.run_add u c 0
  rwa [add_zero, enc.run_zeros] at this

theorem zmod2_eq_one_of_ne_zero (x : ZMod 2) (h : x ≠ 0) : x = 1 := by
  revert h
  revert x
  decide

end circular

/-- C6 (as stated, refuted): for the accumulator (one input, one register cell in the recursion)
and the block consisting of the single input 1, no start state at all is a fixed point of the
block's state map (the block maps state 0 to 1 and state 1 to 0), and `resetcircular` has no
result. -/
theorem accumulator_has_no_circular_state :
    (∀ c : rscc.cell (fun _ : Fin 1 => 1) → ZMod 2, accumulator.run c [fun _ => 1] ≠ c) ∧
      accumulator.resetcircular (accumulator.run 0 [fun _ => 1])
        [(fun _ => 1 : Fin 1 → ZMod 2)].length = none := by
  constructor
  · intro c h
    have h0 := congrFun h ⟨0, 0⟩
    simp only [rscc.run, rscc.advance, rscc.determinefeedin, rscc.feedback, accumulator,
      Fin.val_zero, if_true, Finset.univ_unique, Fin.default_eq_zero, Finset.sum_singleton,
      one_mul] at h0
    simp at h0
  · have hM : (1 + accumulator.stategen ^ [(fun _ => 1 : Fin 1 → ZMod 2)].length) = 0 := by
      funext r c
      obtain ⟨i, l⟩ := r
      obtain ⟨i', l'⟩ := c
      have hi : i = 0 := Subsingleton.elim _ _
      have hi' : i' = 0 := Subsingleton.elim _ _
      subst hi hi'
      have hl : l = 0 := Subsingleton.elim _ _
      have hl' : l' = 0 := Subsingleton.elim _ _
      subst hl hl'
      simp [rscc.stategen, rscc.feedback, accumulator]
      decide
    have hdet : (1 + accumulator.stategen ^ [(fun _ => 1 : Fin 1 → ZMod 2)].length).det = 0 := by
      rw [hM]
      exact Matrix.det_zero ⟨⟨0, 0⟩⟩
    simp only [rscc.resetcircular, if_pos hdet]

/-- C6 (amended): for every recursive systematic convolutional encoder (any number of inputs,
each with its register and feedback polynomial) and every block `u` of `tau` input symbols
such that the matrix `1 + G^tau` is regular over the field with two elements (`G` being the
matrix of one transition under input zero), `resetcircular`, given the state reached by encoding
the block from the zero state, sets a start state that is a fixed point of the block's state
map: encoding the same block from that start state ends in that same state. -/
theorem resetcircular_is_fixed_point {k n : ℕ} {m : Fin k → ℕ} (enc : rscc k n m)
    (u : List (Fin k → ZMod 2)) (hdet : (1 + enc.stategen ^ u.length).det ≠ 0) :
    ∃ c, enc.resetcircular (enc.run 0 u) u.length = some c ∧ enc.run c u = c := by
  refine ⟨(1 + enc.stategen ^ u.length).adjugate.mulVec (enc.run 0 u), ?_, ?_⟩
  · simp only [rscc.resetcircular, if_neg hdet]
  · set M := 1 + enc.stategen ^ u.length with hM
    set z := enc.run 0 u with hz
    set c := M.adjugate.mulVec z with hc
    have h1 : M.mulVec c = z := by
      rw [hc, Matrix.mulVec_mulVec, Matrix.mul_adjugate, zmod2_eq_one_of_ne_zero _ hdet,
        one_smul, Matrix.one_mulVec]
    have h2 : M.mulVec c = c + (enc.stategen ^ u.length).mulVec c := by
      rw [hM, Matrix.add_mulVec, Matrix.one_mulVec]
    rw [enc.run_eq u c, ← hz, ← h1, h2]
    funext k
    simp only [Pi.add_apply]
    have hx : ∀ x y : ZMod 2, x + (y + x) = y := by decide
    exact hx _ _

theorem resetcircular_is_fixed_point_witness :
    ∃ c, rscc_7.resetcircular (rscc_7.run 0 [fun _ => 1, fun _ => 0])
        [(fun _ => 1 : Fin 1 → ZMod 2), fun _ => 0].length = some c ∧
      rscc_7.run c [fun _ => 1, fun _ => 0] = c :=
  resetcircular_is_fixed_point rscc_7 [fun _ => 1, fun _ => 0] (by
    apply Matrix.det_ne_zero_of_right_inverse (B := rscc_7.stategen ^ 2)
    decide)

/-! ## The Laplacian channel -/

/-- C11: for every `lambda > 0` and every transmitted value `tx` and received value `rx`,
`pdf(tx, rx)` equals `exp(-|rx - tx| / lambda) / (2 * lambda)`, and this likelihood is strictly
positive (so never negative). -/
theorem laplacian_pdf_formula_pos (c : basic_laplacian ℝ) (hl : 0 < c.lambda) (tx rx : ℝ) :
    c.pdf tx rx = Real.exp (-|rx - tx| / c.lambda) / (2 * c.lambda) ∧ 0 < c.pdf tx rx := by
  have h2 : 0 < 2 * c.lambda := by positivity
  constructor
  · unfold basic_laplacian.pdf basic_laplacian.f
    rw [one_div, inv_mul_eq_div]
  · unfold basic_laplacian.pdf basic_laplacian.f
    exact mul_pos (one_div_pos.mpr h2) (Real.exp_pos _)

theorem laplacian_pdf_formula_pos_witness :
    (⟨1⟩ : basic_laplacian ℝ).pdf 0 2
        = Real.exp (-|(2 : ℝ) - 0| / (⟨1⟩ : basic_laplacian ℝ).lambda)
          / (2 * (⟨1⟩ : basic_laplacian ℝ).lambda) ∧
      0 < (⟨1⟩ : basic_laplacian ℝ).pdf 0 2 :=
  laplacian_pdf_formula_pos ⟨1⟩ one_pos 0 2

/-- With the identity for `rnd` the likelihood is the exact one. -/
theorem basic_laplacian.pdf_rounded_id (c : basic_laplacian ℝ) (tx rx : ℝ) :
    c.pdf_rounded id tx rx = c.pdf tx rx := rfl

/-- C11 (counterexample): for `lambda = 1/1000`, `tx = 0` and `rx = 1` the likelihood computed
in the range of a `double` is exactly zero (the exponential underflows), hence not strictly
positive. -/
theorem laplacian_pdf_underflows :
    (0 : ℝ) < (⟨1 / 1000⟩ : basic_laplacian ℝ).lambda ∧
    (⟨1 / 1000⟩ : basic_laplacian ℝ).pdf_rounded double_underflow 0 1 = 0 ∧
    ¬ 0 < (⟨1 / 1000⟩ : basic_laplacian ℝ).pdf_rounded double_underflow 0 1 := by
  have h : (⟨1 / 1000⟩ : basic_laplacian ℝ).pdf_rounded double_underflow 0 1 = 0 := by
    have e1 : double_underflow ((1 : ℝ) - 0) = 1 := by
      rw [sub_zero]; exact double_underflow_of_le (by norm_num)
    have e2 : double_underflow (-|(1 : ℝ)| / (1 / 1000)) = -1000 := by
      have : -|(1 : ℝ)| / (1 / 1000) = -1000 := by norm_num
      rw [this]; exact double_underflow_of_le (by norm_num)
    have e3 : double_underflow (Real.exp (-1000)) = 0 := by
      unfold double_underflow
      rw [if_pos]
      rw [abs_of_pos (Real.exp_pos _)]
      exact exp_neg_thousand_lt
    unfold basic_laplacian.pdf_rounded basic_laplacian.f_rounded
    rw [e1, e2, e3, mul_zero, double_underflow_zero]
  refine ⟨by norm_num, h, ?_⟩
  rw [h]
  exact lt_irrefl 0

section moments

open MeasureTheory Set

/-- On the positive half-line `x * f(x)` is integrable. -/
theorem laplacian_first_moment_integrableOn (c : basic_laplacian ℝ) (hl : 0 < c.lambda) :
    IntegrableOn (fun x : ℝ => x * c.f x) (Ioi 0) := by
  have hbase := integrableOn_rpow_mul_exp_neg_mul_rpow (p := 1) (s := 1) (b := 1 / c.lambda)
    (by norm_num) (le_refl 1) (one_div_pos.mpr hl)
  have hscaled : IntegrableOn (fun x : ℝ => 1 / (2 * c.lambda)
      * (x ^ (1 : ℝ) * Real.exp (-(1 / c.lambda) * x ^ (1 : ℝ)))) (Ioi 0) :=
    Integrable.const_mul hbase _
  refine IntegrableOn.congr_fun hscaled (fun x hx => ?_) measurableSet_Ioi
  have hx0 : 0 < x := hx
  simp only [basic_laplacian.f, Real.rpow_one, abs_of_pos hx0]
  have : -(1 / c.lambda) * x = -x / c.lambda := by ring
  rw [this]
  ring

/-- The first moment of the Laplacian density exists. -/
theorem laplacian_first_moment_integrable (c : basic_laplacian ℝ) (hl : 0 < c.lambda) :
    Integrable (fun x : ℝ => x * c.f x) := by
  have hodd : ∀ x : ℝ, (-x) * c.f (-x) = -(x * c.f x) := by
    intro x
    simp only [basic_laplacian.f, abs_neg]
    ring
  rw [← integrableOn_univ, ← @Iio_union_Ici _ _ (0 : ℝ), integrableOn_union,
    integrableOn_Ici_iff_integrableOn_Ioi]
  refine ⟨?_, laplacian_first_moment_integrableOn c hl⟩
  rw [← (Measure.measurePreserving_neg (volume : Measure ℝ)).integrableOn_comp_preimage
      (Homeomorph.neg ℝ).measurableEmbedding]
  simp only [Function.comp_def, neg_preimage, neg_Iio, neg_zero, hodd]
  exact (laplacian_first_moment_integrableOn c hl).neg

/-- C20: for every `lambda > 0` the density `f` of the Laplacian noise is symmetric about zero,
`f(-x) = f(x)` for every real `x`, so that `pdf(tx, rx) = pdf(rx, tx)` for every `tx` and `rx`;
and the noise has zero mean: `x * f(x)` is integrable over the real line and its integral is
zero. -/
theorem laplacian_density_symmetric (c : basic_laplacian ℝ) (hl : 0 < c.lambda) :
    (∀ x : ℝ, c.f (-x) = c.f x) ∧ (∀ tx rx : ℝ, c.pdf tx rx = c.pdf rx tx) ∧
      Integrable (fun x : ℝ => x * c.f x) ∧ ∫ x : ℝ, x * c.f x = 0 := by
  have hsym : ∀ x : ℝ, c.f (-x) = c.f x := by
    intro x
    unfold basic_laplacian.f
    rw [abs_neg]
  refine ⟨hsym, ?_, laplacian_first_moment_integrable c hl, ?_⟩
  · intro tx rx
    unfold basic_laplacian.pdf
    rw [← hsym (rx - tx), neg_sub]
  · have hneg : ∫ x : ℝ, x * c.f x = -∫ x : ℝ, x * c.f x := by
      calc ∫ x : ℝ, x * c.f x
          = ∫ x : ℝ, (fun y => y * c.f y) (-x) := (integral_neg_eq_self _ _).symm
        _ = ∫ x : ℝ, -(x * c.f x) := by
            refine integral_congr_ae (Filter.Eventually.of_forall fun x => ?_)
            simp only [hsym x, neg_mul]
        _ = -∫ x : ℝ, x * c.f x := integral_neg _
    linarith

theorem laplacian_density_symmetric_witness :
    (∀ x : ℝ, (⟨1⟩ : basic_laplacian ℝ).f (-x) = (⟨1⟩ : basic_laplacian ℝ).f x) ∧
      (∀ tx rx : ℝ, (⟨1⟩ : basic_laplacian ℝ).pdf tx rx = (⟨1⟩ : basic_laplacian ℝ).pdf rx tx) ∧
      Integrable (fun x : ℝ => x * (⟨1⟩ : basic_laplacian ℝ).f x) ∧
      ∫ x : ℝ, x * (⟨1⟩ : basic_laplacian ℝ).f x = 0 :=
  laplacian_density_symmetric ⟨1⟩ one_pos

end moments

/-! ## The noise density of channel<sigspace>, continued -/

/-- C19: for every `No > 0`, after `set_no(No)` the stored noise density equals `No` again:
`set_no` stores `snr_db = -10 * log10(2 * No)` and `compute_noise` maps that `snr_db` back to
`0.5 * 10^(-snr_db/10) = No`; `Eb` is unchanged. -/
theorem channel_set_no_roundtrip {D : Type} (cp : ℝ → ℝ → D → D) (c : channel D) (No : ℝ)
    (hNo : 0 < No) :
    (channel.set_no cp c No).No = No ∧
      (channel.set_no cp c No).snr_db = -10 * Real.logb 10 (2 * No) ∧
      (channel.set_no cp c No).Eb = c.Eb := by
  refine ⟨?_, rfl, rfl⟩
  show 0.5 * (10 : ℝ) ^ (-(-10 * Real.logb 10 (2 * No)) / 10) = No
  have hexp : -(-10 * Real.logb 10 (2 * No)) / 10 = Real.logb 10 (2 * No) := by ring
  rw [hexp, Real.rpow_logb (by norm_num) (by norm_num) (by positivity)]
  ring

theorem channel_set_no_roundtrip_witness :
    (channel.set_no (fun _ _ (d : Unit) => d) ⟨1, 0, 0, ()⟩ 3).No = 3 ∧
      (channel.set_no (fun _ _ (d : Unit) => d) ⟨1, 0, 0, ()⟩ 3).snr_db
        = -10 * Real.logb 10 (2 * 3) ∧
      (channel.set_no (fun _ _ (d : Unit) => d) ⟨1, 0, 0, ()⟩ 3).Eb
        = (⟨1, 0, 0, ()⟩ : channel Unit).Eb :=
  channel_set_no_roundtrip (fun _ _ (d : Unit) => d) ⟨1, 0, 0, ()⟩ 3 (by norm_num)

/-! ## The number of results of commsys_errorrates -/

/-- C18 (as stated, refuted): for `get_iter() = 2^30` the product `2 * get_iter()` does not fit
an `int`; `count()` yields `-2^31` and not `2 * get_iter() = 2^31`. -/
theorem commsys_errorrates_count_overflow :
    0 ≤ (⟨2 ^ 30⟩ : commsys_errorrates).get_iter ∧
      (⟨2 ^ 30⟩ : commsys_errorrates).get_iter < 2 ^ 31 ∧
      (⟨2 ^ 30⟩ : commsys_errorrates).count = -2 ^ 31 ∧
      (⟨2 ^ 30⟩ : commsys_errorrates).count ≠ 2 * (⟨2 ^ 30⟩ : commsys_errorrates).get_iter := by
  decide

/-- C18 (amended): for every number of decoding iterations `0 <= get_iter() < 2^30` (so that the
product fits an `int`), `count()` equals `2 * get_iter()`: one symbol-error result and one
frame-error result per iteration. -/
theorem commsys_errorrates_count (c : commsys_errorrates) (h0 : 0 ≤ c.get_iter)
    (h1 : c.get_iter < 2 ^ 30) : c.count = 2 * c.get_iter := by
  unfold commsys_errorrates.count wrap32
  have hlt : 2 * c.get_iter + 2 ^ 31 < 2 ^ 32 := by omega
  have hge : 0 ≤ 2 * c.get_iter + 2 ^ 31 := by omega
  rw [Int.emod_eq_of_lt hge hlt]
  ring

theorem commsys_errorrates_count_witness :
    (⟨5⟩ : commsys_errorrates).count = 2 * (⟨5⟩ : commsys_errorrates).get_iter :=
  commsys_errorrates_count ⟨5⟩ (by decide) (by decide)

/-! ## Block embedding and extraction -/

section embedding

variable {S : Type}

theorem vector.assign_elem {T : Type} (v : vector T) (i k : ℕ) (x : T) :
    (v.assign i x).elem k = if k = i then x else v.elem k := by
  simp only [vector.assign, Function.update_apply]

theorem matrix.assign_entry {T : Type} (m : matrix T) (i j k l : ℕ) (x : T) :
    (m.assign i j x).elem k l = if k = i ∧ l = j then x else m.elem k l := by
  simp only [matrix.assign, Function.update_apply]
  by_cases hk : k = i
  · subst hk
    by_cases hl : l = j
    · subst hl
      simp
    · simp [hl]
  · simp [hk]

/-- A loop that assigns `g i` to position `i` of a vector: the size stays, the positions below
the bound hold the assigned values and all other positions are untouched. -/
theorem loop_assign_vector {T : Type} (g : ℕ → T) (n : ℕ) (v : vector T) :
    (loop (fun w i => w.assign i (g i)) n v).size = v.size ∧
      ∀ k, (loop (fun w i => w.assign i (g i)) n v).elem k = if k < n then g k else v.elem k := by
  induction n with
  | zero => exact ⟨rfl, fun k => by simp [loop]⟩
  | succ n ih =>
    refine ⟨ih.1, fun k => ?_⟩
    show ((loop (fun w i => w.assign i (g i)) n v).assign n (g n)).elem k = _
    rw [vector.assign_elem, ih.2 k]
    by_cases hk : k = n
    · subst hk
      simp
    · by_cases hlt : k < n
      · simp [hk, hlt, Nat.lt_succ_of_lt hlt]
      · have : ¬ k < n + 1 := fun h => hk (le_antisymm (Nat.lt_succ_iff.mp h) (not_lt.mp hlt))
        simp [hk, hlt, this]

/-- The inner loop of the matrix `doembed`: row `i` gets its first `n` columns assigned. -/
theorem loop_assign_matrix_row {T : Type} (g : ℕ → ℕ → T) (i n : ℕ) (m : matrix T) :
    (loop (fun w j => w.assign i j (g i j)) n m).rows = m.rows ∧
      (loop (fun w j => w.assign i j (g i j)) n m).cols = m.cols ∧
      ∀ k l, (loop (fun w j => w.assign i j (g i j)) n m).elem k l
        = if k = i ∧ l < n then g i l else m.elem k l := by
  induction n with
  | zero => exact ⟨rfl, rfl, fun k l => by simp [loop]⟩
  | succ n ih =>
    refine ⟨ih.1, ih.2.1, fun k l => ?_⟩
    show ((loop (fun w j => w.assign i j (g i j)) n m).assign i n (g i n)).elem k l = _
    rw [matrix.assign_entry, ih.2.2 k l]
    by_cases hk : k = i
    · subst hk
      by_cases hl : l = n
      · subst hl
        simp
      · by_cases hlt : l < n
        · simp [hl, hlt, Nat.lt_succ_of_lt hlt]
        · have : ¬ l < n + 1 :=
            fun h => hl (le_antisymm (Nat.lt_succ_iff.mp h) (not_lt.mp hlt))
          simp [hl, hlt, this]
    · simp [hk]

/-- The two nested loops of the matrix `doembed`. -/
theorem loop_assign_matrix {T : Type} (g : ℕ → ℕ → T) (cols n : ℕ) (m : matrix T) :
    (loop (fun w i => loop (fun w j => w.assign i j (g i j)) cols w) n m).rows = m.rows ∧
      (loop (fun w i => loop (fun w j => w.assign i j (g i j)) cols w) n m).cols = m.cols ∧
      ∀ k l, (loop (fun w i => loop (fun w j => w.assign i j (g i j)) cols w) n m).elem k l
        = if k < n ∧ l < cols then g k l else m.elem k l := by
  induction n with
  | zero => exact ⟨rfl, rfl, fun k l => by simp [loop]⟩
  | succ n ih =>
    have hrow := loop_assign_matrix_row g n cols
      (loop (fun w i => loop (fun w j => w.assign i j (g i j)) cols w) n m)
    refine ⟨hrow.1.trans ih.1, hrow.2.1.trans ih.2.1, fun k l => ?_⟩
    show (loop (fun w j => w.assign n j (g n j)) cols
      (loop (fun w i => loop (fun w j => w.assign i j (g i j)) cols w) n m)).elem k l = _
    rw [hrow.2.2 k l, ih.2.2 k l]
    by_cases hk : k = n
    · subst hk
      by_cases hl : l < cols
      · simp [hl]
      · simp [hl]
    · by_cases hlt : k < n
      · simp [hk, hlt, Nat.lt_succ_of_lt hlt]
      · have : ¬ k < n + 1 :=
          fun h => hk (le_antisymm (Nat.lt_succ_iff.mp h) (not_lt.mp hlt))
        simp [hk, hlt, this]

theorem doembed_checks_ok {size : Type} [DecidableEq size] (d h s : size) (N M : Int) :
    doembed_checks d h s N M = .ok () ↔ d = s ∧ h = s ∧ N = M := by
  unfold doembed_checks assertalways
  by_cases h1 : d = s <;> by_cases h2 : h = s <;> by_cases h3 : N = M <;>
    simp [h1, h2, h3, Except.bind]

/-- C13: for every data vector and host vector of length `tau = input_block_size()` and
`N = num_symbols()`, the vector `doembed` succeeds and returns `tx` of length exactly `tau` with
`tx(i) = embed(data(i), host(i))` for every `i < tau`; the matrix `doembed` computes the same
elementwise map, `tx(i, j) = embed(data(i, j), host(i, j))`, over a result with the rows and
columns of the block. -/
theorem doembed_elementwise :
    (∀ (b : direct_blockembedder S ℕ) (N : Int) (data : vector Int) (host tx : vector S),
      data.size = b.input_block_size → host.size = b.input_block_size → N = b.num_symbols →
      (b.doembed N data host tx).1 = .ok () ∧
      (b.doembed N data host tx).2.size = b.input_block_size ∧
      ∀ i, i < b.input_block_size →
        (b.doembed N data host tx).2.elem i = b.embed (data.elem i) (host.elem i)) ∧
    (∀ (b : direct_blockembedder S (ℕ × ℕ)) (N : Int) (data : matrix Int) (host tx : matrix S),
      data.size = b.input_block_size → host.size = b.input_block_size → N = b.num_symbols →
      (b.doembed_matrix N data host tx).1 = .ok () ∧
      (b.doembed_matrix N data host tx).2.rows = b.input_block_size.1 ∧
      (b.doembed_matrix N data host tx).2.cols = b.input_block_size.2 ∧
      ∀ i j, i < b.input_block_size.1 → j < b.input_block_size.2 →
        (b.doembed_matrix N data host tx).2.elem i j
          = b.embed (data.elem i j) (host.elem i j)) := by
  constructor
  · intro b N data host tx hd hh hN
    have hck := (doembed_checks_ok data.size host.size b.input_block_size N
      b.num_symbols).mpr ⟨hd, hh, hN⟩
    have hl := loop_assign_vector (fun i => b.embed (data.elem i) (host.elem i))
      b.input_block_size (tx.init b.input_block_size)
    simp only [direct_blockembedder.doembed, hck]
    refine ⟨trivial, hl.1, fun i hi => ?_⟩
    rw [hl.2 i, if_pos hi]
  · intro b N data host tx hd hh hN
    have hck := (doembed_checks_ok data.size host.size b.input_block_size N
      b.num_symbols).mpr ⟨hd, hh, hN⟩
    have hl := loop_assign_matrix (fun i j => b.embed (data.elem i j) (host.elem i j))
      b.input_block_size.2 b.input_block_size.1 (tx.init b.input_block_size)
    simp only [direct_blockembedder.doembed_matrix, hck]
    refine ⟨trivial, hl.1, hl.2.1, fun i j hi hj => ?_⟩
    rw [hl.2.2 i j, if_pos ⟨hi, hj⟩]

theorem doembed_elementwise_witness :
    ((⟨3, 2, fun d h => d + 10 * h⟩ : direct_blockembedder Int ℕ).doembed 2
        ⟨3, fun i => i⟩ ⟨3, fun i => i + 1⟩ ⟨0, fun _ => 0⟩).1 = .ok () ∧
      ((⟨3, 2, fun d h => d + 10 * h⟩ : direct_blockembedder Int ℕ).doembed 2
        ⟨3, fun i => i⟩ ⟨3, fun i => i + 1⟩ ⟨0, fun _ => 0⟩).2.size = 3 ∧
      ∀ i, i < 3 →
        ((⟨3, 2, fun d h => d + 10 * h⟩ : direct_blockembedder Int ℕ).doembed 2
          ⟨3, fun i => i⟩ ⟨3, fun i => i + 1⟩ ⟨0, fun _ => 0⟩).2.elem i
          = (fun (d h : Int) => d + 10 * h) ((i : ℕ) : Int) ((i : ℕ) + 1 : Int) :=
  (doembed_elementwise (S := Int)).1 ⟨3, 2, fun d h => d + 10 * h⟩ 2 ⟨3, fun i => i⟩
    ⟨3, fun i => i + 1⟩ ⟨0, fun _ => 0⟩ rfl rfl rfl

/-- The inner loop of `doextract`: row `t` of the table is filled like a vector of its own, the
other rows are untouched. -/
theorem loop_assign_table_row {T : Type} (g : ℕ → ℕ → T) (t n : ℕ) (tx : vector (vector T)) :
    (loop (fun w x => w.assign t ((w.elem t).assign x (g t x))) n tx).size = tx.size ∧
      ∀ k, (loop (fun w x => w.assign t ((w.elem t).assign x (g t x))) n tx).elem k
        = if k = t then loop (fun r x => r.assign x (g t x)) n (tx.elem t) else tx.elem k := by
  induction n with
  | zero =>
    refine ⟨rfl, fun k => ?_⟩
    simp only [loop]
    split_ifs with h
    · rw [h]
    · rfl
  | succ n ih =>
    refine ⟨ih.1, fun k => ?_⟩
    show ((loop (fun w x => w.assign t ((w.elem t).assign x (g t x))) n tx).assign t
      (((loop (fun w x => w.assign t ((w.elem t).assign x (g t x))) n tx).elem t).assign n
        (g t n))).elem k = _
    rw [vector.assign_elem, ih.2 t, if_pos rfl, ih.2 k]
    by_cases hk : k = t
    · simp only [hk, if_true]
      rfl
    · simp only [hk, if_false]

/-- The two nested loops of `doextract`: every row below the bound is filled like a vector of
its own. -/
theorem loop_assign_table {T : Type} (g : ℕ → ℕ → T) (M n : ℕ) (tx : vector (vector T)) :
    (loop (fun w t => loop (fun w x => w.assign t ((w.elem t).assign x (g t x))) M w) n
        tx).size = tx.size ∧
      ∀ k, (loop (fun w t => loop (fun w x => w.assign t ((w.elem t).assign x (g t x))) M w) n
          tx).elem k
        = if k < n then loop (fun r x => r.assign x (g k x)) M (tx.elem k) else tx.elem k := by
  induction n with
  | zero => exact ⟨rfl, fun k => by simp [loop]⟩
  | succ n ih =>
    have hrow := loop_assign_table_row g n M
      (loop (fun w t => loop (fun w x => w.assign t ((w.elem t).assign x (g t x))) M w) n tx)
    refine ⟨hrow.1.trans ih.1, fun k => ?_⟩
    show (loop (fun w x => w.assign n ((w.elem n).assign x (g n x))) M
      (loop (fun w t => loop (fun w x => w.assign t ((w.elem t).assign x (g t x))) M w) n
        tx)).elem k = _
    rw [hrow.2 k]
    by_cases hk : k = n
    · subst hk
      rw [if_pos rfl, ih.2 k, if_neg (lt_irrefl k), if_pos (Nat.lt_succ_self k)]
    · rw [if_neg hk, ih.2 k]
      by_cases hlt : k < n
      · rw [if_pos hlt, if_pos (Nat.lt_succ_of_lt hlt)]
      · have : ¬ k < n + 1 :=
          fun h => hk (le_antisymm (Nat.lt_succ_iff.mp h) (not_lt.mp hlt))
        rw [if_neg hlt, if_neg this]

/-- The table of candidates that `doextract` builds: `tau` rows of `M` entries, entry `(t, x)`
being `embed(x, rx(t))`. -/
theorem direct_blockembedder.candidates_spec [Inhabited S] (b : direct_blockembedder S ℕ)
    (rx : vector S) :
    (b.candidates rx).size = b.input_block_size ∧
      ∀ t, t < b.input_block_size →
        ((b.candidates rx).elem t).size = b.num_symbols.toNat ∧
        ∀ x : ℕ, (x : Int) < b.num_symbols →
          ((b.candidates rx).elem t).elem x = b.embed x (rx.elem t) := by
  have hl := loop_assign_table (fun t x => b.embed (x : Int) (rx.elem t)) b.num_symbols.toNat
    b.input_block_size
    (allocate ⟨0, fun _ => ⟨0, fun _ => default⟩⟩ b.input_block_size b.num_symbols.toNat)
  refine ⟨hl.1, fun t ht => ?_⟩
  have hrow : (b.candidates rx).elem t
      = loop (fun r x => r.assign x (b.embed (x : Int) (rx.elem t))) b.num_symbols.toNat
        ⟨b.num_symbols.toNat, fun _ => default⟩ := by
    have := hl.2 t
    rw [if_pos ht] at this
    exact this
  have hv := loop_assign_vector (fun x => b.embed (x : Int) (rx.elem t)) b.num_symbols.toNat
    ⟨b.num_symbols.toNat, fun _ => default⟩
  rw [hrow]
  refine ⟨hv.1, fun x hx => ?_⟩
  rw [hv.2 x, if_pos (by omega)]

/-- C12: for every received vector `rx` whose length is `tau = input_block_size()`, the vector
`doextract` succeeds; the candidate table it builds has exactly `tau` rows of
`M = num_symbols()` entries, entry `(t, x)` being `embed(x, rx(t))` for every `t < tau` and
`x < M`; and the returned `ptable` is the elementwise conversion of the table that
`chan.receive` produces for those candidates and `rx`. -/
theorem doextract_candidate_table {D dbl : Type} [Inhabited S] (b : direct_blockembedder S ℕ)
    (receive : vector (vector S) → vector S → vector (vector D)) (convert : D → dbl)
    (rx : vector S) (ptable : vector (vector dbl)) (hrx : rx.size = b.input_block_size) :
    (b.doextract receive convert rx ptable).1 = .ok () ∧
      (b.doextract receive convert rx ptable).2
        = (receive (b.candidates rx) rx).map (vector.map convert) ∧
      (b.candidates rx).size = b.input_block_size ∧
      ∀ t, t < b.input_block_size →
        ((b.candidates rx).elem t).size = b.num_symbols.toNat ∧
        ∀ x : ℕ, (x : Int) < b.num_symbols →
          ((b.candidates rx).elem t).elem x = b.embed x (rx.elem t) := by
  have hspec := b.candidates_spec rx
  refine ⟨?_, ?_, hspec.1, hspec.2⟩
  · simp [direct_blockembedder.doextract, assertalways, hrx]
  · simp [direct_blockembedder.doextract, assertalways, hrx]

theorem doextract_candidate_table_witness :
    ((⟨2, 3, fun d h => d + 10 * h⟩ : direct_blockembedder Int ℕ).doextract
        (fun tx _ => tx) (fun d : Int => (d : ℚ)) ⟨2, fun i => i + 5⟩ ⟨0, fun _ => ⟨0, fun _ => 0⟩⟩).1
        = .ok () ∧
      ((⟨2, 3, fun d h => d + 10 * h⟩ : direct_blockembedder Int ℕ).doextract
        (fun tx _ => tx) (fun d : Int => (d : ℚ)) ⟨2, fun i => i + 5⟩ ⟨0, fun _ => ⟨0, fun _ => 0⟩⟩).2
        = ((fun (tx : vector (vector Int)) (_ : vector Int) => tx)
            ((⟨2, 3, fun d h => d + 10 * h⟩ : direct_blockembedder Int ℕ).candidates
              ⟨2, fun i => i + 5⟩) ⟨2, fun i => i + 5⟩).map
          (vector.map fun d : Int => (d : ℚ)) ∧
      ((⟨2, 3, fun d h => d + 10 * h⟩ : direct_blockembedder Int ℕ).candidates
        ⟨2, fun i => i + 5⟩).size = 2 ∧
      ∀ t, t < 2 →
        (((⟨2, 3, fun d h => d + 10 * h⟩ : direct_blockembedder Int ℕ).candidates
          ⟨2, fun i => i + 5⟩).elem t).size = (3 : Int).toNat ∧
        ∀ x : ℕ, (x : Int) < 3 →
          (((⟨2, 3, fun d h => d + 10 * h⟩ : direct_blockembedder Int ℕ).candidates
            ⟨2, fun i => i + 5⟩).elem t).elem x
            = (fun (d h : Int) => d + 10 * h) x ((fun i : ℕ => (i : Int) + 5) t) :=
  doextract_candidate_table ⟨2, 3, fun d h => d + 10 * h⟩ (fun tx _ => tx)
    (fun d : Int => (d : ℚ)) ⟨2, fun i => i + 5⟩ ⟨0, fun _ => ⟨0, fun _ => 0⟩⟩ rfl

/-- C14: `doembed` fails with a fatal assertion if and only if `data.size()` differs from
`input_block_size()`, or `host.size()` differs from `input_block_size()`, or `N` differs from
`num_symbols()` (vector and matrix version alike); `doextract` fails if and only if `rx.size()`
differs from `input_block_size()`; in every failing case the output argument (`tx` or
`ptable`) is left unmodified. -/
theorem doembed_doextract_failures {D dbl : Type} [Inhabited S] :
    (∀ (b : direct_blockembedder S ℕ) (N : Int) (data : vector Int) (host tx : vector S),
      ((b.doembed N data host tx).1 ≠ .ok () ↔
        (data.size ≠ b.input_block_size ∨ host.size ≠ b.input_block_size ∨
          N ≠ b.num_symbols)) ∧
      ((b.doembed N data host tx).1 ≠ .ok () → (b.doembed N data host tx).2 = tx)) ∧
    (∀ (b : direct_blockembedder S (ℕ × ℕ)) (N : Int) (data : matrix Int) (host tx : matrix S),
      ((b.doembed_matrix N data host tx).1 ≠ .ok () ↔
        (data.size ≠ b.input_block_size ∨ host.size ≠ b.input_block_size ∨
          N ≠ b.num_symbols)) ∧
      ((b.doembed_matrix N data host tx).1 ≠ .ok () →
        (b.doembed_matrix N data host tx).2 = tx)) ∧
    (∀ (b : direct_blockembedder S ℕ)
      (receive : vector (vector S) → vector S → vector (vector D)) (convert : D → dbl)
      (rx : vector S) (ptable : vector (vector dbl)),
      ((b.doextract receive convert rx ptable).1 ≠ .ok () ↔ rx.size ≠ b.input_block_size) ∧
      ((b.doextract receive convert rx ptable).1 ≠ .ok () →
        (b.doextract receive convert rx ptable).2 = ptable)) := by
  refine ⟨?_, ?_, ?_⟩
  · intro b N data host tx
    have hiff := doembed_checks_ok data.size host.size b.input_block_size N b.num_symbols
    cases hck : doembed_checks data.size host.size b.input_block_size N b.num_symbols with
    | error e =>
      have hnot : ¬ (data.size = b.input_block_size ∧ host.size = b.input_block_size ∧
          N = b.num_symbols) := fun h => by
        have := hiff.mpr h
        rw [hck] at this
        cases this
      simp only [direct_blockembedder.doembed, hck]
      refine ⟨⟨fun _ => ?_, fun _ h => by cases h⟩, fun _ => trivial⟩
      by_contra hcon
      push_neg at hcon
      exact hnot hcon
    | ok u =>
      have hall := hiff.mp hck
      simp only [direct_blockembedder.doembed, hck]
      refine ⟨⟨fun h => absurd rfl h, fun h => ?_⟩, fun h => absurd rfl h⟩
      rcases h with h | h | h
      · exact absurd hall.1 h
      · exact absurd hall.2.1 h
      · exact absurd hall.2.2 h
  · intro b N data host tx
    have hiff := doembed_checks_ok data.size host.size b.input_block_size N b.num_symbols
    cases hck : doembed_checks data.size host.size b.input_block_size N b.num_symbols with
    | error e =>
      have hnot : ¬ (data.size = b.input_block_size ∧ host.size = b.input_block_size ∧
          N = b.num_symbols) := fun h => by
        have := hiff.mpr h
        rw [hck] at this
        cases this
      simp only [direct_blockembedder.doembed_matrix, hck]
      refine ⟨⟨fun _ => ?_, fun _ h => by cases h⟩, fun _ => trivial⟩
      by_contra hcon
      push_neg at hcon
      exact hnot hcon
    | ok u =>
      have hall := hiff.mp hck
      simp only [direct_blockembedder.doembed_matrix, hck]
      refine ⟨⟨fun h => absurd rfl h, fun h => ?_⟩, fun h => absurd rfl h⟩
      rcases h with h | h | h
      · exact absurd hall.1 h
      · exact absurd hall.2.1 h
      · exact absurd hall.2.2 h
  · intro b receive convert rx ptable
    by_cases hrx : rx.size = b.input_block_size
    · simp [direct_blockembedder.doextract, assertalways, hrx]
    · simp [direct_blockembedder.doextract, assertalways, hrx]

theorem doembed_doextract_failures_witness :
    ((⟨3, 2, fun d h => d + 10 * h⟩ : direct_blockembedder Int ℕ).doembed 2
        ⟨2, fun i => i⟩ ⟨3, fun i => i + 1⟩ ⟨1, fun _ => 7⟩).2 = ⟨1, fun _ => 7⟩ :=
  ((@doembed_doextract_failures Int ℚ ℚ _).1
      ⟨3, 2, fun d h => d + 10 * h⟩ 2 ⟨2, fun i => i⟩ ⟨3, fun i => i + 1⟩ ⟨1, fun _ => 7⟩).2
    ((((@doembed_doextract_failures Int ℚ ℚ _).1
      ⟨3, 2, fun d h => d + 10 * h⟩ 2 ⟨2, fun i => i⟩ ⟨3, fun i => i + 1⟩
      ⟨1, fun _ => 7⟩).1).mpr (Or.inl (by decide)))

end embedding

/-! ## The random interleaver -/

section interleaver

/-- C15: for every `tau >= 0` and every `m` with `1 <= m <= 30` (the range in which the `int`
arithmetic of `init` is exact), `init(tau, m)` sets `p = 2^m - 1` and terminates the program
with the fatal error if and only if `tau` is not a multiple of `p`; when `tau` is a multiple
of `p` it returns with `p = 2^m - 1` stored and the lookup table sized to exactly `tau`
entries. -/
theorem rand_lut_init_spec (obj : rand_lut) (tau m : ℕ) (_hm1 : 1 ≤ m) (_hm30 : m ≤ 30) :
    ((∃ e, obj.init tau m = .error e) ↔ ¬ (2 ^ m - 1) ∣ tau) ∧
      ((2 ^ m - 1) ∣ tau →
        ∃ res, obj.init tau m = .ok res ∧ res.p = 2 ^ m - 1 ∧ res.lut.size = tau) := by
  by_cases hdiv : (2 ^ m - 1) ∣ tau
  · have hmod : tau % (2 ^ m - 1) = 0 := Nat.mod_eq_zero_of_dvd hdiv
    have hinit : obj.init tau m = .ok ⟨2 ^ m - 1, obj.lut.init tau⟩ := by
      simp only [rand_lut.init, hmod, ne_eq, not_true_eq_false, if_false]
    refine ⟨⟨fun ⟨e, he⟩ => ?_, fun h => absurd hdiv h⟩, fun _ => ⟨_, hinit, rfl, rfl⟩⟩
    rw [hinit] at he
    cases he
  · have hmod : tau % (2 ^ m - 1) ≠ 0 := fun h => hdiv (Nat.dvd_of_mod_eq_zero h)
    refine ⟨⟨fun _ => hdiv, fun _ => ?_⟩, fun h => absurd h hdiv⟩
    simp only [rand_lut.init, hmod, ne_eq, not_false_eq_true, if_true]
    exact ⟨_, rfl⟩

theorem rand_lut_init_spec_witness :
    ((∃ e, (⟨0, ⟨0, fun _ => 0⟩⟩ : rand_lut).init 6 2 = .error e) ↔ ¬ (2 ^ 2 - 1) ∣ 6) ∧
      ((2 ^ 2 - 1) ∣ 6 →
        ∃ res, (⟨0, ⟨0, fun _ => 0⟩⟩ : rand_lut).init 6 2 = .ok res ∧ res.p = 2 ^ 2 - 1 ∧
          res.lut.size = 6) :=
  rand_lut_init_spec ⟨0, ⟨0, fun _ => 0⟩⟩ 6 2 (by decide) (by decide)

/-- What a successful draw yields: a value inside the table that is not yet used and lies in
the residue class of the position. -/
theorem rand_lut.draw_ok (p t : ℕ) (used : vector Bool) (ival : ℕ → ℕ) (fuel pos : ℕ)
    (r : ℕ × ℕ) (h : rand_lut.draw p t used ival fuel pos = .ok r) :
    r.1 < used.size ∧ used.elem r.1 = false ∧ r.1 % p = t % p := by
  induction fuel generalizing pos with
  | zero => simp [rand_lut.draw] at h
  | succ fuel ih =>
    simp only [rand_lut.draw] at h
    by_cases hlt : ival pos / p * p + t % p < used.size
    · rw [if_pos hlt] at h
      by_cases hu : used.elem (ival pos / p * p + t % p) = true
      · rw [if_pos hu] at h
        exact ih (pos + 1) h
      · rw [if_neg hu] at h
        have hr : r = (ival pos / p * p + t % p, pos + 1) := by
          cases h
          rfl
        subst hr
        refine ⟨hlt, by simpa using hu, ?_⟩
        show (ival pos / p * p + t % p) % p = t % p
        rw [Nat.mul_comm, Nat.mul_add_mod, Nat.mod_mod]
    · rw [if_neg hlt] at h
      cases h

/-- One run of the body of the `for` loop keeps the invariant. -/
theorem rand_lut.advance_body_invariant (p tau : ℕ) (ival : ℕ → ℕ) (fuel n : ℕ)
    (st st' : advance_state) (hinv : advance_invariant p tau n st)
    (h : rand_lut.advance_body p ival fuel st n = .ok st') :
    advance_invariant p tau (n + 1) st' := by
  obtain ⟨hls, hus, hrange, hused, honly, hinj, hmod⟩ := hinv
  unfold rand_lut.advance_body at h
  cases hd : rand_lut.draw p n st.used ival fuel st.pos with
  | error e =>
    rw [hd] at h
    cases h
  | ok r =>
    rw [hd] at h
    simp only [Except.bind] at h
    by_cases hn : n < st.lut.size
    · rw [if_pos hn] at h
      have hst : st' = ⟨st.lut.assign n r.1, st.used.assign r.1 true, r.2⟩ := by
        cases h
        rfl
      obtain ⟨hr_lt, hr_unused, hr_mod⟩ := rand_lut.draw_ok p n st.used ival fuel st.pos r hd
      rw [hus] at hr_lt
      subst hst
      have hlut : ∀ s, (st.lut.assign n r.1).elem s = if s = n then r.1 else st.lut.elem s :=
        fun s => vector.assign_elem _ _ _ _
      have husd : ∀ x, (st.used.assign r.1 true).elem x
          = if x = r.1 then true else st.used.elem x :=
        fun x => vector.assign_elem _ _ _ _
      have hold : ∀ s, s < n + 1 → s ≠ n → s < n :=
        fun s hs hne => lt_of_le_of_ne (Nat.lt_succ_iff.mp hs) hne
      refine ⟨hls, hus, ?_, ?_, ?_, ?_, ?_⟩
      · intro s hs
        show (st.lut.assign n r.1).elem s < tau
        rw [hlut]
        by_cases hsn : s = n
        · rw [if_pos hsn]; exact hr_lt
        · rw [if_neg hsn]; exact hrange s (hold s hs hsn)
      · intro s hs
        show (st.used.assign r.1 true).elem ((st.lut.assign n r.1).elem s) = true
        rw [husd, hlut]
        by_cases hsn : s = n
        · simp [hsn]
        · rw [if_neg hsn]
          split_ifs
          · rfl
          · exact hused s (hold s hs hsn)
      · intro x hx
        have hx' : (if x = r.1 then true else st.used.elem x) = true := by
          rw [← husd]; exact hx
        by_cases hxr : x = r.1
        · refine ⟨n, Nat.lt_succ_self n, ?_⟩
          show (st.lut.assign n r.1).elem n = x
          rw [hlut, if_pos rfl, hxr]
        · rw [if_neg hxr] at hx'
          obtain ⟨s, hs, hsx⟩ := honly x hx'
          refine ⟨s, Nat.lt_succ_of_lt hs, ?_⟩
          show (st.lut.assign n r.1).elem s = x
          rw [hlut, if_neg (ne_of_lt hs), hsx]
      · intro s s' hs hs' heq
        have heq' : (if s = n then r.1 else st.lut.elem s)
            = (if s' = n then r.1 else st.lut.elem s') := by
          rw [← hlut, ← hlut]; exact heq
        by_cases hsn : s = n
        · by_cases hsn' : s' = n
          · rw [hsn, hsn']
          · rw [if_pos hsn, if_neg hsn'] at heq'
            have := hused s' (hold s' hs' hsn')
            rw [← heq', hr_unused] at this
            cases this
        · by_cases hsn' : s' = n
          · rw [if_neg hsn, if_pos hsn'] at heq'
            have := hused s (hold s hs hsn)
            rw [heq', hr_unused] at this
            cases this
          · rw [if_neg hsn, if_neg hsn'] at heq'
            exact hinj s s' (hold s hs hsn) (hold s' hs' hsn') heq'
      · intro s hs
        show (st.lut.assign n r.1).elem s % p = s % p
        rw [hlut]
        by_cases hsn : s = n
        · rw [if_pos hsn, hsn]; exact hr_mod
        · rw [if_neg hsn]; exact hmod s (hold s hs hsn)
    · rw [if_neg hn] at h
      cases h

/-- The `for` loop of `advance` establishes the invariant for all positions it has run
through. -/
theorem rand_lut.advance_loop_invariant (p tau : ℕ) (ival : ℕ → ℕ) (fuel n : ℕ)
    (st0 st : advance_state) (h0 : advance_invariant p tau 0 st0)
    (h : loop_except (rand_lut.advance_body p ival fuel) n st0 = .ok st) :
    advance_invariant p tau n st := by
  induction n generalizing st with
  | zero =>
    have : st = st0 := by
      simp only [loop_except] at h
      cases h
      rfl
    rw [this]
    exact h0
  | succ n ih =>
    simp only [loop_except] at h
    cases hprev : loop_except (rand_lut.advance_body p ival fuel) n st0 with
    | error e =>
      rw [hprev] at h
      cases h
    | ok mid =>
      rw [hprev] at h
      exact rand_lut.advance_body_invariant p tau ival fuel n mid st (ih mid hprev) h

/-- Whenever `advance` returns, the invariant holds for the whole table of the object
returned, whose `p` and table size are those of the object before the call. -/
theorem rand_lut.advance_returns (obj : rand_lut) (ival : ℕ → ℕ) (fuel pos : ℕ)
    (res : rand_lut × ℕ) (h : obj.advance ival fuel pos = .ok res) :
    res.1.p = obj.p ∧
      ∃ st, advance_invariant obj.p obj.lut.size obj.lut.size st ∧ res.1.lut = st.lut := by
  dsimp only [rand_lut.advance] at h
  cases hl : loop_except (rand_lut.advance_body obj.p ival fuel) obj.lut.size
      ⟨obj.lut, ⟨obj.lut.size, fun _ => false⟩, pos⟩ with
  | error e =>
    rw [hl] at h
    cases h
  | ok st =>
    rw [hl] at h
    have hres : res = (⟨obj.p, st.lut⟩, st.pos) := by
      cases h
      rfl
    subst hres
    refine ⟨rfl, st, ?_, rfl⟩
    refine rand_lut.advance_loop_invariant obj.p obj.lut.size ival fuel obj.lut.size _ st ?_ hl
    refine ⟨rfl, rfl, ?_, ?_, ?_, ?_, ?_⟩
    · intro s hs; exact absurd hs (Nat.not_lt_zero s)
    · intro s hs; exact absurd hs (Nat.not_lt_zero s)
    · intro x hx; cases hx
    · intro s s' hs; exact absurd hs (Nat.not_lt_zero s)
    · intro s hs; exact absurd hs (Nat.not_lt_zero s)

/-- What a successful `init` leaves behind. -/
theorem rand_lut.init_ok (obj0 obj : rand_lut) (tau m : ℕ) (h : obj0.init tau m = .ok obj) :
    obj.p = 2 ^ m - 1 ∧ obj.lut.size = tau ∧ (2 ^ m - 1) ∣ tau := by
  unfold rand_lut.init at h
  by_cases hmod : tau % (2 ^ m - 1) = 0
  · simp only [hmod, ne_eq, not_true_eq_false, if_false] at h
    cases h
    exact ⟨rfl, rfl, Nat.dvd_of_mod_eq_zero hmod⟩
  · simp only [hmod, ne_eq, not_false_eq_true, if_true] at h
    cases h

/-- C16: for every `tau` and `p` accepted by `init` (`p >= 1` and `p` divides `tau`) and every
random stream whose `ival(tau)` values lie in `[0, tau)`, whenever `advance` returns, the
lookup table (still of `tau` entries) is a permutation of `0, ..., tau - 1`: every entry lies in
`[0, tau)`, no value occurs twice, and hence every value occurs. -/
theorem advance_is_permutation (obj : rand_lut) (ival : ℕ → ℕ) (fuel pos : ℕ)
    (res : rand_lut × ℕ) (_hp : 1 ≤ obj.p) (_hdiv : obj.p ∣ obj.lut.size)
    (_hival : ∀ k, ival k < obj.lut.size) (h : obj.advance ival fuel pos = .ok res) :
    res.1.lut.size = obj.lut.size ∧
      (∀ t, t < obj.lut.size → res.1.lut.elem t < obj.lut.size) ∧
      (∀ s t, s < obj.lut.size → t < obj.lut.size →
        res.1.lut.elem s = res.1.lut.elem t → s = t) ∧
      (∀ x, x < obj.lut.size → ∃ t, t < obj.lut.size ∧ res.1.lut.elem t = x) := by
  obtain ⟨_, st, ⟨hls, _, hrange, _, _, hinj, _⟩, hlut⟩ :=
    rand_lut.advance_returns obj ival fuel pos res h
  rw [hlut]
  refine ⟨hls, hrange, hinj, ?_⟩
  have hfin : Function.Injective
      (fun t : Fin obj.lut.size => (⟨st.lut.elem t.1, hrange t.1 t.2⟩ : Fin obj.lut.size)) := by
    intro s t hst
    exact Fin.ext (hinj s.1 t.1 s.2 t.2 (congrArg Fin.val hst))
  intro x hx
  obtain ⟨t, ht⟩ := (Finite.injective_iff_surjective.mp hfin) ⟨x, hx⟩
  exact ⟨t.1, t.2, congrArg Fin.val ht⟩

theorem advance_is_permutation_witness :
    ∃ res, (⟨3, ⟨6, fun _ => 0⟩⟩ : rand_lut).advance example_ival 4 0 = .ok res ∧
      res.1.lut.size = 6 ∧
      (∀ t, t < 6 → res.1.lut.elem t < 6) ∧
      (∀ s t, s < 6 → t < 6 → res.1.lut.elem s = res.1.lut.elem t → s = t) ∧
      (∀ x, x < 6 → ∃ t, t < 6 ∧ res.1.lut.elem t = x) := by
  obtain ⟨res, h⟩ : ∃ res, (⟨3, ⟨6, fun _ => 0⟩⟩ : rand_lut).advance example_ival 4 0
      = .ok res := ⟨_, rfl⟩
  exact ⟨res, h, advance_is_permutation ⟨3, ⟨6, fun _ => 0⟩⟩ example_ival 4 0 res
    (by decide) ⟨2, rfl⟩ (fun k => Nat.mod_lt _ (by decide)) h⟩

/-- C17: for every `tau` and `m` accepted by `init` (`1 <= m <= 30`, `tau` a multiple of
`p = 2^m - 1`) and every `t < tau`, whenever `advance` returns, the entry `lut(t)` is congruent
to `t` modulo `p`: the interleaver only moves a position within its residue class. -/
theorem advance_keeps_residue_class (obj0 obj : rand_lut) (tau m : ℕ) (_hm1 : 1 ≤ m)
    (_hm30 : m ≤ 30) (hinit : obj0.init tau m = .ok obj) (ival : ℕ → ℕ) (fuel pos : ℕ)
    (res : rand_lut × ℕ) (h : obj.advance ival fuel pos = .ok res) (t : ℕ) (ht : t < tau) :
    res.1.lut.elem t % (2 ^ m - 1) = t % (2 ^ m - 1) := by
  obtain ⟨hp, hsize, _⟩ := rand_lut.init_ok obj0 obj tau m hinit
  obtain ⟨_, st, ⟨_, _, _, _, _, _, hmod⟩, hlut⟩ :=
    rand_lut.advance_returns obj ival fuel pos res h
  rw [hlut, ← hp]
  exact hmod t (by rw [hsize]; exact ht)

theorem advance_keeps_residue_class_witness :
    ∃ res, (⟨0, ⟨0, fun _ => 0⟩⟩ : rand_lut).init 6 2 = .ok ⟨3, ⟨6, fun _ => 0⟩⟩ ∧
      (⟨3, ⟨6, fun _ => 0⟩⟩ : rand_lut).advance example_ival 4 0 = .ok res ∧
      res.1.lut.elem 4 % (2 ^ 2 - 1) = 4 % (2 ^ 2 - 1) := by
  have hinit : (⟨0, ⟨0, fun _ => 0⟩⟩ : rand_lut).init 6 2 = .ok ⟨3, ⟨6, fun _ => 0⟩⟩ := rfl
  obtain ⟨res, h⟩ : ∃ res, (⟨3, ⟨6, fun _ => 0⟩⟩ : rand_lut).advance example_ival 4 0
      = .ok res := ⟨_, rfl⟩
  exact ⟨res, hinit, h, advance_keeps_residue_class ⟨0, ⟨0, fun _ => 0⟩⟩
    ⟨3, ⟨6, fun _ => 0⟩⟩ 6 2 (by decide) (by decide) hinit example_ival 4 0 res h 4
    (by decide)⟩

/-- The candidate index lies inside the table: `floor(v / p) * p + (t mod p) < tau` when
`p >= 1` divides `tau` and `v < tau`. -/
theorem candidate_index_lt (p tau t v : ℕ) (hp : 1 ≤ p) (hdiv : p ∣ tau) (hv : v < tau) :
    v / p * p + t % p < tau := by
  obtain ⟨k, hk⟩ := hdiv
  have hquot : v / p < k := by
    apply Nat.div_lt_of_lt_mul
    rw [← hk]
    exact hv
  have hrem : t % p < p := Nat.mod_lt t hp
  calc v / p * p + t % p < v / p * p + p := Nat.add_lt_add_left hrem _
    _ = (v / p + 1) * p := by ring
    _ ≤ k * p := Nat.mul_le_mul_right p hquot
    _ = tau := by rw [hk, Nat.mul_comm]

/-- Drawing a value never reads `used` outside its size. -/
theorem rand_lut.draw_in_range (p t : ℕ) (used : vector Bool) (ival : ℕ → ℕ) (fuel pos : ℕ)
    (hp : 1 ≤ p) (hdiv : p ∣ used.size) (hival : ∀ k, ival k < used.size) :
    rand_lut.draw p t used ival fuel pos ≠ .error .out_of_range := by
  induction fuel generalizing pos with
  | zero =>
    intro h
    simp [rand_lut.draw] at h
  | succ fuel ih =>
    have hlt := candidate_index_lt p used.size t (ival pos) hp hdiv (hival pos)
    simp only [rand_lut.draw, if_pos hlt]
    by_cases hu : used.elem (ival pos / p * p + t % p) = true
    · rw [if_pos hu]
      exact ih (pos + 1)
    · rw [if_neg hu]
      intro h
      cases h

/-- One run of the body of the `for` loop, at a position inside the table, makes no access out
of range and keeps the sizes of the table and of the flags. -/
theorem rand_lut.advance_body_in_range (p tau : ℕ) (ival : ℕ → ℕ) (fuel n : ℕ)
    (st : advance_state) (hp : 1 ≤ p) (hdiv : p ∣ tau) (hival : ∀ k, ival k < tau)
    (hls : st.lut.size = tau) (hus : st.used.size = tau) (hn : n < tau) :
    rand_lut.advance_body p ival fuel st n ≠ .error .out_of_range ∧
      ∀ st', rand_lut.advance_body p ival fuel st n = .ok st' →
        st'.lut.size = tau ∧ st'.used.size = tau := by
  have hdraw := rand_lut.draw_in_range p n st.used ival fuel st.pos hp (by rw [hus]; exact hdiv)
    (by rw [hus]; exact hival)
  have hn' : n < st.lut.size := by rw [hls]; exact hn
  unfold rand_lut.advance_body
  cases hd : rand_lut.draw p n st.used ival fuel st.pos with
  | error e =>
    simp only [Except.bind]
    refine ⟨fun h => ?_, fun st' h => by cases h⟩
    cases h
    exact hdraw hd
  | ok r =>
    simp only [Except.bind, if_pos hn']
    refine ⟨fun h => (by cases h), fun st' h => ?_⟩
    cases h
    exact ⟨hls, hus⟩

/-- The `for` loop of `advance` makes no access out of range. -/
theorem rand_lut.advance_loop_in_range (p tau : ℕ) (ival : ℕ → ℕ) (fuel n : ℕ)
    (st0 : advance_state) (hp : 1 ≤ p) (hdiv : p ∣ tau) (hival : ∀ k, ival k < tau)
    (hls : st0.lut.size = tau) (hus : st0.used.size = tau) (hn : n ≤ tau) :
    loop_except (rand_lut.advance_body p ival fuel) n st0 ≠ .error .out_of_range ∧
      ∀ st, loop_except (rand_lut.advance_body p ival fuel) n st0 = .ok st →
        st.lut.size = tau ∧ st.used.size = tau := by
  induction n with
  | zero =>
    refine ⟨fun h => (by cases h), fun st h => ?_⟩
    simp only [loop_except] at h
    cases h
    exact ⟨hls, hus⟩
  | succ n ih =>
    obtain ⟨hne, hsizes⟩ := ih (Nat.le_of_succ_le hn)
    simp only [loop_except]
    cases hprev : loop_except (rand_lut.advance_body p ival fuel) n st0 with
    | error e =>
      simp only [Except.bind]
      refine ⟨fun h => ?_, fun st h => by cases h⟩
      cases h
      exact hne hprev
    | ok mid =>
      simp only [Except.bind]
      obtain ⟨hml, hmu⟩ := hsizes mid hprev
      exact rand_lut.advance_body_in_range p tau ival fuel n mid hp hdiv hival hml hmu
        (Nat.lt_of_succ_le hn)

/-- C25: for every `tau` and `p` accepted by `init` (`p >= 1` and `p` divides `tau`), every
`t < tau` and every random value `v` in `[0, tau)`, the candidate index
`floor(v / p) * p + (t mod p)` computed by `advance` lies in `[0, tau)`; so, for every random
stream with values in `[0, tau)`, the reads and writes of `used(tdash)` and the writes of
`lut(t)` are in range: a call of `advance` never makes an access out of range. -/
theorem advance_indices_in_range (obj : rand_lut) (ival : ℕ → ℕ) (fuel pos : ℕ)
    (hp : 1 ≤ obj.p) (hdiv : obj.p ∣ obj.lut.size) (hival : ∀ k, ival k < obj.lut.size) :
    (∀ t v, t < obj.lut.size → v < obj.lut.size →
        v / obj.p * obj.p + t % obj.p < obj.lut.size) ∧
      obj.advance ival fuel pos ≠ .error .out_of_range := by
  refine ⟨fun t v _ hv => candidate_index_lt obj.p obj.lut.size t v hp hdiv hv, ?_⟩
  have hloop := (rand_lut.advance_loop_in_range obj.p obj.lut.size ival fuel obj.lut.size
    ⟨obj.lut, ⟨obj.lut.size, fun _ => false⟩, pos⟩ hp hdiv hival rfl rfl (le_refl _)).1
  dsimp only [rand_lut.advance]
  cases hl : loop_except (rand_lut.advance_body obj.p ival fuel) obj.lut.size
      ⟨obj.lut, ⟨obj.lut.size, fun _ => false⟩, pos⟩ with
  | error e =>
    intro h
    simp only [Except.map] at h
    cases h
    exact hloop hl
  | ok st =>
    intro h
    simp only [Except.map] at h
    cases h

theorem advance_indices_in_range_witness :
    (∀ t v, t < 6 → v < 6 → v / 3 * 3 + t % 3 < 6) ∧
      (⟨3, ⟨6, fun _ => 0⟩⟩ : rand_lut).advance example_ival 4 0 ≠ .error .out_of_range :=
  advance_indices_in_range ⟨3, ⟨6, fun _ => 0⟩⟩ example_ival 4 0 (by decide) ⟨2, rfl⟩
    (fun k => Nat.mod_lt _ (by decide))

end interleaver

/-! ## Noise generation of the Laplacian channel -/

section noise

/-- For `lambda > 0` all operations of `f` yield finite numbers, and the likelihood is the
positive number `f(rx - tx)`. -/
theorem basic_laplacian.pdf_finite_of_pos (c : basic_laplacian ℝ) (hl : 0 < c.lambda)
    (tx rx : ℝ) : c.pdf_finite tx rx = some (c.pdf tx rx) ∧ 0 < c.pdf tx rx := by
  have hne : c.lambda ≠ 0 := ne_of_gt hl
  have h2 : 2 * c.lambda ≠ 0 := mul_ne_zero two_ne_zero hne
  refine ⟨?_, ?_⟩
  · simp only [basic_laplacian.pdf_finite, basic_laplacian.f_finite, finite_div, if_neg h2,
      if_neg hne, Option.bind, basic_laplacian.pdf, basic_laplacian.f]
  · unfold basic_laplacian.pdf basic_laplacian.f
    exact mul_pos (one_div_pos.mpr (by positivity)) (Real.exp_pos _)

/-- C23 (the code at the failing input): `set_parameter(0)` is accepted and stores
`lambda = 0`; the divisors `2 * lambda` and `lambda` used by `f` are then zero, and
`pdf(tx, rx)` is a finite number for no `tx` and `rx`. -/
theorem laplacian_zero_parameter_accepted :
    ((⟨1⟩ : basic_laplacian ℝ).set_parameter 0).1 = .ok () ∧
      ((⟨1⟩ : basic_laplacian ℝ).set_parameter 0).2.lambda = 0 ∧
      2 * ((⟨1⟩ : basic_laplacian ℝ).set_parameter 0).2.lambda = 0 ∧
      ∀ tx rx : ℝ, ((⟨1⟩ : basic_laplacian ℝ).set_parameter 0).2.pdf_finite tx rx = none := by
  have hset : (⟨1⟩ : basic_laplacian ℝ).set_parameter 0 = (.ok (), ⟨0⟩) := by
    simp [basic_laplacian.set_parameter, assertalways]
  rw [hset]
  refine ⟨rfl, rfl, mul_zero 2, fun tx rx => ?_⟩
  simp [basic_laplacian.pdf_finite, basic_laplacian.f_finite, finite_div]

/-- For `lambda > 0` and a variate strictly between 0 and 1 the logarithm in `Finv` is taken of
a positive number and the noise sample is the finite number `Finv(u)`. -/
theorem basic_laplacian.Finv_finite_of_open (c : basic_laplacian ℝ) (u : ℝ) (h0 : 0 < u)
    (h1 : u < 1) : c.Finv_finite u = some (c.Finv u) := by
  by_cases hu : u < 0.5
  · have hpos : 0 < 2 * u := by linarith
    simp only [basic_laplacian.Finv_finite, basic_laplacian.Finv, if_pos hu, finite_log,
      if_pos hpos, Option.map_some']
  · have hpos : 0 < 2 * (1 - u) := by linarith
    simp only [basic_laplacian.Finv_finite, basic_laplacian.Finv, if_neg hu, finite_log,
      if_pos hpos, Option.map_some']

/-- C24 (the code at the failing inputs): for `lambda = 1` and the variates `u = 0` and `u = 1`
of the closed interval, `Finv` takes the logarithm of zero (`2 * u = 0`, respectively
`2 * (1 - u) = 0`), so the noise sample is not a finite number. -/
theorem laplacian_Finv_at_endpoints :
    (0 : ℝ) ∈ Set.Icc (0 : ℝ) 1 ∧ (1 : ℝ) ∈ Set.Icc (0 : ℝ) 1 ∧
      (0 : ℝ) < (⟨1⟩ : basic_laplacian ℝ).lambda ∧
      (⟨1⟩ : basic_laplacian ℝ).Finv_finite 0 = none ∧
      (⟨1⟩ : basic_laplacian ℝ).Finv_finite 1 = none ∧
      finite_log (2 * 0) = none ∧ finite_log (2 * (1 - 1)) = none := by
  have h0 : (0 : ℝ) < 0.5 := by norm_num
  have h1 : ¬ ((1 : ℝ) < 0.5) := by norm_num
  refine ⟨⟨le_refl 0, zero_le_one⟩, ⟨zero_le_one, le_refl 1⟩, one_pos, ?_, ?_, ?_, ?_⟩
  · simp [basic_laplacian.Finv_finite, finite_log, h0]
  · simp [basic_laplacian.Finv_finite, finite_log, h1]
  · simp [finite_log]
  · simp [finite_log]

end noise

/-! ## Printing a log-domain value -/

section printing

/-- The 32-bit value of an exact result that fits an `int` is that result. -/
theorem wrap32_of_fits (n : Int) (hlo : -2 ^ 31 ≤ n) (hhi : n < 2 ^ 31) : wrap32 n = n := by
  unfold wrap32
  have hlt : n + 2 ^ 31 < 2 ^ 32 := by omega
  have hge : 0 ≤ n + 2 ^ 31 := by omega
  rw [Int.emod_eq_of_lt hge hlt]
  ring

/-- C22 (as stated, refuted): for the log-domain value with `logval = -(2^31) * ln 10`, which
represents `v = 10^(2^31)`, `floor(lg)` is `2^31` and does not fit the `int` to which it is
converted: the exponent printed is `-2^31` and not `floor(lg)`. -/
theorem logreal_output_exponent_overflow :
    ⌊-(-(2 ^ 31 : ℝ) * Real.log 10) / Real.log 10⌋ = 2 ^ 31 ∧
      (logreal.operator_out ⟨((-(2 ^ 31 : ℝ) * Real.log 10 : ℝ) : WithTop ℝ)⟩).map Prod.snd
        = some (-2 ^ 31) ∧
      (-2 ^ 31 : Int) ≠ 2 ^ 31 := by
  have hlog : Real.log 10 ≠ 0 := ne_of_gt (Real.log_pos (by norm_num))
  have hlg : -(-(2 ^ 31 : ℝ) * Real.log 10) / Real.log 10 = ((2 ^ 31 : Int) : ℝ) := by
    field_simp
  have hfloor : ⌊-(-(2 ^ 31 : ℝ) * Real.log 10) / Real.log 10⌋ = 2 ^ 31 := by
    rw [hlg, Int.floor_intCast]
  refine ⟨hfloor, ?_, by decide⟩
  show Option.map Prod.snd (some ((10 : ℝ) ^ (-(-(2 ^ 31 : ℝ) * Real.log 10) / Real.log 10
      - (⌊-(-(2 ^ 31 : ℝ) * Real.log 10) / Real.log 10⌋ : ℝ)),
    wrap32 ⌊-(-(2 ^ 31 : ℝ) * Real.log 10) / Real.log 10⌋)) = some (-2 ^ 31)
  rw [hfloor]
  simp only [Option.map_some']
  decide

/-- C22 (amended): for every logreal `x`, which stores `logval = -ln(v)` for the value `v > 0`
it represents, and for which `floor(lg)` fits an `int` (`-2^31 <= floor(lg) < 2^31`),
`operator<<` prints a mantissa `m` and an integer exponent `e` with
`m = 10^(lg - floor(lg))` and `e = floor(lg)` for `lg = -logval / ln(10)`, so that
`1 <= m < 10` and `m * 10^e = v`. -/
theorem logreal_output_mantissa_exponent (a : ℝ)
    (hlo : -2 ^ 31 ≤ ⌊-a / Real.log 10⌋) (hhi : ⌊-a / Real.log 10⌋ < 2 ^ 31) :
    ∃ m e, logreal.operator_out ⟨(a : WithTop ℝ)⟩ = some (m, e) ∧
      m = (10 : ℝ) ^ (-a / Real.log 10 - (⌊-a / Real.log 10⌋ : ℝ)) ∧
      e = ⌊-a / Real.log 10⌋ ∧ 1 ≤ m ∧ m < 10 ∧
      m * (10 : ℝ) ^ (e : ℝ) = Real.exp (-a) ∧
      Real.exp (-a) = ((⟨(a : WithTop ℝ)⟩ : logreal).value : ℝ) := by
  have hlog : Real.log 10 ≠ 0 := ne_of_gt (Real.log_pos (by norm_num))
  have h10 : (0 : ℝ) < 10 := by norm_num
  refine ⟨_, _, rfl, rfl, wrap32_of_fits _ hlo hhi, ?_, ?_, ?_, rfl⟩
  · exact Real.one_le_rpow (by norm_num) (sub_nonneg.mpr (Int.floor_le _))
  · have hfrac : -a / Real.log 10 - (⌊-a / Real.log 10⌋ : ℝ) < 1 := by
      have := Int.lt_floor_add_one (-a / Real.log 10)
      linarith
    calc (10 : ℝ) ^ (-a / Real.log 10 - (⌊-a / Real.log 10⌋ : ℝ))
        < (10 : ℝ) ^ (1 : ℝ) := Real.rpow_lt_rpow_of_exponent_lt (by norm_num) hfrac
      _ = 10 := Real.rpow_one 10
  · rw [wrap32_of_fits _ hlo hhi, ← Real.rpow_add h10, sub_add_cancel,
      Real.rpow_def_of_pos h10]
    congr 1
    field_simp
    ring

theorem logreal_output_mantissa_exponent_witness :
    ∃ m e, logreal.operator_out ⟨((0 : ℝ) : WithTop ℝ)⟩ = some (m, e) ∧
      m = (10 : ℝ) ^ (-0 / Real.log 10 - (⌊-(0 : ℝ) / Real.log 10⌋ : ℝ)) ∧
      e = ⌊-(0 : ℝ) / Real.log 10⌋ ∧ 1 ≤ m ∧ m < 10 ∧
      m * (10 : ℝ) ^ (e : ℝ) = Real.exp (-0) ∧
      Real.exp (-0) = ((⟨((0 : ℝ) : WithTop ℝ)⟩ : logreal).value : ℝ) :=
  logreal_output_mantissa_exponent 0 (by simp) (by simp)

end printing

end libcomm
